import Mathlib

/-!
Verification model of the convex-firecrawl-scrape component.

The definitions below are a shallow embedding of the repository's core:

* `src/component/url.ts` — URL validation (`validateUrl`,
  `formatValidationError`), normalization (`normalizeUrl`) and the tracking
  parameter tables.  The host platform's WHATWG `URL` parser and
  `URLSearchParams` are external primitives of the JavaScript runtime, not
  repository code; they are modelled here by `parseURL` and the
  `parseSearchParams`/`serializeParams` machinery.  The model is restricted to
  the ASCII fragment of the WHATWG grammar (no userinfo, no bracketed IPv6
  hosts, no dot path segments, no leading-zero ports, percent-coding at the
  byte level); inputs outside that fragment make `parseURL` return `none`.
  `crypto.subtle.digest("SHA-256", ...)` is likewise a platform primitive and
  is modelled as an abstract function parameter `hash : String → String` of
  the database operations.
* `src/component/config.ts` — the `CONFIG` constants.
* `src/component/schema.ts` — the `scrapes` table (`Scrape`), with the
  database modelled as a `List Scrape` in descending `_creationTime` order
  (newest first) and Convex file storage as a `List Nat` of live file ids.
* `src/component/lib.ts` — the queries and mutations (`getCached`,
  `getByUrl`, `startScrape`, `invalidate`, `completeScrape`, `failScrape`,
  `cleanupExpired`, `markStuckJobsFailed`) and the pure content-tiering core
  of `scrapeAction` (`processContent`).  JavaScript timestamps are modelled
  as `Int` milliseconds.  A thrown error is modelled by `Except.error`; the
  error constructor carries no database, modelling Convex's rollback of the
  whole mutation.
-/

/- ===================================================================
   ASCII character helpers (model of JS / WHATWG character primitives)
   =================================================================== -/

def asciiUpperAlpha (c : Char) : Bool := 65 ≤ c.toNat && c.toNat ≤ 90

def asciiLowerAlpha (c : Char) : Bool := 97 ≤ c.toNat && c.toNat ≤ 122

def asciiAlpha (c : Char) : Bool := asciiUpperAlpha c || asciiLowerAlpha c

def asciiDigit (c : Char) : Bool := 48 ≤ c.toNat && c.toNat ≤ 57

/-- ASCII lower-casing of one character; on the parser's ASCII host/scheme
domain this agrees with JavaScript's `toLowerCase()`. -/
def asciiLower (c : Char) : Char :=
  if asciiUpperAlpha c then Char.ofNat (c.toNat + 32) else c

def lowerStr (s : String) : String := String.mk (s.data.map asciiLower)

/-- Substring test used to state that an error message mentions a phrase. -/
def matchesAt : List Char → List Char → Bool
  | [], _ => true
  | _ :: _, [] => false
  | a :: as, b :: bs => a == b && matchesAt as bs

def hasSub (hay needle : List Char) : Bool :=
  match hay with
  | [] => needle.isEmpty
  | _ :: t => matchesAt needle hay || hasSub t needle

def strContains (hay needle : String) : Bool := hasSub hay.data needle.data

/-- Model of JavaScript `String.prototype.startsWith`. -/
def strStarts (s pre : String) : Bool := matchesAt pre.data s.data

/-- Model of JavaScript `String.prototype.endsWith`. -/
def strEnds (s suf : String) : Bool := matchesAt suf.data.reverse s.data.reverse

def flatMapChars (f : Char → List Char) : List Char → List Char
  | [] => []
  | c :: t => f c ++ flatMapChars f t

/- ===================================================================
   CONFIG (src/component/config.ts)
   =================================================================== -/

namespace CONFIG

def DEFAULT_TTL_MS : Int := 30 * 24 * 60 * 60 * 1000

def FILE_STORAGE_THRESHOLD_BYTES : Nat := 1024 * 1024

def DEFAULT_RATE_LIMIT_PER_MINUTE : Nat := 100

def STUCK_JOB_TIMEOUT_MS : Int := 5 * 60 * 1000

def CLEANUP_BATCH_SIZE : Nat := 100

def MAX_URL_LENGTH : Nat := 2000

def MAX_LIST_LIMIT : Nat := 100

def DEFAULT_LIST_LIMIT : Nat := 50

end CONFIG

/- ===================================================================
   WHATWG URL parser model (JS `new URL(...)`, ASCII fragment)
   =================================================================== -/

/-- Result of the platform URL parser, holding exactly the properties the
repository reads: `protocol` (lower case, with trailing colon), `hostname`
(lower case), `port` (decimal string, empty when absent or equal to the
scheme's default), `pathname` (always starting with a slash) and `search`
(empty, or a query preceded by a question mark).  Fragments are dropped. -/
structure URLRec where
  protocol : String
  hostname : String
  port : String
  pathname : String
  search : String
deriving DecidableEq, Repr

def isSchemeChar (c : Char) : Bool :=
  asciiAlpha c || asciiDigit c || c == '+' || c == '-' || c == '.'

def isHostChar (c : Char) : Bool :=
  asciiAlpha c || asciiDigit c || c == '.' || c == '-' || c == '_'

/-- Path characters the platform parser leaves verbatim: printable ASCII
minus the separators and the characters WHATWG percent-encodes in paths. -/
def isPathChar (c : Char) : Bool :=
  33 ≤ c.toNat && c.toNat ≤ 126 &&
    !([0x3F, 0x23, 0x5C, 0x22, 0x3C, 0x3E, 0x60, 0x5E, 0x7B, 0x7C, 0x7D].contains c.toNat)

/-- Query characters accepted verbatim: ASCII space through tilde, minus the
fragment delimiter. -/
def isQueryChar (c : Char) : Bool :=
  32 ≤ c.toNat && c.toNat ≤ 126 && c.toNat != 0x23

def isAuthDelim (c : Char) : Bool := c == '/' || c == '?' || c == '#'

/-- Splits a character list at every occurrence of a separator. -/
def splitOnChar (c : Char) : List Char → List (List Char)
  | [] => [[]]
  | a :: t =>
    if a == c then [] :: splitOnChar c t
    else
      match splitOnChar c t with
      | [] => [[a]]
      | s :: ss => (a :: s) :: ss

/-- A path segment is rejected when it is a WHATWG dot segment (which the
platform parser would resolve away; such inputs are outside this model). -/
def segOk (seg : List Char) : Bool := !(seg == ['.']) && !(seg == ['.', '.'])

def digitsToNat (l : List Char) : Nat :=
  l.foldl (fun acc c => 10 * acc + (c.toNat - 48)) 0

/-- Port parsing: empty or colon-plus-decimal-digits; the platform drops the
scheme's default port and rejects ports above 65535.  Ports with leading
zeros are outside the model (the platform would canonicalize them). -/
def parsePort (scheme : String) (portPart : List Char) : Option String :=
  match portPart with
  | [] => some ""
  | ':' :: ds =>
    if ds.isEmpty then some ""
    else if !ds.all asciiDigit then none
    else if decide (2 ≤ ds.length) && ds.headD '0' == '0' then none
    else if decide (65536 ≤ digitsToNat ds) then none
    else if (scheme == "http" && ds == ['8', '0']) ||
        (scheme == "https" && ds == ['4', '4', '3']) then some ""
    else some (String.mk ds)
  | _ => none

def parsePath (r2 : List Char) : Option (List Char × List Char) :=
  match r2 with
  | '/' :: _ =>
    let p := r2.takeWhile (fun c => !(c == '?' || c == '#'))
    let r3 := r2.dropWhile (fun c => !(c == '?' || c == '#'))
    if !p.all isPathChar then none
    else if !(splitOnChar '/' p).all segOk then none
    else some (p, r3)
  | _ => some (['/'], r2)

def parseQuery (r3 : List Char) : Option (List Char) :=
  match r3 with
  | '?' :: t =>
    let q := t.takeWhile (fun c => c != '#')
    if q.all isQueryChar then some q else none
  | _ => some []

def parseURLChars (l : List Char) : Option URLRec :=
  let sch := l.takeWhile isSchemeChar
  let rest := l.dropWhile isSchemeChar
  match sch with
  | [] => none
  | c0 :: _ =>
    if !asciiAlpha c0 then none
    else
      match rest with
      | ':' :: '/' :: '/' :: r1 =>
        let auth := r1.takeWhile (fun c => !isAuthDelim c)
        let r2 := r1.dropWhile (fun c => !isAuthDelim c)
        let host := auth.takeWhile (fun c => c != ':')
        let portPart := auth.dropWhile (fun c => c != ':')
        if host.isEmpty then none
        else if !host.all isHostChar then none
        else
          match parsePort (String.mk (sch.map asciiLower)) portPart with
          | none => none
          | some portStr =>
            match parsePath r2 with
            | none => none
            | some (path, r3) =>
              match parseQuery r3 with
              | none => none
              | some q =>
                some {
                  protocol := String.mk (sch.map asciiLower) ++ ":"
                  hostname := String.mk (host.map asciiLower)
                  port := portStr
                  pathname := String.mk path
                  search := if q.isEmpty then "" else String.mk ('?' :: q) }
      | _ => none

/-- Model of the platform's `new URL(url)`; `none` models a thrown
`TypeError` (and also the inputs outside this model's ASCII fragment). -/
def parseURL (s : String) : Option URLRec := parseURLChars s.data

/- ===================================================================
   URLSearchParams model (byte-level application/x-www-form-urlencoded)
   =================================================================== -/

def hexVal (c : Char) : Option Nat :=
  if asciiDigit c then some (c.toNat - 48)
  else if 97 ≤ c.toNat && c.toNat ≤ 102 then some (c.toNat - 87)
  else if 65 ≤ c.toNat && c.toNat ≤ 70 then some (c.toNat - 55)
  else none

/-- Form-urlencoded decoding: plus becomes space, a percent sign followed by
two hex digits becomes the byte they denote (kept as a single character:
the model works at the byte level, where JavaScript would run the bytes
through UTF-8 with replacement characters). -/
def formDecodeChars : List Char → List Char
  | [] => []
  | c :: t =>
    if c == '+' then ' ' :: formDecodeChars t
    else if c == '%' then
      match t with
      | a :: b :: t2 =>
        match hexVal a, hexVal b with
        | some x, some y => Char.ofNat (16 * x + y) :: formDecodeChars t2
        | _, _ => c :: formDecodeChars (a :: b :: t2)
      | u => c :: formDecodeChars u
    else c :: formDecodeChars t
termination_by l => l.length

def hexDigitUpper (n : Nat) : Char :=
  if n < 10 then Char.ofNat (48 + n)
  else if n < 16 then Char.ofNat (55 + n)
  else '0'

/-- Characters the form-urlencoded serializer keeps verbatim. -/
def isFormSafe (c : Char) : Bool :=
  asciiAlpha c || asciiDigit c || c == '*' || c == '-' || c == '.' || c == '_'

def encChar (c : Char) : List Char :=
  if isFormSafe c then [c]
  else if c == ' ' then ['+']
  else ['%', hexDigitUpper (c.toNat / 16), hexDigitUpper (c.toNat % 16)]

def formEncode (s : String) : List Char := flatMapChars encChar s.data

/-- Model of `new URLSearchParams(search)`: strip one leading question mark,
split on ampersands, skip empty pieces, split each piece at its first equals
sign, and form-decode names and values. -/
def parseSearchParams (search : String) : List (String × String) :=
  let s := match search.data with | '?' :: t => t | l => l
  (splitOnChar '&' s).filterMap fun piece =>
    if piece.isEmpty then none
    else
      let name := piece.takeWhile (fun c => c != '=')
      let value := match piece.dropWhile (fun c => c != '=') with
        | _ :: v => v
        | [] => []
      some (String.mk (formDecodeChars name), String.mk (formDecodeChars value))

/-- Model of `URLSearchParams.get`: first value for the name, if any. -/
def getParam (l : List (String × String)) (n : String) : Option String :=
  (l.find? (fun p => p.1 == n)).map (fun p => p.2)

/-- Model of `URLSearchParams.set`: replace the first entry with the name and
drop any further ones, or append at the end when the name is absent. -/
def setParam (l : List (String × String)) (n v : String) : List (String × String) :=
  match l with
  | [] => [(n, v)]
  | (a, b) :: t =>
    if a == n then (a, v) :: t.filter (fun p => p.1 != n)
    else (a, b) :: setParam t n v

def joinAmp : List (List Char) → List Char
  | [] => []
  | [x] => x
  | x :: y :: t => x ++ '&' :: joinAmp (y :: t)

/-- Model of `URLSearchParams.toString`. -/
def serializeParams (l : List (String × String)) : String :=
  String.mk (joinAmp (l.map fun p => formEncode p.1 ++ '=' :: formEncode p.2))

/-- Lexicographic comparison by character code, the default comparator of
`Array.prototype.sort` on the model's domain. -/
def listLe : List Char → List Char → Bool
  | [], _ => true
  | _ :: _, [] => false
  | a :: as, b :: bs =>
    if a.toNat < b.toNat then true
    else if b.toNat < a.toNat then false
    else listLe as bs

def strLe (a b : String) : Bool := listLe a.data b.data

/-- Stable insertion used to model the (stable) `Array.prototype.sort`. -/
def insertSorted (x : String) : List String → List String
  | [] => [x]
  | y :: t => if strLe y x then y :: insertSorted x t else x :: y :: t

def sortStrs (l : List String) : List String :=
  l.foldl (fun acc x => insertSorted x acc) []

/- ===================================================================
   url.ts — tracking parameters, validation, normalization
   =================================================================== -/

def TRACKING_PARAMS : List String :=
  ["utm_source", "utm_medium", "utm_campaign", "utm_term", "utm_content",
   "utm_id", "utm_source_platform", "utm_creative_format",
   "utm_marketing_tactic", "gclid", "gclsrc", "dclid",
   "fbclid", "fb_action_ids", "fb_action_types", "fb_source", "fb_ref",
   "msclkid", "twclid",
   "hsa_acc", "hsa_cam", "hsa_grp", "hsa_ad", "hsa_src", "hsa_tgt",
   "hsa_kw", "hsa_mt", "hsa_net", "hsa_ver",
   "ref", "source", "mc_cid", "mc_eid", "_ga", "_gl"]

def isTrackingParam (name : String) : Bool :=
  let lowerName := lowerStr name
  TRACKING_PARAMS.contains lowerName || strStarts lowerName "utm_"

def digits13 (s : List Char) : Bool :=
  decide (1 ≤ s.length ∧ s.length ≤ 3) && s.all asciiDigit

def patLocalhost (h : String) : Bool := h == "localhost"

def pat127 (h : String) : Bool :=
  match splitOnChar '.' h.data with
  | [a, b, c, d] => a == "127".data && digits13 b && digits13 c && digits13 d
  | _ => false

def patV6Loop (h : String) : Bool := h == "::1" || h == "[::1]"

def pat10 (h : String) : Bool :=
  match splitOnChar '.' h.data with
  | [a, b, c, d] => a == "10".data && digits13 b && digits13 c && digits13 d
  | _ => false

def range172 : List (List Char) :=
  ["16", "17", "18", "19", "20", "21", "22", "23", "24", "25", "26", "27",
   "28", "29", "30", "31"].map String.data

def pat172 (h : String) : Bool :=
  match splitOnChar '.' h.data with
  | [a, b, c, d] => a == "172".data && range172.contains b && digits13 c && digits13 d
  | _ => false

def pat192168 (h : String) : Bool :=
  match splitOnChar '.' h.data with
  | [a, b, c, d] => a == "192".data && b == "168".data && digits13 c && digits13 d
  | _ => false

def pat169254 (h : String) : Bool :=
  match splitOnChar '.' h.data with
  | [a, b, c, d] => a == "169".data && b == "254".data && digits13 c && digits13 d
  | _ => false

def isHexLower (c : Char) : Bool := asciiDigit c || (97 ≤ c.toNat && c.toNat ≤ 102)

def patFe80 (h : String) : Bool := strStarts h "fe80:"

def patFc00 (h : String) : Bool := strStarts h "fc00:"

def patFd (h : String) : Bool :=
  match h.data with
  | 'f' :: 'd' :: x :: y :: ':' :: _ => isHexLower x && isHexLower y
  | _ => false

def patZero (h : String) : Bool := h == "0.0.0.0"

def patBracketColon (h : String) : Bool := h == "[::]"

/-- Disjunction of the `PRIVATE_IP_PATTERNS` of url.ts, applied to the
already-lower-cased hostname. -/
def isPrivateIpHost (h : String) : Bool :=
  patLocalhost h || pat127 h || patV6Loop h || pat10 h || pat172 h ||
    pat192168 h || pat169254 h || patFe80 h || patFc00 h || patFd h ||
    patZero h || patBracketColon h

def BLOCKED_HOSTNAME_SUFFIXES : List String := [".local", ".internal", ".localhost"]

def hasBlockedSuffix (h : String) : Bool :=
  BLOCKED_HOSTNAME_SUFFIXES.any (fun suf => strEnds h suf)

inductive UrlValidationError where
  | too_long (maxLength actualLength : Nat)
  | invalid_url (message : String)
  | invalid_scheme (scheme : String)
  | private_ip (hostname : String)
  | blocked_hostname (hostname : String)
deriving DecidableEq, Repr

inductive UrlValidationResult where
  | valid
  | invalid (error : UrlValidationError)
deriving DecidableEq, Repr

/-- Embedding of `validateUrl` from url.ts. -/
def validateUrl (url : String) : UrlValidationResult :=
  if url.length > CONFIG.MAX_URL_LENGTH then
    .invalid (.too_long CONFIG.MAX_URL_LENGTH url.length)
  else
    match parseURL url with
    | none => .invalid (.invalid_url "Invalid URL format")
    | some parsed =>
      if parsed.protocol != "http:" && parsed.protocol != "https:" then
        .invalid (.invalid_scheme parsed.protocol)
      else
        let hostname := lowerStr parsed.hostname
        if isPrivateIpHost hostname then .invalid (.private_ip hostname)
        else if hasBlockedSuffix hostname then .invalid (.blocked_hostname hostname)
        else .valid

/-- Embedding of `formatValidationError` from url.ts. -/
def formatValidationError : UrlValidationError → String
  | .too_long maxLength actualLength =>
    "URL exceeds maximum length of " ++ toString maxLength ++
      " characters (got " ++ toString actualLength ++ ")"
  | .invalid_url message => "Invalid URL: " ++ message
  | .invalid_scheme scheme =>
    "Invalid URL scheme: " ++ scheme ++ ". Only http and https are allowed"
  | .private_ip hostname =>
    "Private/local IP addresses are not allowed: " ++ hostname
  | .blocked_hostname hostname =>
    "Blocked hostname: " ++ hostname ++ ". Private network hostnames are not allowed"

def strEndsWithChar (s : String) (c : Char) : Bool := s.data.getLast? == some c

/-- The body of `normalizeUrl` after the platform parse (url.ts lines
222-275, with `path.endsWith("/")` and `path.slice(0, -1)` expressed on the
character list). -/
def normalizeRec (parsed : URLRec) : String :=
  let normalized := parsed.protocol ++ "//" ++ lowerStr parsed.hostname
  let isDefaultPort :=
    (parsed.protocol == "http:" && parsed.port == "80") ||
      (parsed.protocol == "https:" && parsed.port == "443") ||
      parsed.port == ""
  let normalized := if !isDefaultPort then normalized ++ ":" ++ parsed.port else normalized
  let path :=
    if decide (1 < parsed.pathname.length) && strEndsWithChar parsed.pathname '/' then
      String.mk parsed.pathname.data.dropLast
    else parsed.pathname
  let params := parseSearchParams parsed.search
  let paramNames :=
    sortStrs ((params.map Prod.fst).filter (fun name => !isTrackingParam name))
  let sortedParams := paramNames.foldl
    (fun acc name =>
      match getParam params name with
      | some v => setParam acc name v
      | none => acc) []
  let queryString := serializeParams sortedParams
  let normalized := if path == "/" && queryString != "" then normalized else normalized ++ path
  let normalized := if queryString != "" then normalized ++ "?" ++ queryString else normalized
  normalized

/-- Embedding of `normalizeUrl` from url.ts; `none` models the `TypeError`
thrown by `new URL` on invalid input. -/
def normalizeUrl (url : String) : Option String := (parseURL url).map normalizeRec

/-- The scheme of a parsed URL record, without the trailing colon. -/
def urlScheme (r : URLRec) : List Char := r.protocol.data.dropLast

/-- The trailing-slash stripping step of `normalizeUrl` (url.ts line 233):
`path.endsWith("/") && path.length > 1 ? path.slice(0, -1) : path`. -/
def stripPath (p : String) : String :=
  if decide (1 < p.length) && strEndsWithChar p '/' then String.mk p.data.dropLast else p

/-- The query pipeline of `normalizeUrl` (url.ts lines 243-263): parse the
search string, filter out tracking parameters, sort the remaining names,
and rebuild the parameter list in sorted order. -/
def normParams (search : String) : List (String × String) :=
  let params := parseSearchParams search
  let paramNames :=
    sortStrs ((params.map Prod.fst).filter (fun name => !isTrackingParam name))
  paramNames.foldl
    (fun acc name =>
      match getParam params name with
      | some v => setParam acc name v
      | none => acc) []

/-- The normalized query string of `normalizeUrl`. -/
def normQuery (search : String) : String := serializeParams (normParams search)

/-- Well-formedness facts about a `URLRec` as produced by `parseURLChars`:
everything the idempotence argument needs about the shape of each
component. -/
structure ParsedWF (r : URLRec) : Prop where
  scheme_ne : urlScheme r ≠ []
  scheme_chars : ∀ c ∈ urlScheme r, isSchemeChar c = true
  scheme_lower : ∀ c ∈ urlScheme r, asciiLower c = c
  scheme_alpha : asciiAlpha ((urlScheme r).headD 'a') = true
  proto_eq : r.protocol = String.mk (urlScheme r ++ [':'])
  host_ne : r.hostname.data ≠ []
  host_chars : ∀ c ∈ r.hostname.data, isHostChar c = true
  host_lower : ∀ c ∈ r.hostname.data, asciiLower c = c
  port_ok : r.port = "" ∨
    (r.port.data ≠ [] ∧ (∀ c ∈ r.port.data, asciiDigit c = true) ∧
      ¬(2 ≤ r.port.data.length ∧ r.port.data.headD '0' = '0') ∧
      digitsToNat r.port.data < 65536 ∧
      ¬(String.mk (urlScheme r) = "http" ∧ r.port.data = ['8', '0']) ∧
      ¬(String.mk (urlScheme r) = "https" ∧ r.port.data = ['4', '4', '3']))
  path_head : ∃ t, r.pathname.data = '/' :: t
  path_chars : ∀ c ∈ r.pathname.data, isPathChar c = true
  path_segs : ∀ seg ∈ splitOnChar '/' r.pathname.data, segOk seg = true
  search_ok : r.search = "" ∨
    (∃ q, q ≠ [] ∧ r.search.data = '?' :: q ∧ ∀ c ∈ q, isQueryChar c = true)

/-- The parameter-rebuilding fold of `normalizeUrl`, abstracted over its
inputs. -/
def buildParams (params : List (String × String)) (names : List String)
    (acc : List (String × String)) : List (String × String) :=
  names.foldl
    (fun acc name =>
      match getParam params name with
      | some v => setParam acc name v
      | none => acc) acc

/-- The port component of the normalized URL string, as a character list:
empty for a default or absent port, otherwise a colon and the digits. -/
def portPartL (r : URLRec) : List Char :=
  if (r.protocol == "http:" && r.port == "80") ||
      (r.protocol == "https:" && r.port == "443") || r.port == "" then []
  else ':' :: r.port.data

/-- The query component of the normalized URL string: empty, or a question
mark followed by the normalized query. -/
def queryPartL (r : URLRec) : List Char :=
  if normQuery r.search = "" then [] else '?' :: (normQuery r.search).data

/-- The path component of the normalized URL string: omitted for a root
path in the presence of a query, otherwise the stripped path. -/
def pathPartL (r : URLRec) : List Char :=
  if stripPath r.pathname = "/" ∧ normQuery r.search ≠ "" then []
  else (stripPath r.pathname).data

/- ===================================================================
   JSON values (model of the untyped payloads and JSON.stringify)
   =================================================================== -/

/-- Untyped JSON value, for the open payloads (`extractedJson`,
`extractionSchema`) the source accepts as `v.any()`.  Numbers are modelled
as integers (the payloads' safe-integer fragment, on which the JavaScript
serialization below is exact). -/
inductive JsonVal where
  | null
  | bool (b : Bool)
  | num (n : Int)
  | str (s : String)
  | arr (xs : List JsonVal)
  | obj (fields : List (String × JsonVal))
deriving Repr

/-- JSON string escaping as performed by `JSON.stringify`. -/
def jsonEscapeChar (c : Char) : List Char :=
  if c == '"' then ['\\', '"']
  else if c == '\\' then ['\\', '\\']
  else if c.toNat == 8 then ['\\', 'b']
  else if c.toNat == 9 then ['\\', 't']
  else if c.toNat == 10 then ['\\', 'n']
  else if c.toNat == 12 then ['\\', 'f']
  else if c.toNat == 13 then ['\\', 'r']
  else if c.toNat < 32 then
    ['\\', 'u', '0', '0', hexDigitUpper (c.toNat / 16), hexDigitUpper (c.toNat % 16)]
  else [c]

def jsonQuote (s : String) : List Char :=
  '"' :: (flatMapChars jsonEscapeChar s.data ++ ['"'])

mutual

def jsonStringifyChars : JsonVal → List Char
  | .null => "null".data
  | .bool true => "true".data
  | .bool false => "false".data
  | .num n => (toString n).data
  | .str s => jsonQuote s
  | .arr xs => '[' :: (jsonArrChars xs ++ [']'])
  | .obj fs => Char.ofNat 123 :: (jsonObjChars fs ++ [Char.ofNat 125])

def jsonArrChars : List JsonVal → List Char
  | [] => []
  | [x] => jsonStringifyChars x
  | x :: y :: t => jsonStringifyChars x ++ ',' :: jsonArrChars (y :: t)

def jsonObjChars : List (String × JsonVal) → List Char
  | [] => []
  | [(k, v)] => jsonQuote k ++ ':' :: jsonStringifyChars v
  | (k, v) :: p :: t => jsonQuote k ++ ':' :: jsonStringifyChars v ++ ',' :: jsonObjChars (p :: t)

end

/-- Model of `JSON.stringify` on the payload fragment above. -/
def jsonStringify (j : JsonVal) : String := String.mk (jsonStringifyChars j)

/-- JavaScript truthiness of a JSON value (`if (data.extract)` etc.). -/
def jsonTruthy : JsonVal → Bool
  | .null => false
  | .bool b => b
  | .num n => n != 0
  | .str s => !s.isEmpty
  | .arr _ => true
  | .obj _ => true

/-- JavaScript truthiness of an optional string field. -/
def truthyOptStr : Option String → Bool
  | none => false
  | some s => !s.isEmpty

/-- Embedding of `getByteLength` (lib.ts): the UTF-8 byte count produced by
`new TextEncoder().encode(str).length`. -/
def getByteLength (s : String) : Nat := s.utf8ByteSize

/- ===================================================================
   schema.ts — the scrapes table
   =================================================================== -/

inductive ScrapeStatus where
  | pending
  | scraping
  | completed
  | failed
deriving DecidableEq, Repr

inductive ErrorCode where
  | num (n : Int)
  | str (s : String)
deriving DecidableEq, Repr

structure ScrapeMetadata where
  title : Option String := none
  description : Option String := none
  language : Option String := none
  sourceURL : Option String := none
  statusCode : Option Int := none
  ogImage : Option String := none
  ogTitle : Option String := none
  ogDescription : Option String := none
  ogSiteName : Option String := none
  contentType : Option String := none
  cacheControl : Option String := none
deriving DecidableEq, Repr

/-- One document of the `scrapes` table.  `id` models the Convex `_id`
(opaque and unique); timestamps are `Int` milliseconds; file ids model
Convex `_storage` ids. -/
structure Scrape where
  id : Nat
  url : String
  normalizedUrl : String
  urlHash : String
  status : ScrapeStatus
  formats : List String
  markdown : Option String := none
  markdownFileId : Option Nat := none
  html : Option String := none
  htmlFileId : Option Nat := none
  rawHtml : Option String := none
  rawHtmlFileId : Option Nat := none
  summary : Option String := none
  links : Option (List String) := none
  linksFileId : Option Nat := none
  images : Option (List String) := none
  imagesFileId : Option Nat := none
  screenshotUrl : Option String := none
  screenshotFileId : Option Nat := none
  extractedJson : Option JsonVal := none
  extractedJsonFileId : Option Nat := none
  extractionSchema : Option JsonVal := none
  metadata : Option ScrapeMetadata := none
  error : Option String := none
  errorCode : Option ErrorCode := none
  startedAt : Int
  scrapingAt : Option Int := none
  scrapedAt : Option Int := none
  expiresAt : Int

/- ===================================================================
   Database helpers (Convex query/patch/delete semantics)
   =================================================================== -/

/-- The `by_url_hash` index query with `.order("desc").take(10)`: the
database list is kept in descending `_creationTime` order, so this is the
filtered list's first ten entries. -/
def recentByHash (db : List Scrape) (h : String) : List Scrape :=
  (db.filter (fun s => s.urlHash == h)).take 10

def patchById (db : List Scrape) (i : Nat) (f : Scrape → Scrape) : List Scrape :=
  db.map (fun s => if s.id == i then f s else s)

def deleteById (db : List Scrape) (i : Nat) : List Scrape :=
  db.filter (fun s => s.id != i)

def findById (db : List Scrape) (i : Nat) : Option Scrape :=
  db.find? (fun s => s.id == i)

/-- The file-id collection pattern of lib.ts (startScrape force cleanup,
deleteScrape and cleanupExpired), in source order. -/
def fileIdsOf (s : Scrape) : List Nat :=
  [s.markdownFileId, s.htmlFileId, s.rawHtmlFileId, s.screenshotFileId,
   s.linksFileId, s.imagesFileId, s.extractedJsonFileId].filterMap id

/-- Embedding of `formatsSatisfied` (lib.ts): the cached formats are a
superset of the requested ones. -/
def formatsSatisfied (cached requested : List String) : Bool :=
  requested.all (fun f => cached.contains f)

/-- Convex patch semantics for an argument that may be absent: a provided
value overwrites, an absent one leaves the stored field unchanged. -/
def orKeep {α : Type} (new old : Option α) : Option α :=
  match new with
  | some v => some v
  | none => old

/- ===================================================================
   lib.ts — queries
   =================================================================== -/

/-- Embedding of the `getCached` query handler (lib.ts lines 135-173).
`hash` is the abstract SHA-256 digest (`hashUrl`). -/
def getCached (hash : String → String) (db : List Scrape) (now : Int)
    (url : String) (formats : Option (List String)) : Option Scrape :=
  match validateUrl url with
  | .invalid _ => none
  | .valid =>
    match normalizeUrl url with
    | none => none
    | some normalized =>
      let requestedFormats := formats.getD ["markdown"]
      (recentByHash db (hash normalized)).find? (fun s =>
        s.status == .completed && decide (s.expiresAt > now) &&
          formatsSatisfied s.formats requestedFormats)

/-- Embedding of the `getByUrl` query handler (lib.ts lines 317-341): the
most recent scrape for the hash, any status. -/
def getByUrl (hash : String → String) (db : List Scrape) (url : String) : Option Scrape :=
  match validateUrl url with
  | .invalid _ => none
  | .valid =>
    match normalizeUrl url with
    | none => none
    | some normalized =>
      (db.filter (fun s => s.urlHash == hash normalized)).head?

/- ===================================================================
   lib.ts — startScrape
   =================================================================== -/

structure ScrapeOptions where
  formats : Option (List String) := none
  extractionSchema : Option JsonVal := none
  ttlMs : Option Int := none
  force : Option Bool := none
  onlyMainContent : Option Bool := none
  includeTags : Option (List String) := none
  excludeTags : Option (List String) := none
  waitFor : Option Int := none
  mobile : Option Bool := none
  proxy : Option String := none
  storeScreenshot : Option Bool := none

/-- Step 4 of `startScrape`: on `force`, delete every completed job among
the ten most recent for the hash, together with its storage files.
(`ctx.storage.delete` is modelled as removing the id when present.) -/
def forceCleanup (db : List Scrape) (st : List Nat) (h : String) : List Scrape × List Nat :=
  (recentByHash db h).foldl
    (fun (acc : List Scrape × List Nat) s =>
      if s.status == .completed then
        (deleteById acc.1 s.id, acc.2.filter (fun fid => !(fileIdsOf s).contains fid))
      else acc)
    (db, st)

/-- Embedding of the `startScrape` mutation handler (lib.ts lines 408-531).
`freshId` is the id Convex assigns on insert.  `Except.error` models a
thrown error: Convex rolls the whole mutation back, so the error carries no
database and no record is inserted.  On success the result is the new
database, the new storage, and the returned `jobId`.  (The scheduling of
`scrapeAction`, step 8, is an effect on the scheduler, modelled separately
by `processContent`/`completeScrape`/`failScrape`.) -/
def startScrape (hash : String → String) (db : List Scrape) (st : List Nat)
    (now : Int) (freshId : Nat) (url : String) (opts : ScrapeOptions) :
    Except String (List Scrape × List Nat × Nat) :=
  match validateUrl url with
  | .invalid e => .error (formatValidationError e)
  | .valid =>
    match normalizeUrl url with
    | none => .error "Invalid URL: Invalid URL format"
    | some normalizedUrl =>
      let urlHash := hash normalizedUrl
      let formats := opts.formats.getD ["markdown"]
      let cleaned := if opts.force.getD false then forceCleanup db st urlHash else (db, st)
      let pendingJobs := recentByHash cleaned.1 urlHash
      match pendingJobs.find? (fun j => j.status == .pending || j.status == .scraping) with
      | some job =>
        .error ("Scrape already in progress for this URL. Job ID: " ++ toString job.id)
      | none =>
        let cacheHit :=
          if opts.force.getD false then none
          else pendingJobs.find? (fun j =>
            j.status == .completed && decide (j.expiresAt > now) &&
              formatsSatisfied j.formats formats)
        match cacheHit with
        | some job => .ok (cleaned.1, cleaned.2, job.id)
        | none =>
          let ttlMs := opts.ttlMs.getD CONFIG.DEFAULT_TTL_MS
          let newJob : Scrape := {
            id := freshId
            url := url
            normalizedUrl := normalizedUrl
            urlHash := urlHash
            status := .pending
            formats := formats
            startedAt := now
            expiresAt := now + ttlMs
            extractionSchema :=
              match opts.extractionSchema with
              | some sch => if jsonTruthy sch then some sch else none
              | none => none }
          .ok (newJob :: cleaned.1, cleaned.2, freshId)

/- ===================================================================
   lib.ts — invalidate
   =================================================================== -/

/-- Embedding of the `invalidate` mutation handler (lib.ts lines 545-582):
patch `expiresAt := now` on every completed, unexpired scrape for the hash
(the full `.collect()`, no lookback bound) and count them. -/
def invalidate (hash : String → String) (db : List Scrape) (now : Int)
    (url : String) : List Scrape × Bool × Nat :=
  match validateUrl url with
  | .invalid _ => (db, false, 0)
  | .valid =>
    match normalizeUrl url with
    | none => (db, false, 0)
    | some normalized =>
      let h := hash normalized
      let targets := (db.filter (fun s => s.urlHash == h)).filter (fun s =>
        s.status == .completed && decide (s.expiresAt > now))
      let db2 := targets.foldl
        (fun d s => patchById d s.id (fun x => { x with expiresAt := now })) db
      (db2, true, targets.length)

/- ===================================================================
   lib.ts — internal mutations
   =================================================================== -/

/-- Embedding of the `markScraping` internal mutation (lib.ts 660-672). -/
def markScraping (db : List Scrape) (now : Int) (jobId : Nat) : List Scrape :=
  patchById db jobId (fun s => { s with status := .scraping, scrapingAt := some now })

/-- Arguments of `completeScrape`; absent optional fields are absent keys in
the patch (they leave the stored field unchanged). -/
structure CompleteArgs where
  jobId : Nat
  markdown : Option String := none
  markdownFileId : Option Nat := none
  html : Option String := none
  htmlFileId : Option Nat := none
  rawHtml : Option String := none
  rawHtmlFileId : Option Nat := none
  summary : Option String := none
  links : Option (List String) := none
  linksFileId : Option Nat := none
  images : Option (List String) := none
  imagesFileId : Option Nat := none
  screenshotUrl : Option String := none
  screenshotFileId : Option Nat := none
  extractedJson : Option JsonVal := none
  extractedJsonFileId : Option Nat := none
  metadata : Option ScrapeMetadata := none
  ttlMs : Int

/-- Embedding of the `completeScrape` internal mutation handler (lib.ts
lines 681-724): a no-op unless the job exists and is still pending or
scraping; otherwise patch status, scrapedAt, expiresAt and the provided
content fields. -/
def completeScrape (db : List Scrape) (now : Int) (a : CompleteArgs) : List Scrape :=
  match findById db a.jobId with
  | none => db
  | some job =>
    if job.status != .pending && job.status != .scraping then db
    else
      patchById db a.jobId (fun s =>
        { s with
          status := .completed
          scrapedAt := some now
          expiresAt := now + a.ttlMs
          markdown := orKeep a.markdown s.markdown
          markdownFileId := orKeep a.markdownFileId s.markdownFileId
          html := orKeep a.html s.html
          htmlFileId := orKeep a.htmlFileId s.htmlFileId
          rawHtml := orKeep a.rawHtml s.rawHtml
          rawHtmlFileId := orKeep a.rawHtmlFileId s.rawHtmlFileId
          summary := orKeep a.summary s.summary
          links := orKeep a.links s.links
          linksFileId := orKeep a.linksFileId s.linksFileId
          images := orKeep a.images s.images
          imagesFileId := orKeep a.imagesFileId s.imagesFileId
          screenshotUrl := orKeep a.screenshotUrl s.screenshotUrl
          screenshotFileId := orKeep a.screenshotFileId s.screenshotFileId
          extractedJson := orKeep a.extractedJson s.extractedJson
          extractedJsonFileId := orKeep a.extractedJsonFileId s.extractedJsonFileId
          metadata := orKeep a.metadata s.metadata })

/-- Embedding of the `failScrape` internal mutation handler (lib.ts lines
732-755): a no-op when the job is absent or already terminal; otherwise
patch status, error and errorCode (a patch with an undefined `errorCode`
removes the field, hence the direct overwrite). -/
def failScrape (db : List Scrape) (jobId : Nat) (error : String)
    (errorCode : Option ErrorCode) : List Scrape :=
  match findById db jobId with
  | none => db
  | some job =>
    if job.status == .completed || job.status == .failed then db
    else
      patchById db jobId (fun s =>
        { s with status := .failed, error := some error, errorCode := errorCode })

/- ===================================================================
   lib.ts — cron mutations
   =================================================================== -/

def insertByExpires (x : Scrape) : List Scrape → List Scrape
  | [] => [x]
  | y :: t => if decide (y.expiresAt ≤ x.expiresAt) then y :: insertByExpires x t else x :: y :: t

/-- The ascending `by_expires` index order. -/
def sortByExpires (db : List Scrape) : List Scrape :=
  db.foldl (fun acc x => insertByExpires x acc) []

/-- The batch the `cleanupExpired` index query loads: entries with
`expiresAt < now`, in index order, at most `CLEANUP_BATCH_SIZE` of them. -/
def expiredBatch (db : List Scrape) (now : Int) : List Scrape :=
  ((sortByExpires db).filter (fun s => decide (s.expiresAt < now))).take
    CONFIG.CLEANUP_BATCH_SIZE

/-- One iteration of the `cleanupExpired` loop: skip non-terminal entries;
otherwise delete the entry's storage files (best effort: a missing file is
caught and not counted) and then the record, counting both. -/
def cleanupStep (acc : List Scrape × List Nat × Nat × Nat) (entry : Scrape) :
    List Scrape × List Nat × Nat × Nat :=
  if entry.status != .completed && entry.status != .failed then acc
  else
    let files := (fileIdsOf entry).foldl
      (fun (p : List Nat × Nat) fid =>
        if p.1.contains fid then (p.1.filter (fun x => x != fid), p.2 + 1)
        else (p.1, p.2))
      (acc.2.1, acc.2.2.2)
    (deleteById acc.1 entry.id, files.1, acc.2.2.1 + 1, files.2)

/-- Embedding of the `cleanupExpired` internal mutation handler (lib.ts
lines 1046-1103).  Returns the database, the storage, `deletedCount` and
`deletedFileCount`. -/
def cleanupExpired (db : List Scrape) (st : List Nat) (now : Int) :
    List Scrape × List Nat × Nat × Nat :=
  (expiredBatch db now).foldl cleanupStep (db, st, 0, 0)

/-- The selection of the `by_status_scraping` index range in
`markStuckJobsFailed`: status is `scraping` and `scrapingAt` is below the
cutoff.  A document with a missing `scrapingAt` sorts before every number
in a Convex index, so it falls inside the `.lt` range as well. -/
def stuckSel (now : Int) (j : Scrape) : Bool :=
  j.status == .scraping &&
    (match j.scrapingAt with
     | some t => decide (t < now - CONFIG.STUCK_JOB_TIMEOUT_MS)
     | none => true)

/-- Embedding of the `markStuckJobsFailed` internal mutation handler
(lib.ts lines 1115-1145). -/
def markStuckJobsFailed (db : List Scrape) (now : Int) : List Scrape × Nat :=
  let stuckJobs := db.filter (stuckSel now)
  (stuckJobs.foldl
    (fun d j => patchById d j.id (fun s =>
      { s with status := .failed, error := some "Scrape timed out after 5 minutes" }))
    db,
   stuckJobs.length)

/- ===================================================================
   scrapeAction — content processing and storage tiering
   =================================================================== -/

/-- An entry of the Firecrawl `images` payload: either a bare URL string or
an object with a `url` field (`typeof img === "string" ? img : img.url`). -/
inductive ImageEntry where
  | plain (url : String)
  | tagged (url : String)
deriving DecidableEq, Repr

def imageUrl : ImageEntry → String
  | .plain u => u
  | .tagged u => u

structure FirecrawlMetadata where
  title : Option String := none
  description : Option String := none
  language : Option String := none
  sourceURL : Option String := none
  statusCode : Option Int := none
  ogImage : Option String := none
  ogTitle : Option String := none
  ogDescription : Option String := none
  ogSiteName : Option String := none
  contentType : Option String := none
  cacheControl : Option String := none
deriving DecidableEq, Repr

/-- The `data` field of a successful Firecrawl response envelope. -/
structure FirecrawlData where
  markdown : Option String := none
  html : Option String := none
  rawHtml : Option String := none
  summary : Option String := none
  links : Option (List String) := none
  images : Option (List ImageEntry) := none
  screenshot : Option String := none
  extract : Option JsonVal := none
  metadata : Option FirecrawlMetadata := none

/-- The `contentUpdate` record `scrapeAction` assembles before calling
`completeScrape`. -/
structure ContentUpdate where
  markdown : Option String := none
  markdownFileId : Option Nat := none
  html : Option String := none
  htmlFileId : Option Nat := none
  rawHtml : Option String := none
  rawHtmlFileId : Option Nat := none
  summary : Option String := none
  links : Option (List String) := none
  linksFileId : Option Nat := none
  images : Option (List String) := none
  imagesFileId : Option Nat := none
  screenshotUrl : Option String := none
  screenshotFileId : Option Nat := none
  extractedJson : Option JsonVal := none
  extractedJsonFileId : Option Nat := none
  metadata : Option ScrapeMetadata := none

/-- The tiering pattern of `scrapeAction` for a text field: skipped when
falsy, offloaded to file storage when its UTF-8 byte length exceeds
`FILE_STORAGE_THRESHOLD_BYTES`, stored inline otherwise.  `ctx.storage.store`
returns a fresh opaque file id; the model passes one in as `fid`. -/
def tierText (content : Option String) (fid : Nat) : Option String × Option Nat :=
  match content with
  | none => (none, none)
  | some s =>
    if s.isEmpty then (none, none)
    else if getByteLength s > CONFIG.FILE_STORAGE_THRESHOLD_BYTES then (none, some fid)
    else (some s, none)

/-- The `links` handling of `scrapeAction`: tier on the byte length of the
JSON serialization. -/
def tierLinks (links : Option (List String)) (fid : Nat) :
    Option (List String) × Option Nat :=
  match links with
  | none => (none, none)
  | some l =>
    let linksJson := jsonStringify (.arr (l.map .str))
    if getByteLength linksJson > CONFIG.FILE_STORAGE_THRESHOLD_BYTES then (none, some fid)
    else (some l, none)

/-- The `images` handling of `scrapeAction`: extract the URLs, then tier on
the byte length of their JSON serialization. -/
def tierImages (images : Option (List ImageEntry)) (fid : Nat) :
    Option (List String) × Option Nat :=
  match images with
  | none => (none, none)
  | some l =>
    let imageUrls := l.map imageUrl
    let imagesJson := jsonStringify (.arr (imageUrls.map .str))
    if getByteLength imagesJson > CONFIG.FILE_STORAGE_THRESHOLD_BYTES then (none, some fid)
    else (some imageUrls, none)

/-- The `extract` handling of `scrapeAction`: skipped when falsy, tiered on
the byte length of its JSON serialization. -/
def tierExtract (extract : Option JsonVal) (fid : Nat) :
    Option JsonVal × Option Nat :=
  match extract with
  | none => (none, none)
  | some j =>
    if !jsonTruthy j then (none, none)
    else if getByteLength (jsonStringify j) > CONFIG.FILE_STORAGE_THRESHOLD_BYTES then
      (none, some fid)
    else (some j, none)

def keepTruthyStr (s : Option String) : Option String :=
  match s with
  | some v => if v.isEmpty then none else some v
  | none => none

def keepTruthyInt (n : Option Int) : Option Int :=
  match n with
  | some v => if v == 0 then none else some v
  | none => none

/-- The metadata assembly of `scrapeAction`: copy each truthy field, then
keep the object only when at least one key was set. -/
def buildMetadata (m : FirecrawlMetadata) : Option ScrapeMetadata :=
  let md : ScrapeMetadata := {
    title := keepTruthyStr m.title
    description := keepTruthyStr m.description
    language := keepTruthyStr m.language
    sourceURL := keepTruthyStr m.sourceURL
    statusCode := keepTruthyInt m.statusCode
    ogImage := keepTruthyStr m.ogImage
    ogTitle := keepTruthyStr m.ogTitle
    ogDescription := keepTruthyStr m.ogDescription
    ogSiteName := keepTruthyStr m.ogSiteName
    contentType := keepTruthyStr m.contentType
    cacheControl := keepTruthyStr m.cacheControl }
  if md == {} then none else some md

/-- The content-processing core of `scrapeAction` (lib.ts lines 874-1007),
from the success payload to the `contentUpdate` passed to `completeScrape`.
Each `ctx.storage.store` call site is modelled as receiving a distinct
fresh file id (the literals 0-6); `screenshotFetchOk` tells whether the
optional screenshot download and store succeeded (its failure is caught and
leaves only the URL). -/
def processContent (data : FirecrawlData) (storeScreenshot screenshotFetchOk : Bool) :
    ContentUpdate :=
  let md := tierText data.markdown 0
  let ht := tierText data.html 1
  let rh := tierText data.rawHtml 2
  let lk := tierLinks data.links 3
  let im := tierImages data.images 4
  let ex := tierExtract data.extract 5
  { markdown := md.1
    markdownFileId := md.2
    html := ht.1
    htmlFileId := ht.2
    rawHtml := rh.1
    rawHtmlFileId := rh.2
    summary := keepTruthyStr data.summary
    links := lk.1
    linksFileId := lk.2
    images := im.1
    imagesFileId := im.2
    screenshotUrl := keepTruthyStr data.screenshot
    screenshotFileId :=
      if truthyOptStr data.screenshot && storeScreenshot && screenshotFetchOk then some 6
      else none
    extractedJson := ex.1
    extractedJsonFileId := ex.2
    metadata :=
      match data.metadata with
      | some m => buildMetadata m
      | none => none }

/- ===================================================================
   Derived predicates and concrete sample data used by the theorems
   =================================================================== -/

/-- Terminal statuses, as tested by `cleanupExpired` and `deleteScrape`. -/
def scrapeTerminal (s : Scrape) : Bool := s.status == .completed || s.status == .failed

/-- Frame relation: every field other than `status`, `error` and
`errorCode` coincides. -/
def frameFail (s s' : Scrape) : Prop :=
  s'.id = s.id ∧ s'.url = s.url ∧ s'.normalizedUrl = s.normalizedUrl ∧
    s'.urlHash = s.urlHash ∧ s'.formats = s.formats ∧
    s'.markdown = s.markdown ∧ s'.markdownFileId = s.markdownFileId ∧
    s'.html = s.html ∧ s'.htmlFileId = s.htmlFileId ∧
    s'.rawHtml = s.rawHtml ∧ s'.rawHtmlFileId = s.rawHtmlFileId ∧
    s'.summary = s.summary ∧ s'.links = s.links ∧ s'.linksFileId = s.linksFileId ∧
    s'.images = s.images ∧ s'.imagesFileId = s.imagesFileId ∧
    s'.screenshotUrl = s.screenshotUrl ∧ s'.screenshotFileId = s.screenshotFileId ∧
    s'.extractedJson = s.extractedJson ∧ s'.extractedJsonFileId = s.extractedJsonFileId ∧
    s'.extractionSchema = s.extractionSchema ∧ s'.metadata = s.metadata ∧
    s'.startedAt = s.startedAt ∧ s'.scrapingAt = s.scrapingAt ∧
    s'.scrapedAt = s.scrapedAt ∧ s'.expiresAt = s.expiresAt

/-- Concrete stand-in for the SHA-256 digest in witnesses and
counterexamples (any deterministic function is admissible there). -/
def hashId : String → String := fun s => s

def samplePending : Scrape :=
  { id := 1, url := "https://example.com/a", normalizedUrl := "https://example.com/a",
    urlHash := "https://example.com/a", status := .pending, formats := ["markdown"],
    startedAt := 0, expiresAt := 100 }

def sampleCompleted : Scrape := { samplePending with id := 2, status := .completed }

def sampleScraping : Scrape := { samplePending with id := 3, status := .scraping, scrapingAt := some 0 }

def sampleFailed : Scrape := { samplePending with id := 4, status := .failed }

/-- A string one byte above the storage threshold. -/
def c2BigStr : String := String.mk (List.replicate (1024 * 1024 + 1) 'a')

/-- A string of exactly the storage threshold's byte length. -/
def c2MdStr : String := String.mk (List.replicate (1024 * 1024) 'a')

/-- Executor payload whose summary exceeds the threshold and whose markdown
sits exactly on it. -/
def c2Data : FirecrawlData := { markdown := some c2MdStr, summary := some c2BigStr }

/-- A small Executor payload for evaluating the tiering theorem. -/
def c2SmallData : FirecrawlData := { markdown := some "# hi", summary := some "s" }

/-- The record a default-options `startScrape` of the sample URL inserts at
time 50 with fresh id 7 into an empty database. -/
def c10NewJob : Scrape :=
  { id := 7, url := "https://example.com/a", normalizedUrl := "https://example.com/a",
    urlHash := "https://example.com/a", status := .pending, formats := ["markdown"],
    startedAt := 50, expiresAt := 50 + CONFIG.DEFAULT_TTL_MS }

/- ===================================================================
   Shared lemmas about the database helpers
   =================================================================== -/

theorem findById_patchById (db : List Scrape) (i : Nat) (f : Scrape → Scrape)
    (hid : ∀ s, (f s).id = s.id) :
    findById (patchById db i f) i = (findById db i).map f := by
  induction db with
  | nil => rfl
  | cons s t ih =>
    simp only [findById, patchById, List.map_cons] at *
    by_cases h : (s.id == i) = true
    · rw [if_pos h]
      have h2 : ((f s).id == i) = true := by
        rw [hid]
        exact h
      simp only [List.find?_cons, h2, h]
      rfl
    · rw [if_neg h]
      have h2 : (s.id == i) = false := by simpa using h
      simp only [List.find?_cons, h2]
      exact ih

theorem mem_of_mem_patchById {db : List Scrape} {i : Nat} {f : Scrape → Scrape}
    {s : Scrape} (h : s ∈ patchById db i f) : ∃ x ∈ db, s = x ∨ s = f x := by
  rcases List.mem_map.mp h with ⟨x, hx, hfx⟩
  refine ⟨x, hx, ?_⟩
  by_cases hc : (x.id == i) = true
  · right
    rw [if_pos hc] at hfx
    exact hfx.symm
  · left
    rw [if_neg hc] at hfx
    exact hfx.symm

theorem eq_of_mem_of_id_eq {db : List Scrape}
    (h : (db.map (fun s => s.id)).Nodup) {a b : Scrape}
    (ha : a ∈ db) (hb : b ∈ db) (hid : a.id = b.id) : a = b :=
  List.inj_on_of_nodup_map h ha hb hid

/-- A left fold of per-id patches with an idempotent, id-preserving patch
function equals a single map over the database. -/
theorem foldl_patchById_eq_map (L : List Scrape) (db : List Scrape)
    (f : Scrape → Scrape) (hf : ∀ s, f (f s) = f s) (hid : ∀ s, (f s).id = s.id) :
    L.foldl (fun d j => patchById d j.id f) db =
      db.map (fun s => if L.any (fun j => j.id == s.id) then f s else s) := by
  induction L generalizing db with
  | nil => simp
  | cons j L ih =>
    simp only [List.foldl_cons]
    rw [ih (patchById db j.id f)]
    simp only [patchById, List.map_map]
    refine List.map_congr_left ?_
    intro s _
    simp only [Function.comp_apply]
    by_cases h : s.id = j.id
    · have hb : (s.id == j.id) = true := by simpa using h
      have hb2 : (j.id == s.id) = true := by simpa using h.symm
      simp only [hb, if_true, hid, List.any_cons, hb2, Bool.true_or, if_true]
      by_cases h2 : L.any (fun j2 => j2.id == s.id) = true
      · simp [h2, hf]
      · simp [h2]
    · have hb : (s.id == j.id) = false := by simpa using h
      have hb2 : (j.id == s.id) = false := by simpa using fun hh => h hh.symm
      simp [hb, hb2]

theorem forall2_map_self {α : Type} {R : α → α → Prop} {l : List α} (f : α → α)
    (h : ∀ x ∈ l, R x (f x)) : List.Forall₂ R l (l.map f) := by
  induction l with
  | nil => simp
  | cons a t ih =>
    simp only [List.map_cons]
    exact List.Forall₂.cons (h a (by simp)) (ih (fun x hx => h x (List.mem_cons_of_mem a hx)))

/- ===================================================================
   C3 — terminal-state guards of completeScrape and failScrape
   =================================================================== -/

/-- C3: status transitions are monotonic along
pending → scraping → {completed, failed}: `completeScrape` and `failScrape`
change a job's status only when it is currently pending or scraping; when
the job is already completed or failed, or does not exist, each returns the
database unchanged (a silent no-op — both handlers are total, nothing is
raised). When the job is pending or scraping, the patched record's status
becomes the respective terminal state. -/
theorem c3_terminal_transitions (db : List Scrape) (now : Int) (a : CompleteArgs)
    (jobId : Nat) (err : String) (ec : Option ErrorCode) :
    (∀ job, findById db a.jobId = some job →
      (job.status = .completed ∨ job.status = .failed) →
      completeScrape db now a = db) ∧
    (findById db a.jobId = none → completeScrape db now a = db) ∧
    (∀ job, findById db jobId = some job →
      (job.status = .completed ∨ job.status = .failed) →
      failScrape db jobId err ec = db) ∧
    (findById db jobId = none → failScrape db jobId err ec = db) ∧
    (∀ job, findById db a.jobId = some job →
      (job.status = .pending ∨ job.status = .scraping) →
      ∃ job2, findById (completeScrape db now a) a.jobId = some job2 ∧
        job2.status = .completed) ∧
    (∀ job, findById db jobId = some job →
      (job.status = .pending ∨ job.status = .scraping) →
      ∃ job2, findById (failScrape db jobId err ec) jobId = some job2 ∧
        job2.status = .failed) := by
  refine ⟨?_, ?_, ?_, ?_, ?_, ?_⟩
  · intro job hfind hstat
    rcases hstat with h | h <;> simp [completeScrape, hfind, h]
  · intro hfind
    simp [completeScrape, hfind]
  · intro job hfind hstat
    rcases hstat with h | h <;> simp [failScrape, hfind, h]
  · intro hfind
    simp [failScrape, hfind]
  · intro job hfind hstat
    have hguard : (job.status != ScrapeStatus.pending && job.status != ScrapeStatus.scraping) = false := by
      rcases hstat with h | h <;> simp [h]
    simp only [completeScrape, hfind, hguard, Bool.false_eq_true, if_false]
    rw [findById_patchById, hfind]
    · exact ⟨_, rfl, rfl⟩
    · exact fun s => rfl
  · intro job hfind hstat
    have hguard : (job.status == ScrapeStatus.completed || job.status == ScrapeStatus.failed) = false := by
      rcases hstat with h | h <;> simp [h]
    simp only [failScrape, hfind, hguard, Bool.false_eq_true, if_false]
    rw [findById_patchById, hfind]
    · exact ⟨_, rfl, rfl⟩
    · exact fun s => rfl

/-- Witness for C3 at a concrete database: a completeScrape on an
already-failed job is a no-op, and on a pending job completes it. -/
theorem c3_terminal_transitions_witness :
    (findById [sampleFailed] 4 = some sampleFailed ∧
      completeScrape [sampleFailed] 50 { jobId := 4, ttlMs := 10 } = [sampleFailed]) ∧
    (findById [samplePending] 1 = some samplePending ∧
      ∃ job2, findById (completeScrape [samplePending] 50 { jobId := 1, ttlMs := 10 }) 1 =
        some job2 ∧ job2.status = .completed) := by
  constructor
  · refine ⟨rfl, ?_⟩
    exact (c3_terminal_transitions [sampleFailed] 50 { jobId := 4, ttlMs := 10 } 4 "x" none).1
      sampleFailed rfl (Or.inr rfl)
  · refine ⟨rfl, ?_⟩
    exact (c3_terminal_transitions [samplePending] 50 { jobId := 1, ttlMs := 10 } 1 "x" none).2.2.2.2.1
      samplePending rfl (Or.inl rfl)

/- ===================================================================
   C10 — frame conditions of the failure paths
   =================================================================== -/

theorem frameFail_refl (s : Scrape) : frameFail s s := by
  simp [frameFail]

theorem mem_foldl_force {L : List Scrape} : ∀ {acc : List Scrape × List Nat} {s : Scrape},
    s ∈ (L.foldl (fun (acc : List Scrape × List Nat) x =>
      if x.status == ScrapeStatus.completed then
        (deleteById acc.1 x.id, acc.2.filter (fun fid => !(fileIdsOf x).contains fid))
      else acc) acc).1 → s ∈ acc.1 := by
  induction L with
  | nil => exact fun hs => hs
  | cons x t ih =>
    intro acc s hs
    simp only [List.foldl_cons] at hs
    have h2 := ih hs
    by_cases hx : (x.status == ScrapeStatus.completed) = true
    · rw [if_pos hx] at h2
      exact List.mem_of_mem_filter h2
    · rw [if_neg hx] at h2
      exact h2

/-- C10: `failScrape` (and the stuck-job sweep's failure patch) modifies only
`status`, `error` and `errorCode` — every other field, in particular the
content fields, the timestamps and `expiresAt`, is left unchanged (and no
record is added or removed, stated as a `Forall₂`); the stuck-job patch also
leaves `errorCode` unchanged.  A record inserted by `startScrape` carries
`startedAt = now` and the placeholder `expiresAt = now + requested ttl`
(defaulting to `DEFAULT_TTL_MS`), so a job that later fails keeps that
placeholder expiry. -/
theorem c10_failure_frame (db : List Scrape) (now : Int) (jobId : Nat) (err : String)
    (ec : Option ErrorCode) (hash : String → String) (st : List Nat) (freshId : Nat)
    (url : String) (opts : ScrapeOptions) :
    List.Forall₂ frameFail db (failScrape db jobId err ec) ∧
    List.Forall₂ (fun s s' => frameFail s s' ∧ s'.errorCode = s.errorCode) db
      (markStuckJobsFailed db now).1 ∧
    (∀ db' st' rid, startScrape hash db st now freshId url opts = .ok (db', st', rid) →
      ∀ s ∈ db', s ∉ db →
        s.startedAt = now ∧ s.expiresAt = now + opts.ttlMs.getD CONFIG.DEFAULT_TTL_MS ∧
          s.status = .pending ∧ s.error = none ∧ s.errorCode = none ∧
          s.scrapingAt = none ∧ s.scrapedAt = none) := by
  refine ⟨?_, ?_, ?_⟩
  · cases hf : findById db jobId with
    | none =>
      have hno : failScrape db jobId err ec = db := by simp [failScrape, hf]
      rw [hno]
      exact List.forall₂_same.mpr (fun x _ => frameFail_refl x)
    | some job =>
      by_cases hs : (job.status == ScrapeStatus.completed || job.status == ScrapeStatus.failed) = true
      · have hno : failScrape db jobId err ec = db := by simp [failScrape, hf, hs]
        rw [hno]
        exact List.forall₂_same.mpr (fun x _ => frameFail_refl x)
      · have heq : failScrape db jobId err ec = patchById db jobId (fun s =>
            { s with status := .failed, error := some err, errorCode := ec }) := by
          simp [failScrape, hf, hs]
        rw [heq]
        unfold patchById
        refine forall2_map_self _ (fun x _ => ?_)
        by_cases hx : (x.id == jobId) = true
        · rw [if_pos hx]
          simp [frameFail]
        · rw [if_neg hx]
          exact frameFail_refl x
  · simp only [markStuckJobsFailed]
    rw [foldl_patchById_eq_map]
    · refine forall2_map_self _ (fun x _ => ?_)
      by_cases hx : ((db.filter (stuckSel now)).any fun j => j.id == x.id) = true
      · rw [if_pos hx]
        simp [frameFail]
      · rw [if_neg hx]
        exact ⟨frameFail_refl x, rfl⟩
    · exact fun s => rfl
    · exact fun s => rfl
  · intro db' st' rid heq s hs hnot
    simp only [startScrape] at heq
    split at heq
    · simp at heq
    · split at heq
      · simp at heq
      · split at heq
        · simp at heq
        · split at heq
          · -- cache-hit branch: the database is returned unchanged
            simp only [Except.ok.injEq, Prod.mk.injEq] at heq
            obtain ⟨h1, -, -⟩ := heq
            subst h1
            exfalso
            apply hnot
            by_cases hforce : opts.force.getD false = true
            · rw [if_pos hforce] at hs
              unfold forceCleanup at hs
              exact mem_foldl_force hs
            · rw [if_neg hforce] at hs
              exact hs
          · -- insert branch: the only record not already in db is the new one
            simp only [Except.ok.injEq, Prod.mk.injEq] at heq
            obtain ⟨h1, -, -⟩ := heq
            subst h1
            rcases List.mem_cons.mp hs with hnew | hold
            · subst hnew
              exact ⟨rfl, rfl, rfl, rfl, rfl, rfl, rfl⟩
            · exfalso
              apply hnot
              by_cases hforce : opts.force.getD false = true
              · rw [if_pos hforce] at hold
                unfold forceCleanup at hold
                exact mem_foldl_force hold
              · rw [if_neg hforce] at hold
                exact hold

/-- Witness for C10: a concrete `startScrape` run inserts a record, and the
theorem yields its placeholder expiry `now + DEFAULT_TTL_MS`. -/
theorem c10_failure_frame_witness :
    startScrape hashId [] [] 50 7 "https://example.com/a" {} = .ok ([c10NewJob], [], 7) ∧
    c10NewJob.startedAt = 50 ∧
    c10NewJob.expiresAt = 50 + (ScrapeOptions.ttlMs {}).getD CONFIG.DEFAULT_TTL_MS ∧
    c10NewJob.status = .pending := by
  have hrun : startScrape hashId [] [] 50 7 "https://example.com/a" {} = .ok ([c10NewJob], [], 7) := by
    rfl
  have h2 := (c10_failure_frame [] 50 0 "x" none hashId [] 7
      "https://example.com/a" {}).2.2 [c10NewJob] [] 7 hrun c10NewJob (by simp) (by simp)
  exact ⟨hrun, h2.1, h2.2.1, h2.2.2.1⟩

/- ===================================================================
   C6 — the stuck-job sweep
   =================================================================== -/

theorem findById_map_of_mem {db : List Scrape} (hN : (db.map (fun s => s.id)).Nodup)
    {j : Scrape} (hmem : j ∈ db) (F : Scrape → Scrape) (hid : ∀ s, (F s).id = s.id) :
    findById (db.map F) j.id = some (F j) := by
  induction db with
  | nil => cases hmem
  | cons s t ih =>
    simp only [List.map_cons, List.nodup_cons, List.mem_map] at hN
    rcases List.mem_cons.mp hmem with hj | hj
    · subst hj
      simp only [findById, List.map_cons]
      rw [List.find?_cons_of_pos _ (by simp [hid])]
    · have hne : ¬ s.id = j.id := by
        intro hsj
        exact hN.1 ⟨j, hj, hsj.symm⟩
      simp only [findById, List.map_cons]
      rw [List.find?_cons_of_neg _ (by simp [hid, hne])]
      exact ih hN.2 hj

/-- C6: `markStuckJobsFailed` marks as failed, with the timeout error
message, exactly the jobs whose status is `scraping` and whose `scrapingAt`
is strictly below `now - STUCK_JOB_TIMEOUT_MS`; a scraping job whose
`scrapingAt` is within the timeout is left untouched, every non-selected
job is left untouched, the returned count is the number of selected jobs,
and the selection does not depend on `startedAt`. -/
theorem c6_stuck_sweep (db : List Scrape) (now : Int)
    (hN : (db.map (fun s => s.id)).Nodup) :
    ((markStuckJobsFailed db now).2 = (db.filter (stuckSel now)).length) ∧
    (∀ j ∈ db, j.status = .scraping → ∀ t, j.scrapingAt = some t →
      t < now - CONFIG.STUCK_JOB_TIMEOUT_MS →
      findById (markStuckJobsFailed db now).1 j.id =
        some { j with status := .failed, error := some "Scrape timed out after 5 minutes" }) ∧
    (∀ j ∈ db, stuckSel now j = false →
      findById (markStuckJobsFailed db now).1 j.id = some j) ∧
    (∀ j ∈ db, j.status = .scraping → ∀ t, j.scrapingAt = some t →
      ¬ t < now - CONFIG.STUCK_JOB_TIMEOUT_MS →
      findById (markStuckJobsFailed db now).1 j.id = some j) ∧
    (∀ j x, stuckSel now { j with startedAt := x } = stuckSel now j) := by
  have hmap : (markStuckJobsFailed db now).1 =
      db.map (fun s => if (db.filter (stuckSel now)).any (fun j => j.id == s.id) then
        { s with status := .failed, error := some "Scrape timed out after 5 minutes" }
      else s) := by
    simp only [markStuckJobsFailed]
    rw [foldl_patchById_eq_map]
    · exact fun s => rfl
    · exact fun s => rfl
  have huntouched : ∀ j ∈ db, stuckSel now j = false →
      findById (markStuckJobsFailed db now).1 j.id = some j := by
    intro j hj hsel
    rw [hmap, findById_map_of_mem hN hj _ (fun s => by split <;> rfl)]
    have hany : ((db.filter (stuckSel now)).any (fun j2 => j2.id == j.id)) = false := by
      rw [List.any_eq_false]
      intro j2 hj2
      rcases List.mem_filter.mp hj2 with ⟨hj2db, hj2sel⟩
      intro hbeq
      have hjj : j2 = j := eq_of_mem_of_id_eq hN hj2db hj (by simpa using hbeq)
      rw [hjj] at hj2sel
      simp [hsel] at hj2sel
    simp [hany]
  refine ⟨rfl, ?_, huntouched, ?_, fun j x => rfl⟩
  · intro j hj hs t ht hlt
    have hsel : stuckSel now j = true := by
      simp [stuckSel, hs, ht, hlt]
    rw [hmap, findById_map_of_mem hN hj _ (fun s => by split <;> rfl)]
    have hany : ((db.filter (stuckSel now)).any (fun j2 => j2.id == j.id)) = true := by
      apply List.any_eq_true.mpr
      exact ⟨j, List.mem_filter.mpr ⟨hj, hsel⟩, by simp⟩
    simp [hany]
  · intro j hj hs t ht hnlt
    apply huntouched j hj
    simp [stuckSel, hs, ht, hnlt]

/-- Witness for C6: a job stuck since time 0 is failed by a sweep at
time 400000 (timeout 300000), and one that started scraping at 200000 is
left untouched. -/
theorem c6_stuck_sweep_witness :
    findById (markStuckJobsFailed [sampleScraping] 400000).1 3 =
      some { sampleScraping with status := .failed, error := some "Scrape timed out after 5 minutes" } ∧
    findById (markStuckJobsFailed [{ sampleScraping with scrapingAt := some 200000 }] 400000).1 3 =
      some { sampleScraping with scrapingAt := some 200000 } := by
  constructor
  · exact (c6_stuck_sweep [sampleScraping] 400000 (by simp)).2.1 sampleScraping
      (by simp) rfl 0 rfl (by decide)
  · exact (c6_stuck_sweep [{ sampleScraping with scrapingAt := some 200000 }] 400000
      (by simp)).2.2.2.1 { sampleScraping with scrapingAt := some 200000 }
      (by simp) rfl 200000 rfl (by decide)

/- ===================================================================
   C8 — invalidate
   =================================================================== -/

/-- C8: `invalidate(url)` sets `expiresAt = now` on exactly the completed
jobs for the URL's hash whose `expiresAt > now`, leaves every other record
untouched, deletes nothing (the database keeps its length), and returns
`success = true` with `invalidatedCount` the number of jobs so patched
(already-expired entries are not counted).  Afterwards `getCached` for that
URL returns `none` at any time `now2 ≥ now`, and an immediate second
`invalidate` returns count 0 and changes nothing. -/
theorem c8_invalidate (hash : String → String) (db : List Scrape) (now : Int)
    (url : String) (nu : String)
    (hv : validateUrl url = .valid) (hn : normalizeUrl url = some nu)
    (hN : (db.map (fun s => s.id)).Nodup) :
    (invalidate hash db now url).2.1 = true ∧
    (invalidate hash db now url).2.2 =
      ((db.filter (fun s => s.urlHash == hash nu)).filter (fun s =>
        s.status == .completed && decide (s.expiresAt > now))).length ∧
    (invalidate hash db now url).1.length = db.length ∧
    (∀ j ∈ db, j.urlHash = hash nu → j.status = .completed → j.expiresAt > now →
      findById (invalidate hash db now url).1 j.id = some { j with expiresAt := now }) ∧
    (∀ j ∈ db, ¬(j.urlHash = hash nu ∧ j.status = .completed ∧ j.expiresAt > now) →
      findById (invalidate hash db now url).1 j.id = some j) ∧
    (∀ now2, now ≤ now2 → ∀ fmts,
      getCached hash (invalidate hash db now url).1 now2 url fmts = none) ∧
    invalidate hash (invalidate hash db now url).1 now url =
      ((invalidate hash db now url).1, true, 0) := by
  have htargets : invalidate hash db now url =
      (((db.filter (fun s => s.urlHash == hash nu)).filter (fun s =>
          s.status == .completed && decide (s.expiresAt > now))).foldl
        (fun d s => patchById d s.id (fun x => { x with expiresAt := now })) db,
       true,
       ((db.filter (fun s => s.urlHash == hash nu)).filter (fun s =>
          s.status == .completed && decide (s.expiresAt > now))).length) := by
    simp only [invalidate, hv, hn]
  have hmap : (invalidate hash db now url).1 =
      db.map (fun s =>
        if ((db.filter (fun s => s.urlHash == hash nu)).filter (fun s =>
            s.status == .completed && decide (s.expiresAt > now))).any
            (fun j => j.id == s.id) then
          { s with expiresAt := now }
        else s) := by
    rw [htargets]
    dsimp only
    rw [foldl_patchById_eq_map]
    · exact fun s => rfl
    · exact fun s => rfl
  have hsel : ∀ j ∈ db, j.urlHash = hash nu → j.status = .completed → j.expiresAt > now →
      (((db.filter (fun s => s.urlHash == hash nu)).filter (fun s =>
          s.status == .completed && decide (s.expiresAt > now))).any
        (fun j2 => j2.id == j.id)) = true := by
    intro j hj hh hc he
    apply List.any_eq_true.mpr
    refine ⟨j, ?_, by simp⟩
    exact List.mem_filter.mpr ⟨List.mem_filter.mpr ⟨hj, by simp [hh]⟩, by simp [hc, he]⟩
  have hnosel : ∀ j ∈ db, ¬(j.urlHash = hash nu ∧ j.status = .completed ∧ j.expiresAt > now) →
      (((db.filter (fun s => s.urlHash == hash nu)).filter (fun s =>
          s.status == .completed && decide (s.expiresAt > now))).any
        (fun j2 => j2.id == j.id)) = false := by
    intro j hj hnot
    rw [List.any_eq_false]
    intro j2 hj2
    rcases List.mem_filter.mp hj2 with ⟨hj2f, hj2cond⟩
    rcases List.mem_filter.mp hj2f with ⟨hj2db, hj2hash⟩
    intro hbeq
    have hjj : j2 = j := eq_of_mem_of_id_eq hN hj2db hj (by simpa using hbeq)
    subst hjj
    rcases (Bool.and_eq_true _ _).mp hj2cond with ⟨hc1, hc2⟩
    exact hnot ⟨by simpa using hj2hash, by simpa using hc1, by simpa using hc2⟩
  have hfid : ∀ s : Scrape,
      (if ((db.filter (fun s => s.urlHash == hash nu)).filter (fun s =>
          s.status == .completed && decide (s.expiresAt > now))).any
          (fun j => j.id == s.id) then ({ s with expiresAt := now } : Scrape)
      else s).id = s.id := by
    intro s
    split <;> rfl
  have hpost : ∀ x ∈ (invalidate hash db now url).1,
      (x.urlHash == hash nu) = true → (x.status == .completed) = true →
      x.expiresAt ≤ now := by
    rw [hmap]
    intro x hx hxh hxc
    rcases List.mem_map.mp hx with ⟨s, hs, hfx⟩
    subst hfx
    by_cases hany : (((db.filter (fun s => s.urlHash == hash nu)).filter (fun s =>
        s.status == .completed && decide (s.expiresAt > now))).any
        (fun j => j.id == s.id)) = true
    · rw [if_pos hany]
    · rw [if_neg hany] at hxh hxc ⊢
      by_contra hlt
      push_neg at hlt
      apply hany
      apply List.any_eq_true.mpr
      refine ⟨s, List.mem_filter.mpr ⟨List.mem_filter.mpr ⟨hs, hxh⟩, ?_⟩, by simp⟩
      simp only [hxc, Bool.true_and, decide_eq_true_eq]
      exact hlt
  refine ⟨?_, ?_, ?_, ?_, ?_, ?_, ?_⟩
  · rw [htargets]
  · rw [htargets]
  · rw [hmap, List.length_map]
  · intro j hj hh hc he
    rw [hmap, findById_map_of_mem hN hj _ hfid]
    rw [if_pos (hsel j hj hh hc he)]
  · intro j hj hnot
    rw [hmap, findById_map_of_mem hN hj _ hfid]
    rw [if_neg (by intro hcon; rw [hnosel j hj hnot] at hcon; simp at hcon)]
  · intro now2 hnow2 fmts
    simp only [getCached, hv, hn]
    apply List.find?_eq_none.mpr
    intro x hx
    have hxdb : x ∈ (invalidate hash db now url).1 ∧ (x.urlHash == hash nu) = true := by
      have h1 := List.mem_of_mem_take hx
      exact List.mem_filter.mp h1
    intro hpred
    rcases (Bool.and_eq_true _ _).mp hpred with ⟨h12, -⟩
    rcases (Bool.and_eq_true _ _).mp h12 with ⟨hst, hexp⟩
    have hle := hpost x hxdb.1 hxdb.2 hst
    have hgt : x.expiresAt > now2 := by simpa using hexp
    omega
  · generalize hdb2 : (invalidate hash db now url).1 = db2 at hpost ⊢
    simp only [invalidate, hv, hn]
    have hempty : ((db2.filter (fun s =>
        s.urlHash == hash nu)).filter (fun s =>
        s.status == .completed && decide (s.expiresAt > now))) = [] := by
      apply List.filter_eq_nil_iff.mpr
      intro a ha
      rcases List.mem_filter.mp ha with ⟨hadb, hahash⟩
      intro hcond
      rcases (Bool.and_eq_true _ _).mp hcond with ⟨hc1, hc2⟩
      have hle := hpost a hadb hahash hc1
      have hgt : a.expiresAt > now := by simpa using hc2
      omega
    rw [hempty]
    simp

/-- Witness for C8 on a one-entry database: the cached job is counted, a
subsequent `getCached` misses, and a second `invalidate` counts zero. -/
theorem c8_invalidate_witness :
    validateUrl "https://example.com/a" = .valid ∧
    (invalidate hashId [sampleCompleted] 50 "https://example.com/a").2.2 = 1 ∧
    getCached hashId (invalidate hashId [sampleCompleted] 50 "https://example.com/a").1 50
      "https://example.com/a" none = none ∧
    invalidate hashId (invalidate hashId [sampleCompleted] 50 "https://example.com/a").1 50
      "https://example.com/a" =
      ((invalidate hashId [sampleCompleted] 50 "https://example.com/a").1, true, 0) := by
  have h := c8_invalidate hashId [sampleCompleted] 50 "https://example.com/a"
    "https://example.com/a" rfl rfl (by simp)
  refine ⟨rfl, ?_, h.2.2.2.2.2.1 50 (le_refl 50) none, h.2.2.2.2.2.2⟩
  rw [h.2.1]
  rfl

/- ===================================================================
   C1 — the dedup invariant check of startScrape
   =================================================================== -/

/-- C1: when a pending or scraping job exists among the loaded recent jobs
for the URL's hash (the ten most recent, after the force cleanup when
`force` is set), `startScrape` throws the conflict error whose message
carries that job's id — the first such job in loading order — and returns
no success value; since a thrown Convex mutation is rolled back whole
(the model's `Except.error` carries no database), no record is inserted. -/
theorem c1_dedup_conflict (hash : String → String) (db : List Scrape) (st : List Nat)
    (now : Int) (freshId : Nat) (url : String) (opts : ScrapeOptions) (nu : String)
    (hv : validateUrl url = .valid) (hn : normalizeUrl url = some nu)
    (hex : ∃ j ∈ recentByHash (if opts.force.getD false then
        forceCleanup db st (hash nu) else (db, st)).1 (hash nu),
      j.status = .pending ∨ j.status = .scraping) :
    ∃ job ∈ recentByHash (if opts.force.getD false then
        forceCleanup db st (hash nu) else (db, st)).1 (hash nu),
      (job.status = .pending ∨ job.status = .scraping) ∧
      startScrape hash db st now freshId url opts =
        .error ("Scrape already in progress for this URL. Job ID: " ++ toString job.id) ∧
      (∀ res, startScrape hash db st now freshId url opts ≠ Except.ok res) := by
  have hp : ((recentByHash (if opts.force.getD false then forceCleanup db st (hash nu)
      else (db, st)).1 (hash nu)).find?
      (fun j => j.status == ScrapeStatus.pending || j.status == ScrapeStatus.scraping)).isSome = true := by
    rw [List.find?_isSome]
    rcases hex with ⟨j, hj, hst⟩
    exact ⟨j, hj, by rcases hst with h | h <;> simp [h]⟩
  rcases Option.isSome_iff_exists.mp hp with ⟨job, hjob⟩
  have herr : startScrape hash db st now freshId url opts =
      .error ("Scrape already in progress for this URL. Job ID: " ++ toString job.id) := by
    simp only [startScrape, hv, hn]
    rw [hjob]
  refine ⟨job, List.mem_of_find?_eq_some hjob, ?_, herr, ?_⟩
  · have hps := List.find?_some hjob
    rcases (Bool.or_eq_true _ _).mp hps with h | h
    · exact Or.inl (by simpa using h)
    · exact Or.inr (by simpa using h)
  · intro res hok
    rw [herr] at hok
    exact Except.noConfusion hok

/-- Witness for C1: a second scrape of the sample URL while its pending job
is loaded is rejected with the conflict error naming job 1. -/
theorem c1_dedup_conflict_witness :
    ∃ job ∈ recentByHash (if (({} : ScrapeOptions).force).getD false then
        forceCleanup [samplePending] [] (hashId "https://example.com/a")
      else ([samplePending], [])).1 (hashId "https://example.com/a"),
      (job.status = .pending ∨ job.status = .scraping) ∧
      startScrape hashId [samplePending] [] 50 9 "https://example.com/a" {} =
        .error ("Scrape already in progress for this URL. Job ID: " ++ toString job.id) ∧
      (∀ res, startScrape hashId [samplePending] [] 50 9 "https://example.com/a" {} ≠
        Except.ok res) :=
  c1_dedup_conflict hashId [samplePending] [] 50 9 "https://example.com/a" {}
    "https://example.com/a" rfl rfl
    ⟨samplePending, by simp [recentByHash, samplePending, hashId], Or.inl rfl⟩

/- ===================================================================
   C7 — the expiry sweep
   =================================================================== -/

theorem statusGuard (e : Scrape) :
    (e.status != ScrapeStatus.completed && e.status != ScrapeStatus.failed) =
      !scrapeTerminal e := by
  cases h : e.status <;> simp [scrapeTerminal, h] <;> decide

theorem cleanupStep_of_terminal {e : Scrape} (h : scrapeTerminal e = true)
    (acc : List Scrape × List Nat × Nat × Nat) :
    cleanupStep acc e =
      (deleteById acc.1 e.id,
       ((fileIdsOf e).foldl
         (fun (p : List Nat × Nat) fid =>
           if p.1.contains fid then (p.1.filter (fun x => x != fid), p.2 + 1)
           else (p.1, p.2))
         (acc.2.1, acc.2.2.2)).1,
       acc.2.2.1 + 1,
       ((fileIdsOf e).foldl
         (fun (p : List Nat × Nat) fid =>
           if p.1.contains fid then (p.1.filter (fun x => x != fid), p.2 + 1)
           else (p.1, p.2))
         (acc.2.1, acc.2.2.2)).2) := by
  unfold cleanupStep
  rw [statusGuard, h]
  simp

theorem cleanupStep_of_nonterminal {e : Scrape} (h : scrapeTerminal e = false)
    (acc : List Scrape × List Nat × Nat × Nat) :
    cleanupStep acc e = acc := by
  unfold cleanupStep
  rw [statusGuard, h]
  simp

theorem cleanup_foldl_fst (L : List Scrape) :
    ∀ acc : List Scrape × List Nat × Nat × Nat,
    (L.foldl cleanupStep acc).1 =
      acc.1.filter (fun s => !(L.any (fun e => scrapeTerminal e && e.id == s.id))) := by
  induction L with
  | nil =>
    intro acc
    simp
  | cons e L ih =>
    intro acc
    simp only [List.foldl_cons]
    rw [ih]
    cases hterm : scrapeTerminal e with
    | false =>
      rw [cleanupStep_of_nonterminal hterm]
      apply List.filter_congr
      intro a _
      simp [hterm]
    | true =>
      rw [cleanupStep_of_terminal hterm]
      dsimp only
      show (deleteById acc.1 e.id).filter _ = _
      unfold deleteById
      rw [List.filter_filter]
      apply List.filter_congr
      intro a _
      by_cases hid : a.id = e.id
      · rw [hid]
        simp [hterm]
      · have hid2 : ¬ e.id = a.id := fun hcon => hid hcon.symm
        have h1 : (a.id != e.id) = true := by simp [hid]
        have h2 : (e.id == a.id) = false := by simp [hid2]
        rw [h1]
        simp only [List.any_cons, h2, hterm]
        simp

theorem cleanup_foldl_count (L : List Scrape) :
    ∀ acc : List Scrape × List Nat × Nat × Nat,
    (L.foldl cleanupStep acc).2.2.1 = acc.2.2.1 + (L.filter scrapeTerminal).length := by
  induction L with
  | nil =>
    intro acc
    simp
  | cons e L ih =>
    intro acc
    simp only [List.foldl_cons]
    rw [ih]
    cases hterm : scrapeTerminal e with
    | false =>
      rw [cleanupStep_of_nonterminal hterm, List.filter_cons_of_neg (by simp [hterm])]
    | true =>
      rw [cleanupStep_of_terminal hterm, List.filter_cons_of_pos hterm]
      dsimp only
      simp only [List.length_cons]
      omega

theorem length_filter_remove {st : List Nat} (hN : st.Nodup) {fid : Nat} (hmem : fid ∈ st) :
    (st.filter (fun x => x != fid)).length + 1 = st.length := by
  induction st with
  | nil => cases hmem
  | cons a t ih =>
    rcases List.nodup_cons.mp hN with ⟨hna, hnt⟩
    rcases List.mem_cons.mp hmem with h | h
    · subst h
      rw [List.filter_cons_of_neg (by simp)]
      have hkeep : t.filter (fun x => x != fid) = t := by
        apply List.filter_eq_self.mpr
        intro x hx
        simp only [bne_iff_ne, ne_eq]
        intro hxe
        subst hxe
        exact hna hx
      rw [hkeep]
      simp
    · have hne : (a != fid) = true := by
        simp only [bne_iff_ne, ne_eq]
        intro hae
        subst hae
        exact hna h
      have hrec := ih hnt h
      simp [List.filter_cons, hne]
      omega

theorem file_loop_spec (fids : List Nat) :
    ∀ (st : List Nat) (fc : Nat), st.Nodup →
    ((fids.foldl
        (fun (p : List Nat × Nat) fid =>
          if p.1.contains fid then (p.1.filter (fun x => x != fid), p.2 + 1)
          else (p.1, p.2))
        (st, fc)).2 +
      (fids.foldl
        (fun (p : List Nat × Nat) fid =>
          if p.1.contains fid then (p.1.filter (fun x => x != fid), p.2 + 1)
          else (p.1, p.2))
        (st, fc)).1.length = fc + st.length) ∧
    (fids.foldl
        (fun (p : List Nat × Nat) fid =>
          if p.1.contains fid then (p.1.filter (fun x => x != fid), p.2 + 1)
          else (p.1, p.2))
        (st, fc)).1.Nodup := by
  induction fids with
  | nil =>
    intro st fc hN
    simp only [List.foldl_nil]
    exact ⟨by simp, hN⟩
  | cons fid fids ih =>
    intro st fc hN
    simp only [List.foldl_cons]
    by_cases hc : st.contains fid = true
    · rw [if_pos hc]
      have hmem : fid ∈ st := by simpa using hc
      have hlen := length_filter_remove hN hmem
      have hN2 : (st.filter (fun x => x != fid)).Nodup := hN.filter _
      rcases ih (st.filter (fun x => x != fid)) (fc + 1) hN2 with ⟨h1, h2⟩
      exact ⟨by omega, h2⟩
    · rw [if_neg hc]
      exact ih st fc hN

theorem cleanup_foldl_storage (L : List Scrape) :
    ∀ acc : List Scrape × List Nat × Nat × Nat, acc.2.1.Nodup →
    ((L.foldl cleanupStep acc).2.2.2 + (L.foldl cleanupStep acc).2.1.length =
      acc.2.2.2 + acc.2.1.length) ∧
    (L.foldl cleanupStep acc).2.1.Nodup := by
  induction L with
  | nil =>
    intro acc hN
    exact ⟨rfl, hN⟩
  | cons e L ih =>
    intro acc hN
    simp only [List.foldl_cons]
    cases hterm : scrapeTerminal e with
    | false =>
      rw [cleanupStep_of_nonterminal hterm]
      exact ih acc hN
    | true =>
      rw [cleanupStep_of_terminal hterm]
      obtain ⟨h1, h2⟩ := file_loop_spec (fileIdsOf e) acc.2.1 acc.2.2.2 hN
      obtain ⟨h3, h4⟩ := ih (deleteById acc.1 e.id,
        ((fileIdsOf e).foldl
          (fun (p : List Nat × Nat) fid =>
            if p.1.contains fid then (p.1.filter (fun x => x != fid), p.2 + 1)
            else (p.1, p.2))
          (acc.2.1, acc.2.2.2)).1,
        acc.2.2.1 + 1,
        ((fileIdsOf e).foldl
          (fun (p : List Nat × Nat) fid =>
            if p.1.contains fid then (p.1.filter (fun x => x != fid), p.2 + 1)
            else (p.1, p.2))
          (acc.2.1, acc.2.2.2)).2) h2
      refine ⟨?_, h4⟩
      dsimp only at h1 h3 ⊢
      omega

theorem mem_insertByExpires {x y : Scrape} {l : List Scrape} :
    y ∈ insertByExpires x l ↔ y = x ∨ y ∈ l := by
  induction l with
  | nil => simp [insertByExpires]
  | cons a t ih =>
    simp only [insertByExpires]
    split
    · simp only [List.mem_cons, ih]
      tauto
    · simp only [List.mem_cons]

theorem mem_sortFold (l : List Scrape) :
    ∀ (acc : List Scrape) (x : Scrape),
    x ∈ l.foldl (fun acc s => insertByExpires s acc) acc ↔ x ∈ l ∨ x ∈ acc := by
  induction l with
  | nil => simp
  | cons a t ih =>
    intro acc x
    simp only [List.foldl_cons, ih, mem_insertByExpires, List.mem_cons]
    tauto

theorem mem_sortByExpires {db : List Scrape} {x : Scrape} :
    x ∈ sortByExpires db ↔ x ∈ db := by
  unfold sortByExpires
  rw [mem_sortFold]
  simp

theorem mem_expiredBatch {db : List Scrape} {now : Int} {e : Scrape}
    (h : e ∈ expiredBatch db now) : e ∈ db ∧ e.expiresAt < now := by
  unfold expiredBatch at h
  have h1 := List.mem_of_mem_take h
  rcases List.mem_filter.mp h1 with ⟨h2, h3⟩
  exact ⟨mem_sortByExpires.mp h2, by simpa using h3⟩

/-- C7: `cleanupExpired` deletes exactly the loaded expired batch's jobs in
terminal state: a pending or scraping job is never deleted regardless of its
`expiresAt`; a job that disappears was expired (`expiresAt < now`) and
completed or failed; the returned `deletedCount` is the number of terminal
jobs in the batch and is bounded by the batch size; and the returned
`deletedFileCount` is the number of files removed from storage (file
deletion is best effort: a missing file is caught and not counted). -/
theorem c7_cleanup_expired (db : List Scrape) (st : List Nat) (now : Int)
    (hNid : (db.map (fun s => s.id)).Nodup) (hNst : st.Nodup) :
    (∀ j ∈ db, (j.status = .pending ∨ j.status = .scraping) →
      j ∈ (cleanupExpired db st now).1) ∧
    (∀ j ∈ db, j ∉ (cleanupExpired db st now).1 →
      j.expiresAt < now ∧ (j.status = .completed ∨ j.status = .failed)) ∧
    ((cleanupExpired db st now).2.2.1 =
      ((expiredBatch db now).filter scrapeTerminal).length) ∧
    ((cleanupExpired db st now).2.2.1 ≤ CONFIG.CLEANUP_BATCH_SIZE) ∧
    ((cleanupExpired db st now).2.2.2 + (cleanupExpired db st now).2.1.length =
      st.length) := by
  have hfst : (cleanupExpired db st now).1 =
      db.filter (fun s => !((expiredBatch db now).any
        (fun e => scrapeTerminal e && e.id == s.id))) := by
    unfold cleanupExpired
    rw [cleanup_foldl_fst]
  have hcnt : (cleanupExpired db st now).2.2.1 =
      ((expiredBatch db now).filter scrapeTerminal).length := by
    unfold cleanupExpired
    rw [cleanup_foldl_count]
    simp
  refine ⟨?_, ?_, hcnt, ?_, ?_⟩
  · intro j hj hstat
    rw [hfst]
    apply List.mem_filter.mpr
    refine ⟨hj, ?_⟩
    simp only [Bool.not_eq_eq_eq_not, Bool.not_true, List.any_eq_false]
    intro e he
    rcases mem_expiredBatch he with ⟨hedb, -⟩
    intro hcon
    rcases (Bool.and_eq_true _ _).mp hcon with ⟨hterm, hbeq⟩
    have hej : e = j := eq_of_mem_of_id_eq hNid hedb hj (by simpa using hbeq)
    subst hej
    rcases hstat with h | h <;> simp [scrapeTerminal, h] at hterm
  · intro j hj hnot
    rw [hfst] at hnot
    have hpred : ¬ (!((expiredBatch db now).any
        (fun e => scrapeTerminal e && e.id == j.id))) = true := by
      intro hcon
      exact hnot (List.mem_filter.mpr ⟨hj, hcon⟩)
    have hany : ((expiredBatch db now).any
        (fun e => scrapeTerminal e && e.id == j.id)) = true := by
      rcases Bool.eq_false_or_eq_true ((expiredBatch db now).any
        (fun e => scrapeTerminal e && e.id == j.id)) with h | h
      · exact h
      · exact absurd (by rw [h]; rfl) hpred
    rcases List.any_eq_true.mp hany with ⟨e, he, hcond⟩
    rcases (Bool.and_eq_true _ _).mp hcond with ⟨hterm, hbeq⟩
    rcases mem_expiredBatch he with ⟨hedb, hexp⟩
    have hej : e = j := eq_of_mem_of_id_eq hNid hedb hj (by simpa using hbeq)
    subst hej
    refine ⟨hexp, ?_⟩
    cases hst : e.status <;> simp [scrapeTerminal, hst] at hterm ⊢
  · rw [hcnt]
    calc ((expiredBatch db now).filter scrapeTerminal).length
        ≤ (expiredBatch db now).length := List.length_filter_le _ _
      _ ≤ CONFIG.CLEANUP_BATCH_SIZE := by
          unfold expiredBatch
          rw [List.length_take]
          omega
  · unfold cleanupExpired
    have h := (cleanup_foldl_storage (expiredBatch db now) (db, st, 0, 0) hNst).1
    dsimp only at h
    omega

/-- Witness for C7: with one expired completed job (one stored file) and
one expired pending job, the sweep deletes only the completed one, counts
one record and one file. -/
theorem c7_cleanup_expired_witness :
    ({ samplePending with expiresAt := 10 } ∈
      (cleanupExpired [{ sampleCompleted with expiresAt := 10, markdownFileId := some 5 },
        { samplePending with expiresAt := 10 }] [5] 50).1) ∧
    (cleanupExpired [{ sampleCompleted with expiresAt := 10, markdownFileId := some 5 },
      { samplePending with expiresAt := 10 }] [5] 50).2.2.1 = 1 ∧
    (cleanupExpired [{ sampleCompleted with expiresAt := 10, markdownFileId := some 5 },
      { samplePending with expiresAt := 10 }] [5] 50).2.2.2 +
      (cleanupExpired [{ sampleCompleted with expiresAt := 10, markdownFileId := some 5 },
        { samplePending with expiresAt := 10 }] [5] 50).2.1.length = 1 := by
  have h := c7_cleanup_expired
    [{ sampleCompleted with expiresAt := 10, markdownFileId := some 5 },
     { samplePending with expiresAt := 10 }] [5] 50 (by decide) (by decide)
  refine ⟨h.1 _ (by simp) (Or.inl rfl), ?_, h.2.2.2.2⟩
  rw [h.2.2.1]
  rfl

/- ===================================================================
   C4 — cache lookup and the cached-return path of startScrape
   =================================================================== -/

/-- Counterexample to C4 as stated: with a pending job and a valid cached
completed job loaded for the same hash (no `force`), `startScrape` does not
return the matching job's id — the conflict check precedes the cache check,
so it throws the in-progress error instead. -/
theorem c4_counterexample :
    (sampleCompleted ∈ recentByHash [samplePending, sampleCompleted]
        (hashId "https://example.com/a") ∧
      sampleCompleted.status = .completed ∧
      sampleCompleted.expiresAt > (50 : Int) ∧
      formatsSatisfied sampleCompleted.formats ["markdown"] = true ∧
      (({} : ScrapeOptions).force.getD false) = false ∧
      validateUrl "https://example.com/a" = .valid) ∧
    startScrape hashId [samplePending, sampleCompleted] [] 50 9 "https://example.com/a" {} =
      .error "Scrape already in progress for this URL. Job ID: 1" ∧
    (∀ res, startScrape hashId [samplePending, sampleCompleted] [] 50 9
      "https://example.com/a" {} ≠ Except.ok res) := by
  refine ⟨⟨by simp [recentByHash, samplePending, sampleCompleted, hashId],
    rfl, by decide, rfl, rfl, rfl⟩, rfl, ?_⟩
  intro res hok
  rw [show startScrape hashId [samplePending, sampleCompleted] [] 50 9
      "https://example.com/a" {} =
      .error "Scrape already in progress for this URL. Job ID: 1" from rfl] at hok
  exact Except.noConfusion hok

/-- C4 (amended): `getCached` succeeds exactly on superset-format matches —
it returns a job iff some job among the ten most recent for the normalized
URL's hash is completed, unexpired and stores every requested format
(defaulting to markdown), returns `none` otherwise and on invalid URLs, and
the returned job itself satisfies those conditions; likewise `startScrape`
without `force` returns such a matching job's id with the database
unchanged, provided no pending or scraping job is among the loaded recent
jobs (otherwise the conflict error of C1 takes precedence). -/
theorem c4_cache_superset (hash : String → String) (db : List Scrape) (st : List Nat)
    (now : Int) (freshId : Nat) (url : String) (fmts : Option (List String))
    (opts : ScrapeOptions) (nu : String) :
    (∀ e, validateUrl url = .invalid e → getCached hash db now url fmts = none) ∧
    (validateUrl url = .valid → normalizeUrl url = some nu →
      ((getCached hash db now url fmts).isSome = true ↔
        ∃ s ∈ recentByHash db (hash nu), s.status = .completed ∧ s.expiresAt > now ∧
          formatsSatisfied s.formats (fmts.getD ["markdown"]) = true) ∧
      (∀ s, getCached hash db now url fmts = some s →
        s ∈ recentByHash db (hash nu) ∧ s.status = .completed ∧ s.expiresAt > now ∧
          formatsSatisfied s.formats (fmts.getD ["markdown"]) = true)) ∧
    (validateUrl url = .valid → normalizeUrl url = some nu →
      opts.force.getD false = false → opts.formats = fmts →
      (∀ j ∈ recentByHash db (hash nu), ¬(j.status = .pending ∨ j.status = .scraping)) →
      (∃ s ∈ recentByHash db (hash nu), s.status = .completed ∧ s.expiresAt > now ∧
        formatsSatisfied s.formats (fmts.getD ["markdown"]) = true) →
      ∃ job ∈ recentByHash db (hash nu),
        job.status = .completed ∧ job.expiresAt > now ∧
        formatsSatisfied job.formats (fmts.getD ["markdown"]) = true ∧
        startScrape hash db st now freshId url opts = .ok (db, st, job.id)) := by
  refine ⟨?_, ?_, ?_⟩
  · intro e he
    simp [getCached, he]
  · intro hv hn
    constructor
    · simp only [getCached, hv, hn]
      rw [List.find?_isSome]
      constructor
      · rintro ⟨x, hx, hp⟩
        rcases (Bool.and_eq_true _ _).mp hp with ⟨h12, h3⟩
        rcases (Bool.and_eq_true _ _).mp h12 with ⟨h1, h2⟩
        exact ⟨x, hx, by simpa using h1, by simpa using h2, h3⟩
      · rintro ⟨s, hs, h1, h2, h3⟩
        exact ⟨s, hs, by simp [h1, h2, h3]⟩
    · intro s hfind
      simp only [getCached, hv, hn] at hfind
      have hmem := List.mem_of_find?_eq_some hfind
      have hp := List.find?_some hfind
      rcases (Bool.and_eq_true _ _).mp hp with ⟨h12, h3⟩
      rcases (Bool.and_eq_true _ _).mp h12 with ⟨h1, h2⟩
      exact ⟨hmem, by simpa using h1, by simpa using h2, h3⟩
  · intro hv hn hforce hfmts hnoact hmatch
    have hnone : (recentByHash db (hash nu)).find?
        (fun j => j.status == ScrapeStatus.pending || j.status == ScrapeStatus.scraping) =
        none := by
      rw [List.find?_eq_none]
      intro j hj hcon
      rcases (Bool.or_eq_true _ _).mp hcon with h | h
      · exact hnoact j hj (Or.inl (by simpa using h))
      · exact hnoact j hj (Or.inr (by simpa using h))
    have hsome : ((recentByHash db (hash nu)).find?
        (fun j => j.status == ScrapeStatus.completed && decide (j.expiresAt > now) &&
          formatsSatisfied j.formats (fmts.getD ["markdown"]))).isSome = true := by
      rw [List.find?_isSome]
      rcases hmatch with ⟨s, hs, h1, h2, h3⟩
      exact ⟨s, hs, by simp [h1, h2, h3]⟩
    rcases Option.isSome_iff_exists.mp hsome with ⟨job, hjob⟩
    have hprops := List.find?_some hjob
    rcases (Bool.and_eq_true _ _).mp hprops with ⟨h12, h3⟩
    rcases (Bool.and_eq_true _ _).mp h12 with ⟨h1, h2⟩
    refine ⟨job, List.mem_of_find?_eq_some hjob, by simpa using h1, by simpa using h2, h3, ?_⟩
    simp only [startScrape, hv, hn, hfmts, hforce, Bool.false_eq_true, if_false]
    rw [hnone, hjob]

/-- Witness for the amended C4: with only the cached completed sample job
loaded, `getCached` hits and `startScrape` returns its id without touching
the database. -/
theorem c4_cache_superset_witness :
    (getCached hashId [sampleCompleted] 50 "https://example.com/a" none).isSome = true ∧
    (∃ job ∈ recentByHash [sampleCompleted] (hashId "https://example.com/a"),
      job.status = .completed ∧ job.expiresAt > (50 : Int) ∧
      formatsSatisfied job.formats ["markdown"] = true ∧
      startScrape hashId [sampleCompleted] [] 50 9 "https://example.com/a" {} =
        .ok ([sampleCompleted], [], job.id)) := by
  have h := c4_cache_superset hashId [sampleCompleted] [] 50 9 "https://example.com/a"
    none {} "https://example.com/a"
  have hmem : sampleCompleted ∈ recentByHash [sampleCompleted] (hashId "https://example.com/a") := by
    simp [recentByHash, sampleCompleted, samplePending, hashId]
  constructor
  · exact (h.2.1 rfl rfl).1.mpr ⟨sampleCompleted, hmem, rfl, by decide, rfl⟩
  · exact h.2.2 rfl rfl rfl rfl
      (by
        intro j hj
        rw [show recentByHash [sampleCompleted] (hashId "https://example.com/a") =
          [sampleCompleted] from rfl] at hj
        have hje : j = sampleCompleted := by simpa using hj
        subst hje
        rintro (hcon | hcon) <;> simp [sampleCompleted, samplePending] at hcon)
      ⟨sampleCompleted, hmem, rfl, by decide, rfl⟩

/- ===================================================================
   C9 — synchronous validation errors and silent read paths
   =================================================================== -/

theorem matchesAt_append {n h : List Char} (t : List Char) (hm : matchesAt n h = true) :
    matchesAt n (h ++ t) = true := by
  induction n generalizing h with
  | nil => rfl
  | cons a as ih =>
    cases h with
    | nil => simp [matchesAt] at hm
    | cons b bs =>
      simp only [matchesAt, List.cons_append] at hm ⊢
      rcases (Bool.and_eq_true _ _).mp hm with ⟨h1, h2⟩
      exact (Bool.and_eq_true _ _).mpr ⟨h1, ih h2⟩

/-- C9: `startScrape` raises a synchronous validation error for every
invalid URL, formatted by failure kind — "Private/local ..." for
loopback/private hosts (e.g. http://localhost:3000/x), "Invalid URL
scheme ..." for any parsed scheme other than http/https (e.g.
ftp://example.com), "... exceeds maximum length ..." for URLs beyond the
2000-character cap — while the read paths `getCached` and `getByUrl`
return `none` on invalid URLs instead of raising. -/
theorem c9_validation_errors :
    (∀ hash db st now freshId url opts e, validateUrl url = .invalid e →
      startScrape hash db st now freshId url opts = .error (formatValidationError e) ∧
      (∀ fmts, getCached hash db now url fmts = none) ∧
      getByUrl hash db url = none) ∧
    (∀ url r, parseURL url = some r → url.length ≤ CONFIG.MAX_URL_LENGTH →
      r.protocol ≠ "http:" → r.protocol ≠ "https:" →
      validateUrl url = .invalid (.invalid_scheme r.protocol) ∧
      strStarts (formatValidationError (.invalid_scheme r.protocol))
        "Invalid URL scheme" = true) ∧
    (validateUrl "http://localhost:3000/x" = .invalid (.private_ip "localhost") ∧
      formatValidationError (.private_ip "localhost") =
        "Private/local IP addresses are not allowed: localhost" ∧
      strContains (formatValidationError (.private_ip "localhost")) "Private/local" = true) ∧
    (validateUrl "ftp://example.com" = .invalid (.invalid_scheme "ftp:") ∧
      strContains (formatValidationError (.invalid_scheme "ftp:")) "Invalid URL scheme" = true) ∧
    (validateUrl ("https://example.com/" ++ String.mk (List.replicate 2000 'a')) =
      .invalid (.too_long 2000 2020) ∧
      strContains (formatValidationError (.too_long 2000 2020)) "exceeds maximum length" = true) := by
  refine ⟨?_, ?_, ⟨rfl, rfl, by decide⟩, ⟨rfl, by decide⟩, ⟨?_, by decide⟩⟩
  · intro hash db st now freshId url opts e he
    refine ⟨by simp [startScrape, he], fun fmts => by simp [getCached, he], by simp [getByUrl, he]⟩
  · intro url r hr hlen hp1 hp2
    constructor
    · unfold validateUrl
      rw [if_neg (by omega), hr]
      dsimp only
      rw [if_pos (by simp [hp1, hp2])]
    · show matchesAt ("Invalid URL scheme").data
        (("Invalid URL scheme: " ++ r.protocol ++ ". Only http and https are allowed").data) = true
      rw [String.data_append, String.data_append]
      apply matchesAt_append
      apply matchesAt_append
      decide
  · have hlen : ("https://example.com/" ++ String.mk (List.replicate 2000 'a')).length = 2020 := by
      rw [String.length_append]
      have h2 : (String.mk (List.replicate 2000 'a')).length = 2000 := by
        show (List.replicate 2000 'a').length = 2000
        exact List.length_replicate 2000 'a'
      have h1 : ("https://example.com/").length = 20 := by decide
      rw [h2, h1]
    unfold validateUrl
    rw [if_pos (by rw [hlen]; decide)]
    rw [hlen]
    rfl

/-- Witness for C9: the localhost example is rejected by `startScrape` with
the private-address message while the read paths return `none`. -/
theorem c9_validation_errors_witness :
    validateUrl "http://localhost:3000/x" = .invalid (.private_ip "localhost") ∧
    startScrape hashId [] [] 0 0 "http://localhost:3000/x" {} =
      .error (formatValidationError (.private_ip "localhost")) ∧
    getCached hashId [] 0 "http://localhost:3000/x" none = none ∧
    getByUrl hashId [] "http://localhost:3000/x" = none := by
  have h := (c9_validation_errors).1 hashId [] [] 0 0 "http://localhost:3000/x" {}
    (.private_ip "localhost") rfl
  exact ⟨rfl, h.1, h.2.1 none, h.2.2⟩

/- ===================================================================
   C2: storage tiering of scraped content
   =================================================================== -/

theorem utf8Size_go_replicate_a (n : Nat) :
    String.utf8ByteSize.go (List.replicate n 'a') = n := by
  have ha : 'a'.utf8Size = 1 := by decide
  induction n with
  | zero => simp [String.utf8ByteSize.go]
  | succ k ih => simp [List.replicate, String.utf8ByteSize.go] at ih ⊢; omega

theorem getByteLength_replicate_a (n : Nat) :
    getByteLength (String.mk (List.replicate n 'a')) = n :=
  utf8Size_go_replicate_a n

theorem isEmpty_false_of_utf8 (s : String) (h : 0 < s.utf8ByteSize) :
    s.isEmpty = false := by
  unfold String.isEmpty String.endPos
  simp [String.Pos.ext_iff]
  omega

theorem tierText_inline (s : String) (fid : Nat) (h1 : s.isEmpty = false)
    (h2 : ¬ getByteLength s > CONFIG.FILE_STORAGE_THRESHOLD_BYTES) :
    tierText (some s) fid = (some s, none) := by
  simp [tierText, h1, h2]

theorem tierText_offload (s : String) (fid : Nat) (h1 : s.isEmpty = false)
    (h2 : getByteLength s > CONFIG.FILE_STORAGE_THRESHOLD_BYTES) :
    tierText (some s) fid = (none, some fid) := by
  simp [tierText, h1, h2]

theorem tierLinks_inline (l : List String) (fid : Nat)
    (h : ¬ getByteLength (jsonStringify (.arr (l.map .str))) >
      CONFIG.FILE_STORAGE_THRESHOLD_BYTES) :
    tierLinks (some l) fid = (some l, none) := by
  simp [tierLinks, h]

theorem tierLinks_offload (l : List String) (fid : Nat)
    (h : getByteLength (jsonStringify (.arr (l.map .str))) >
      CONFIG.FILE_STORAGE_THRESHOLD_BYTES) :
    tierLinks (some l) fid = (none, some fid) := by
  simp [tierLinks, h]

theorem tierImages_inline (l : List ImageEntry) (fid : Nat)
    (h : ¬ getByteLength (jsonStringify (.arr ((l.map imageUrl).map .str))) >
      CONFIG.FILE_STORAGE_THRESHOLD_BYTES) :
    tierImages (some l) fid = (some (l.map imageUrl), none) := by
  simp only [tierImages]
  rw [if_neg h]

theorem tierImages_offload (l : List ImageEntry) (fid : Nat)
    (h : getByteLength (jsonStringify (.arr ((l.map imageUrl).map .str))) >
      CONFIG.FILE_STORAGE_THRESHOLD_BYTES) :
    tierImages (some l) fid = (none, some fid) := by
  simp only [tierImages]
  rw [if_pos h]

theorem tierExtract_inline (j : JsonVal) (fid : Nat) (h1 : jsonTruthy j = true)
    (h2 : ¬ getByteLength (jsonStringify j) > CONFIG.FILE_STORAGE_THRESHOLD_BYTES) :
    tierExtract (some j) fid = (some j, none) := by
  simp [tierExtract, h1, h2]

theorem tierExtract_offload (j : JsonVal) (fid : Nat) (h1 : jsonTruthy j = true)
    (h2 : getByteLength (jsonStringify j) > CONFIG.FILE_STORAGE_THRESHOLD_BYTES) :
    tierExtract (some j) fid = (none, some fid) := by
  simp [tierExtract, h1, h2]

theorem processContent_summary (data : FirecrawlData) (ss fo : Bool) :
    (processContent data ss fo).summary = keepTruthyStr data.summary := rfl

theorem processContent_markdown (data : FirecrawlData) (ss fo : Bool) :
    (processContent data ss fo).markdown = (tierText data.markdown 0).1 := rfl

theorem processContent_markdownFileId (data : FirecrawlData) (ss fo : Bool) :
    (processContent data ss fo).markdownFileId = (tierText data.markdown 0).2 := rfl

theorem tierText_not_both (c : Option String) (fid : Nat) :
    (tierText c fid).1 = none ∨ (tierText c fid).2 = none := by
  cases c with
  | none => left; rfl
  | some s => simp only [tierText]; split_ifs <;> simp

theorem tierLinks_not_both (c : Option (List String)) (fid : Nat) :
    (tierLinks c fid).1 = none ∨ (tierLinks c fid).2 = none := by
  cases c with
  | none => left; rfl
  | some l => simp only [tierLinks]; split_ifs <;> simp

theorem tierImages_not_both (c : Option (List ImageEntry)) (fid : Nat) :
    (tierImages c fid).1 = none ∨ (tierImages c fid).2 = none := by
  cases c with
  | none => left; rfl
  | some l => simp only [tierImages]; split_ifs <;> simp

theorem tierExtract_not_both (c : Option JsonVal) (fid : Nat) :
    (tierExtract c fid).1 = none ∨ (tierExtract c fid).2 = none := by
  cases c with
  | none => left; rfl
  | some j => simp only [tierExtract]; split_ifs <;> simp

/-- Counterexample to C2 as stated: the summary field is stored inline even
when its UTF-8 byte length exceeds the threshold (there is no summary file
reference at all), and a markdown of exactly the threshold's byte length —
hence not below it — is still stored inline rather than offloaded, because
the code offloads only on strict excess. -/
theorem c2_counterexample :
    getByteLength c2BigStr > CONFIG.FILE_STORAGE_THRESHOLD_BYTES ∧
    (processContent c2Data false false).summary = some c2BigStr ∧
    ¬ getByteLength c2MdStr < CONFIG.FILE_STORAGE_THRESHOLD_BYTES ∧
    (processContent c2Data false false).markdown = some c2MdStr ∧
    (processContent c2Data false false).markdownFileId = none := by
  have hbig : getByteLength c2BigStr = 1024 * 1024 + 1 := getByteLength_replicate_a _
  have hmd : getByteLength c2MdStr = 1024 * 1024 := getByteLength_replicate_a _
  have hBigNE : c2BigStr.isEmpty = false := by
    refine isEmpty_false_of_utf8 _ ?_
    show 0 < getByteLength c2BigStr
    rw [hbig]; omega
  have hMdNE : c2MdStr.isEmpty = false := by
    refine isEmpty_false_of_utf8 _ ?_
    show 0 < getByteLength c2MdStr
    rw [hmd]; omega
  have hMdLe : ¬ getByteLength c2MdStr > CONFIG.FILE_STORAGE_THRESHOLD_BYTES := by
    rw [hmd]; decide
  have hds : c2Data.summary = some c2BigStr := rfl
  have hdm : c2Data.markdown = some c2MdStr := rfl
  refine ⟨by rw [hbig]; decide, ?_, by rw [hmd]; decide, ?_, ?_⟩
  · rw [processContent_summary, hds]
    simp [keepTruthyStr, hBigNE]
  · rw [processContent_markdown, hdm, tierText_inline c2MdStr 0 hMdNE hMdLe]
  · rw [processContent_markdownFileId, hdm, tierText_inline c2MdStr 0 hMdNE hMdLe]

/-- C2 (amended): for markdown, html, rawHtml, links, images and
extractedJson, truthy content is stored inline with no file reference when
its byte length (UTF-8 for text, JSON-serialized for collections) is at
most the threshold, and offloaded — the content cleared, only the file
reference recorded — when it strictly exceeds it; no such field is ever
both inline and a file reference; the summary, however, is always stored
inline when truthy, regardless of size. -/
theorem c2_storage_tiering (data : FirecrawlData) (ss fo : Bool) :
    (∀ s, data.markdown = some s → s.isEmpty = false →
      (getByteLength s ≤ CONFIG.FILE_STORAGE_THRESHOLD_BYTES →
        (processContent data ss fo).markdown = some s ∧
        (processContent data ss fo).markdownFileId = none) ∧
      (getByteLength s > CONFIG.FILE_STORAGE_THRESHOLD_BYTES →
        (processContent data ss fo).markdown = none ∧
        (processContent data ss fo).markdownFileId = some 0)) ∧
    (∀ s, data.html = some s → s.isEmpty = false →
      (getByteLength s ≤ CONFIG.FILE_STORAGE_THRESHOLD_BYTES →
        (processContent data ss fo).html = some s ∧
        (processContent data ss fo).htmlFileId = none) ∧
      (getByteLength s > CONFIG.FILE_STORAGE_THRESHOLD_BYTES →
        (processContent data ss fo).html = none ∧
        (processContent data ss fo).htmlFileId = some 1)) ∧
    (∀ s, data.rawHtml = some s → s.isEmpty = false →
      (getByteLength s ≤ CONFIG.FILE_STORAGE_THRESHOLD_BYTES →
        (processContent data ss fo).rawHtml = some s ∧
        (processContent data ss fo).rawHtmlFileId = none) ∧
      (getByteLength s > CONFIG.FILE_STORAGE_THRESHOLD_BYTES →
        (processContent data ss fo).rawHtml = none ∧
        (processContent data ss fo).rawHtmlFileId = some 2)) ∧
    (∀ l, data.links = some l →
      (getByteLength (jsonStringify (.arr (l.map .str))) ≤
          CONFIG.FILE_STORAGE_THRESHOLD_BYTES →
        (processContent data ss fo).links = some l ∧
        (processContent data ss fo).linksFileId = none) ∧
      (getByteLength (jsonStringify (.arr (l.map .str))) >
          CONFIG.FILE_STORAGE_THRESHOLD_BYTES →
        (processContent data ss fo).links = none ∧
        (processContent data ss fo).linksFileId = some 3)) ∧
    (∀ l, data.images = some l →
      (getByteLength (jsonStringify (.arr ((l.map imageUrl).map .str))) ≤
          CONFIG.FILE_STORAGE_THRESHOLD_BYTES →
        (processContent data ss fo).images = some (l.map imageUrl) ∧
        (processContent data ss fo).imagesFileId = none) ∧
      (getByteLength (jsonStringify (.arr ((l.map imageUrl).map .str))) >
          CONFIG.FILE_STORAGE_THRESHOLD_BYTES →
        (processContent data ss fo).images = none ∧
        (processContent data ss fo).imagesFileId = some 4)) ∧
    (∀ j, data.extract = some j → jsonTruthy j = true →
      (getByteLength (jsonStringify j) ≤ CONFIG.FILE_STORAGE_THRESHOLD_BYTES →
        (processContent data ss fo).extractedJson = some j ∧
        (processContent data ss fo).extractedJsonFileId = none) ∧
      (getByteLength (jsonStringify j) > CONFIG.FILE_STORAGE_THRESHOLD_BYTES →
        (processContent data ss fo).extractedJson = none ∧
        (processContent data ss fo).extractedJsonFileId = some 5)) ∧
    (∀ s, data.summary = some s → s.isEmpty = false →
      (processContent data ss fo).summary = some s) ∧
    ((processContent data ss fo).markdown = none ∨
      (processContent data ss fo).markdownFileId = none) ∧
    ((processContent data ss fo).html = none ∨
      (processContent data ss fo).htmlFileId = none) ∧
    ((processContent data ss fo).rawHtml = none ∨
      (processContent data ss fo).rawHtmlFileId = none) ∧
    ((processContent data ss fo).links = none ∨
      (processContent data ss fo).linksFileId = none) ∧
    ((processContent data ss fo).images = none ∨
      (processContent data ss fo).imagesFileId = none) ∧
    ((processContent data ss fo).extractedJson = none ∨
      (processContent data ss fo).extractedJsonFileId = none) := by
  refine ⟨?_, ?_, ?_, ?_, ?_, ?_, ?_, ?_, ?_, ?_, ?_, ?_, ?_⟩
  · intro s hs hne
    constructor
    · intro hle
      have ht := tierText_inline s 0 hne (by omega)
      exact ⟨by show (tierText data.markdown 0).1 = some s; rw [hs, ht],
        by show (tierText data.markdown 0).2 = none; rw [hs, ht]⟩
    · intro hgt
      have ht := tierText_offload s 0 hne hgt
      exact ⟨by show (tierText data.markdown 0).1 = none; rw [hs, ht],
        by show (tierText data.markdown 0).2 = some 0; rw [hs, ht]⟩
  · intro s hs hne
    constructor
    · intro hle
      have ht := tierText_inline s 1 hne (by omega)
      exact ⟨by show (tierText data.html 1).1 = some s; rw [hs, ht],
        by show (tierText data.html 1).2 = none; rw [hs, ht]⟩
    · intro hgt
      have ht := tierText_offload s 1 hne hgt
      exact ⟨by show (tierText data.html 1).1 = none; rw [hs, ht],
        by show (tierText data.html 1).2 = some 1; rw [hs, ht]⟩
  · intro s hs hne
    constructor
    · intro hle
      have ht := tierText_inline s 2 hne (by omega)
      exact ⟨by show (tierText data.rawHtml 2).1 = some s; rw [hs, ht],
        by show (tierText data.rawHtml 2).2 = none; rw [hs, ht]⟩
    · intro hgt
      have ht := tierText_offload s 2 hne hgt
      exact ⟨by show (tierText data.rawHtml 2).1 = none; rw [hs, ht],
        by show (tierText data.rawHtml 2).2 = some 2; rw [hs, ht]⟩
  · intro l hl
    constructor
    · intro hle
      have ht := tierLinks_inline l 3 (by omega)
      exact ⟨by show (tierLinks data.links 3).1 = some l; rw [hl, ht],
        by show (tierLinks data.links 3).2 = none; rw [hl, ht]⟩
    · intro hgt
      have ht := tierLinks_offload l 3 hgt
      exact ⟨by show (tierLinks data.links 3).1 = none; rw [hl, ht],
        by show (tierLinks data.links 3).2 = some 3; rw [hl, ht]⟩
  · intro l hl
    constructor
    · intro hle
      have ht := tierImages_inline l 4 (by omega)
      exact ⟨by show (tierImages data.images 4).1 = some (l.map imageUrl); rw [hl, ht],
        by show (tierImages data.images 4).2 = none; rw [hl, ht]⟩
    · intro hgt
      have ht := tierImages_offload l 4 hgt
      exact ⟨by show (tierImages data.images 4).1 = none; rw [hl, ht],
        by show (tierImages data.images 4).2 = some 4; rw [hl, ht]⟩
  · intro j hj htr
    constructor
    · intro hle
      have ht := tierExtract_inline j 5 htr (by omega)
      exact ⟨by show (tierExtract data.extract 5).1 = some j; rw [hj, ht],
        by show (tierExtract data.extract 5).2 = none; rw [hj, ht]⟩
    · intro hgt
      have ht := tierExtract_offload j 5 htr hgt
      exact ⟨by show (tierExtract data.extract 5).1 = none; rw [hj, ht],
        by show (tierExtract data.extract 5).2 = some 5; rw [hj, ht]⟩
  · intro s hs hne
    show keepTruthyStr data.summary = some s
    rw [hs]
    simp [keepTruthyStr, hne]
  · exact tierText_not_both data.markdown 0
  · exact tierText_not_both data.html 1
  · exact tierText_not_both data.rawHtml 2
  · exact tierLinks_not_both data.links 3
  · exact tierImages_not_both data.images 4
  · exact tierExtract_not_both data.extract 5

/-- Witness for C2 (amended): a small markdown is stored inline with no
file id. -/
theorem c2_storage_tiering_witness :
    (processContent c2SmallData false false).markdown = some "# hi" ∧
    (processContent c2SmallData false false).markdownFileId = none :=
  ((c2_storage_tiering c2SmallData false false).1 "# hi" rfl (by decide)).1 (by decide)

/- ===================================================================
   C5: idempotence of URL normalization
   =================================================================== -/

/-- Counterexample to C5 as stated: `normalizeUrl` strips only one trailing
slash per pass (url.ts line 233 uses a single `slice(0, -1)`), so a path
ending in a double slash normalizes to a path ending in a single slash,
which a second normalization strips again — `normalizeUrl` is not
idempotent on such inputs. -/
theorem c5_counterexample :
    normalizeUrl "https://example.com/a//" = some "https://example.com/a/" ∧
    normalizeUrl "https://example.com/a/" = some "https://example.com/a" ∧
    "https://example.com/a/" ≠ "https://example.com/a" :=
  ⟨rfl, rfl, by decide⟩

/- ===================================================================
   C5 (amended): lemma layers for the idempotence proof
   =================================================================== -/
-- Layer A: character-level facts

theorem toNat_ofNat_lt (n : Nat) (h : n < 55296) : (Char.ofNat n).toNat = n := by
  have hv : n.isValidChar := Or.inl h
  simp [Char.ofNat, hv, Char.ofNatAux, Char.toNat, UInt32.toNat]

theorem toNat_inj_char {a b : Char} (h : a.toNat = b.toNat) : a = b := by
  have h2 := congrArg Char.ofNat h
  rwa [Char.ofNat_toNat, Char.ofNat_toNat] at h2

theorem beq_false_of_toNat_ne {a b : Char} (h : a.toNat ≠ b.toNat) : (a == b) = false := by
  rw [beq_eq_false_iff_ne]
  exact fun he => h (congrArg Char.toNat he)

theorem asciiLower_toNat (c : Char) :
    (asciiLower c).toNat = if 65 ≤ c.toNat ∧ c.toNat ≤ 90 then c.toNat + 32 else c.toNat := by
  unfold asciiLower asciiUpperAlpha
  simp only [Bool.and_eq_true, decide_eq_true_eq]
  split_ifs with h
  · exact toNat_ofNat_lt _ (by omega)
  · rfl

theorem asciiLower_idem (c : Char) : asciiLower (asciiLower c) = asciiLower c := by
  apply toNat_inj_char
  have h := asciiLower_toNat c
  rw [asciiLower_toNat (asciiLower c), h]
  split_ifs <;> omega

theorem map_asciiLower_fix {l : List Char} (h : ∀ c ∈ l, asciiLower c = c) :
    l.map asciiLower = l := by
  induction l with
  | nil => rfl
  | cons a t ih =>
    simp only [List.map_cons]
    rw [h a (by simp), ih (fun c hc => h c (by simp [hc]))]

theorem lowerStr_fix {s : String} (h : ∀ c ∈ s.data, asciiLower c = c) :
    lowerStr s = s := by
  unfold lowerStr
  rw [map_asciiLower_fix h]
-- Layer B: list machinery

theorem takeWhile_append_all {α : Type} {p : α → Bool} {A : List α}
    (h : ∀ a ∈ A, p a = true) (B : List α) :
    (A ++ B).takeWhile p = A ++ B.takeWhile p := by
  induction A with
  | nil => rfl
  | cons a t ih =>
    have ha := h a (by simp)
    have iht := ih (fun x hx => h x (by simp [hx])) 
    simp [List.takeWhile_cons, ha, iht]

theorem dropWhile_append_all {α : Type} {p : α → Bool} {A : List α}
    (h : ∀ a ∈ A, p a = true) (B : List α) :
    (A ++ B).dropWhile p = B.dropWhile p := by
  induction A with
  | nil => rfl
  | cons a t ih =>
    have ha := h a (by simp)
    have iht := ih (fun x hx => h x (by simp [hx])) 
    simp [List.dropWhile_cons, ha, iht]

theorem takeWhile_all_eq {α : Type} {p : α → Bool} {A : List α}
    (h : ∀ a ∈ A, p a = true) : A.takeWhile p = A := by
  have h2 := takeWhile_append_all h []
  simpa using h2

theorem dropWhile_all_eq {α : Type} {p : α → Bool} {A : List α}
    (h : ∀ a ∈ A, p a = true) : A.dropWhile p = [] := by
  have h2 := dropWhile_append_all h []
  simpa using h2

theorem splitOnChar_sepFree {c : Char} {l : List Char}
    (h : ∀ a ∈ l, (a == c) = false) : splitOnChar c l = [l] := by
  induction l with
  | nil => rfl
  | cons a t ih =>
    rw [splitOnChar, if_neg (by rw [h a (by simp)]; exact fun hc => nomatch hc)]
    rw [ih (fun x hx => h x (by simp [hx]))]

theorem splitOnChar_append_sep {c : Char} {A : List Char} (B : List Char)
    (h : ∀ a ∈ A, (a == c) = false) :
    splitOnChar c (A ++ c :: B) = A :: splitOnChar c B := by
  induction A with
  | nil => simp [splitOnChar]
  | cons a t ih =>
    rw [List.cons_append, splitOnChar,
      if_neg (by rw [h a (by simp)]; exact fun hc => nomatch hc)]
    rw [ih (fun x hx => h x (by simp [hx]))]

theorem mem_splitOnChar {c : Char} :
    ∀ {l : List Char}, ∀ seg ∈ splitOnChar c l, ∀ a ∈ seg, a ∈ l := by
  intro l
  induction l with
  | nil =>
    intro seg hs a ha
    rw [show splitOnChar c [] = [[]] from rfl, List.mem_singleton] at hs
    subst hs
    exact absurd ha (List.not_mem_nil a)
  | cons b t ih =>
    intro seg hs a ha
    rw [splitOnChar] at hs
    by_cases hb : (b == c) = true
    · rw [if_pos hb] at hs
      rcases List.mem_cons.mp hs with h1 | h1
      · subst h1
        exact absurd ha (List.not_mem_nil a)
      · exact List.mem_cons_of_mem b (ih seg h1 a ha)
    · rw [if_neg hb] at hs
      rcases hsp : splitOnChar c t with _ | ⟨s, ss⟩
      · rw [hsp, List.mem_singleton] at hs
        subst hs
        rw [List.mem_singleton] at ha
        subst ha
        exact List.mem_cons_self a t
      · rw [hsp] at hs
        rcases List.mem_cons.mp hs with h1 | h1
        · subst h1
          rcases List.mem_cons.mp ha with h2 | h2
          · subst h2
            exact List.mem_cons_self a t
          · exact List.mem_cons_of_mem b (ih s (by rw [hsp]; exact List.mem_cons_self s ss) a h2)
        · exact List.mem_cons_of_mem b (ih seg (by rw [hsp]; exact List.mem_cons_of_mem s h1) a ha)

theorem joinAmp_two (x : List Char) (y : List Char) (t : List (List Char)) :
    joinAmp (x :: y :: t) = x ++ '&' :: joinAmp (y :: t) := rfl
-- Layer C: form-urlencoded encode/decode facts

theorem hexVal_hexDigitUpper {n : Nat} (h : n < 16) :
    hexVal (hexDigitUpper n) = some n := by
  interval_cases n <;> decide

theorem isFormSafe_ranges {c : Char} (h : isFormSafe c = true) :
    (65 ≤ c.toNat ∧ c.toNat ≤ 90) ∨ (97 ≤ c.toNat ∧ c.toNat ≤ 122) ∨
    (48 ≤ c.toNat ∧ c.toNat ≤ 57) ∨ c.toNat = 42 ∨ c.toNat = 45 ∨
    c.toNat = 46 ∨ c.toNat = 95 := by
  simp only [isFormSafe, asciiAlpha, asciiUpperAlpha, asciiLowerAlpha, asciiDigit,
    Bool.or_eq_true, Bool.and_eq_true, decide_eq_true_eq, beq_iff_eq] at h
  rcases h with (((((h | h) | h) | h) | h) | h) | h
  · exact Or.inl h
  · exact Or.inr (Or.inl h)
  · exact Or.inr (Or.inr (Or.inl h))
  · subst h; decide
  · subst h; decide
  · subst h; decide
  · subst h; decide

theorem hexDigitUpper_ranges (n : Nat) :
    (48 ≤ (hexDigitUpper n).toNat ∧ (hexDigitUpper n).toNat ≤ 57) ∨
    (65 ≤ (hexDigitUpper n).toNat ∧ (hexDigitUpper n).toNat ≤ 70) := by
  unfold hexDigitUpper
  split_ifs with h1 h2
  · left
    rw [toNat_ofNat_lt _ (by omega)]
    omega
  · right
    rw [toNat_ofNat_lt _ (by omega)]
    omega
  · left; decide

theorem encChar_spec (c : Char) :
    ∀ x ∈ encChar c, 32 ≤ x.toNat ∧ x.toNat ≤ 126 ∧ x.toNat ≠ 35 ∧
      x.toNat ≠ 38 ∧ x.toNat ≠ 61 := by
  intro x hx
  unfold encChar at hx
  by_cases hs : isFormSafe c = true
  · rw [if_pos hs, List.mem_singleton] at hx
    subst hx
    rcases isFormSafe_ranges hs with h | h | h | h | h | h | h <;> omega
  · rw [if_neg hs] at hx
    by_cases hsp : (c == ' ') = true
    · rw [if_pos hsp, List.mem_singleton] at hx
      subst hx
      decide
    · rw [if_neg hsp] at hx
      rcases List.mem_cons.mp hx with h1 | h1
      · subst h1; decide
      · rcases List.mem_cons.mp h1 with h2 | h2
        · subst h2
          rcases hexDigitUpper_ranges (c.toNat / 16) with h | h <;> omega
        · rw [List.mem_singleton] at h2
          subst h2
          rcases hexDigitUpper_ranges (c.toNat % 16) with h | h <;> omega
-- Layer C2: formDecode step lemmas and roundtrip

theorem formDecode_nil : formDecodeChars [] = [] := by
  rw [formDecodeChars.eq_def]

theorem formDecode_cons_plain {c : Char} (t : List Char)
    (h1 : (c == '+') = false) (h2 : (c == '%') = false) :
    formDecodeChars (c :: t) = c :: formDecodeChars t := by
  rw [formDecodeChars.eq_def]
  dsimp only
  rw [if_neg (by rw [h1]; exact fun h => nomatch h),
    if_neg (by rw [h2]; exact fun h => nomatch h)]

theorem formDecode_cons_plus (t : List Char) :
    formDecodeChars ('+' :: t) = ' ' :: formDecodeChars t := by
  rw [formDecodeChars.eq_def]
  dsimp only
  rw [if_pos (by decide)]

theorem formDecode_cons_pct {a b : Char} {x y : Nat} (t : List Char)
    (hx : hexVal a = some x) (hy : hexVal b = some y) :
    formDecodeChars ('%' :: a :: b :: t) = Char.ofNat (16 * x + y) :: formDecodeChars t := by
  rw [formDecodeChars.eq_def]
  dsimp only
  rw [if_neg (by decide), if_pos (by decide)]
  simp [hx, hy]

theorem formDecode_encChar {c : Char} (hc : c.toNat < 256) (t : List Char) :
    formDecodeChars (encChar c ++ t) = c :: formDecodeChars t := by
  unfold encChar
  by_cases hs : isFormSafe c = true
  · rw [if_pos hs, List.singleton_append]
    refine formDecode_cons_plain t ?_ ?_
    · refine beq_false_of_toNat_ne ?_
      rcases isFormSafe_ranges hs with h | h | h | h | h | h | h <;>
        (show c.toNat ≠ 43; omega)
    · refine beq_false_of_toNat_ne ?_
      rcases isFormSafe_ranges hs with h | h | h | h | h | h | h <;>
        (show c.toNat ≠ 37; omega)
  · rw [if_neg hs]
    by_cases hsp : (c == ' ') = true
    · rw [if_pos hsp, List.singleton_append, formDecode_cons_plus]
      rw [show c = ' ' from by rwa [beq_iff_eq] at hsp]
    · rw [if_neg hsp, List.cons_append, List.cons_append, List.singleton_append]
      rw [formDecode_cons_pct t (hexVal_hexDigitUpper (by omega))
        (hexVal_hexDigitUpper (by omega : c.toNat % 16 < 16))]
      congr 1
      rw [show 16 * (c.toNat / 16) + c.toNat % 16 = c.toNat by omega]
      exact Char.ofNat_toNat c

theorem formDecode_formEncode {l : List Char} (h : ∀ c ∈ l, c.toNat < 256) :
    formDecodeChars (flatMapChars encChar l) = l := by
  induction l with
  | nil => exact formDecode_nil
  | cons a t ih =>
    rw [flatMapChars, formDecode_encChar (h a (by simp)),
      ih (fun c hc => h c (by simp [hc]))]
-- Layer C3: remaining decode step lemmas; decoded characters stay below 256

theorem hexVal_lt16 {a : Char} {x : Nat} (h : hexVal a = some x) : x < 16 := by
  unfold hexVal at h
  split_ifs at h with h1 h2 h3
  · simp only [asciiDigit, Bool.and_eq_true, decide_eq_true_eq] at h1
    rw [Option.some_inj] at h
    omega
  · simp only [Bool.and_eq_true, decide_eq_true_eq] at h2
    rw [Option.some_inj] at h
    omega
  · simp only [Bool.and_eq_true, decide_eq_true_eq] at h3
    rw [Option.some_inj] at h
    omega

theorem formDecode_cons_pct_bad {a b : Char} (t2 : List Char)
    (hnone : hexVal a = none ∨ hexVal b = none) :
    formDecodeChars ('%' :: a :: b :: t2) = '%' :: formDecodeChars (a :: b :: t2) := by
  rw [formDecodeChars.eq_def]
  dsimp only
  rw [if_neg (by decide), if_pos (by decide)]
  rcases ha : hexVal a with _ | x
  · rcases hb : hexVal b with _ | y <;> simp [ha, hb]
  · rcases hb : hexVal b with _ | y
    · simp [ha, hb]
    · exfalso
      rcases hnone with hn | hn
      · rw [hn] at ha; exact nomatch ha
      · rw [hn] at hb; exact nomatch hb

theorem formDecode_pct_nil : formDecodeChars ['%'] = ['%'] := by
  rw [formDecodeChars.eq_def]
  dsimp only
  rw [if_neg (by decide), if_pos (by decide)]
  simp [formDecode_nil]

theorem formDecode_pct_one (a : Char) :
    formDecodeChars ['%', a] = '%' :: formDecodeChars [a] := by
  rw [formDecodeChars.eq_def]
  dsimp only
  rw [if_neg (by decide), if_pos (by decide)]

theorem formDecode_lt256 : ∀ {l : List Char}, (∀ c ∈ l, c.toNat < 256) →
    ∀ c ∈ formDecodeChars l, c.toNat < 256 := by
  intro l
  induction l using formDecodeChars.induct with
  | case1 =>
    intro _ c hc
    rw [formDecode_nil] at hc
    exact absurd hc (List.not_mem_nil c)
  | case2 head t hp ih =>
    intro h c hc
    rw [show head = '+' from by rwa [beq_iff_eq] at hp, formDecode_cons_plus] at hc
    rcases List.mem_cons.mp hc with h1 | h1
    · subst h1; decide
    · exact ih (fun d hd => h d (by simp [hd])) c h1
  | case3 head hp hpct a b t2 x y hy hx ih =>
    intro h c hc
    rw [show head = '%' from by rwa [beq_iff_eq] at hpct,
      formDecode_cons_pct t2 hx hy] at hc
    rcases List.mem_cons.mp hc with h1 | h1
    · subst h1
      rw [toNat_ofNat_lt _ (by have := hexVal_lt16 hx; have := hexVal_lt16 hy; omega)]
      have := hexVal_lt16 hx
      have := hexVal_lt16 hy
      omega
    · exact ih (fun d hd => h d (by simp [hd])) c h1
  | case4 head hp hpct a b t2 hnone ih =>
    intro h c hc
    have hb : hexVal a = none ∨ hexVal b = none := by
      rcases ha2 : hexVal a with _ | x
      · exact Or.inl rfl
      · rcases hb2 : hexVal b with _ | y
        · exact Or.inr rfl
        · exact absurd (hnone x y ha2 hb2) (fun f => f)
    rw [show head = '%' from by rwa [beq_iff_eq] at hpct,
      formDecode_cons_pct_bad t2 hb] at hc
    rcases List.mem_cons.mp hc with h1 | h1
    · subst h1; decide
    · exact ih (fun d hd => h d (by simp [hd])) c h1
  | case5 head hp hpct u hshort ih =>
    intro h c hc
    have hu : u = [] ∨ ∃ a, u = [a] := by
      rcases u with _ | ⟨a, _ | ⟨b, t2⟩⟩
      · exact Or.inl rfl
      · exact Or.inr ⟨a, rfl⟩
      · exact absurd (hshort a b t2 rfl) (fun f => f)
    have hh : head = '%' := by rwa [beq_iff_eq] at hpct
    subst hh
    rcases hu with hu | ⟨a, hu⟩ <;> subst hu
    · rw [formDecode_pct_nil] at hc
      rw [List.mem_singleton] at hc
      subst hc
      decide
    · rw [formDecode_pct_one a] at hc
      rcases List.mem_cons.mp hc with h1 | h1
      · subst h1; decide
      · refine ih (fun d hd => h d ?_) c h1
        rw [List.mem_singleton] at hd
        subst hd
        simp
  | case6 hd0 t hp hpct ih =>
    intro h c hc
    rw [formDecode_cons_plain t (Bool.eq_false_iff.mpr hp)
      (Bool.eq_false_iff.mpr hpct)] at hc
    rcases List.mem_cons.mp hc with h1 | h1
    · rw [h1]
      exact h hd0 (by simp)
    · exact ih (fun d hd => h d (by simp [hd])) c h1
-- Layer D: URLSearchParams serialize/parse roundtrip

theorem mem_flatMapChars {f : Char → List Char} {l : List Char} {a : Char}
    (h : a ∈ flatMapChars f l) : ∃ c ∈ l, a ∈ f c := by
  induction l with
  | nil => exact absurd h (List.not_mem_nil a)
  | cons b t ih =>
    rw [flatMapChars] at h
    rcases List.mem_append.mp h with h1 | h1
    · exact ⟨b, by simp, h1⟩
    · obtain ⟨c, hc, hfc⟩ := ih h1
      exact ⟨c, by simp [hc], hfc⟩

theorem formEncode_no_amp {s : String} {a : Char} (h : a ∈ formEncode s) :
    (a == '&') = false := by
  obtain ⟨c, _, hfc⟩ := mem_flatMapChars h
  exact beq_false_of_toNat_ne (show a.toNat ≠ '&'.toNat from (encChar_spec c a hfc).2.2.2.1)

theorem formEncode_no_eq {s : String} {a : Char} (h : a ∈ formEncode s) :
    (a == '=') = false := by
  obtain ⟨c, _, hfc⟩ := mem_flatMapChars h
  exact beq_false_of_toNat_ne (show a.toNat ≠ '='.toNat from (encChar_spec c a hfc).2.2.2.2)

theorem piece_no_amp (p : String × String) :
    ∀ a ∈ formEncode p.1 ++ '=' :: formEncode p.2, (a == '&') = false := by
  intro a ha
  rcases List.mem_append.mp ha with h1 | h1
  · exact formEncode_no_amp h1
  · rcases List.mem_cons.mp h1 with h2 | h2
    · subst h2; decide
    · exact formEncode_no_amp h2

theorem splitAmp_joinAmp : ∀ (ls : List (List Char)), ls ≠ [] →
    (∀ l ∈ ls, ∀ a ∈ l, (a == '&') = false) →
    splitOnChar '&' (joinAmp ls) = ls := by
  intro ls
  induction ls with
  | nil => exact fun h _ => absurd rfl h
  | cons x t ih =>
    intro _ h
    rcases t with _ | ⟨y, t2⟩
    · exact splitOnChar_sepFree (h x (by simp))
    · rw [joinAmp_two, splitOnChar_append_sep _ (h x (by simp))]
      rw [ih (by simp) (fun l hl a ha => h l (by simp [hl]) a ha)]

theorem append_eq_cons_isEmpty (A B : List Char) (c : Char) :
    (A ++ c :: B).isEmpty = false := by
  cases A <;> rfl

theorem formDecode_formEncode' {s : String} (h : ∀ c ∈ s.data, c.toNat < 256) :
    formDecodeChars (formEncode s) = s.data :=
  formDecode_formEncode h

theorem parse_piece (p : String × String)
    (h1 : ∀ c ∈ p.1.data, c.toNat < 256) (h2 : ∀ c ∈ p.2.data, c.toNat < 256) :
    (fun piece =>
      if piece.isEmpty then none
      else
        let name := piece.takeWhile (fun c => c != '=')
        let value := match piece.dropWhile (fun c => c != '=') with
          | _ :: v => v
          | [] => []
        some (String.mk (formDecodeChars name), String.mk (formDecodeChars value)))
      (formEncode p.1 ++ '=' :: formEncode p.2) = some p := by
  dsimp only
  rw [if_neg (by rw [append_eq_cons_isEmpty]; exact fun h => nomatch h)]
  have hall : ∀ a ∈ formEncode p.1, ((fun c => c != '=') a) = true := by
    intro a ha
    simp only [bne, Bool.not_eq_true']
    exact formEncode_no_eq ha
  rw [takeWhile_append_all hall, dropWhile_append_all hall]
  have : List.takeWhile (fun c => c != '=') ('=' :: formEncode p.2) = [] := by
    rw [List.takeWhile_cons]
    simp
  rw [this, List.append_nil]
  have : List.dropWhile (fun c => c != '=') ('=' :: formEncode p.2) = '=' :: formEncode p.2 := by
    rw [List.dropWhile_cons]
    simp
  rw [this]
  dsimp only
  rw [formDecode_formEncode' h1, formDecode_formEncode' h2]

theorem parseSearchParams_mk_q (d : List Char) :
    parseSearchParams (String.mk ('?' :: d)) =
      (splitOnChar '&' d).filterMap (fun piece =>
        if piece.isEmpty then none
        else
          let name := piece.takeWhile (fun c => c != '=')
          let value := match piece.dropWhile (fun c => c != '=') with
            | _ :: v => v
            | [] => []
          some (String.mk (formDecodeChars name), String.mk (formDecodeChars value))) := rfl

theorem parseSearchParams_serialize (L : List (String × String)) (hne : L ≠ [])
    (hc : ∀ p ∈ L, (∀ c ∈ p.1.data, c.toNat < 256) ∧ (∀ c ∈ p.2.data, c.toNat < 256)) :
    parseSearchParams (String.mk ('?' :: (serializeParams L).data)) = L := by
  rw [parseSearchParams_mk_q]
  rw [show (serializeParams L).data = joinAmp (L.map fun p => formEncode p.1 ++ '=' :: formEncode p.2) from rfl]
  rw [splitAmp_joinAmp _ (by simpa using hne)
    (by
      intro l hl a ha
      obtain ⟨p, _, hpl⟩ := List.mem_map.mp hl
      exact piece_no_amp p a (hpl ▸ ha))]
  rw [List.filterMap_map]
  have : ∀ p ∈ L, (fun piece =>
      if piece.isEmpty then none
      else
        let name := piece.takeWhile (fun c => c != '=')
        let value := match piece.dropWhile (fun c => c != '=') with
          | _ :: v => v
          | [] => []
        some (String.mk (formDecodeChars name), String.mk (formDecodeChars value)))
      (formEncode p.1 ++ '=' :: formEncode p.2) = some p := by
    intro p hp
    exact parse_piece p (hc p hp).1 (hc p hp).2
  calc L.filterMap _ = L.filterMap some := List.filterMap_congr (by
        intro p hp
        exact this p hp)
    _ = L := List.filterMap_some L
-- Layer E: sorting facts and association-list facts

theorem buildParams_nil (params : List (String × String)) (acc : List (String × String)) :
    buildParams params [] acc = acc := rfl

theorem buildParams_cons (params : List (String × String)) (n : String)
    (rest : List String) (acc : List (String × String)) :
    buildParams params (n :: rest) acc =
      buildParams params rest
        (match getParam params n with
          | some v => setParam acc n v
          | none => acc) := rfl

theorem normParams_eq_build (search : String) :
    normParams search =
      buildParams (parseSearchParams search)
        (sortStrs (((parseSearchParams search).map Prod.fst).filter
          (fun name => !isTrackingParam name))) [] := rfl

theorem listLe_nil (b : List Char) : listLe [] b = true := by
  rw [listLe]

theorem listLe_total : ∀ (a b : List Char), listLe a b = true ∨ listLe b a = true := by
  intro a
  induction a with
  | nil => exact fun b => Or.inl (listLe_nil b)
  | cons x xs ih =>
    intro b
    rcases b with _ | ⟨y, ys⟩
    · exact Or.inr (listLe_nil _)
    · by_cases h1 : x.toNat < y.toNat
      · left
        rw [listLe, if_pos h1]
      · by_cases h2 : y.toNat < x.toNat
        · right
          rw [listLe, if_pos h2]
        · rcases ih ys with h | h
          · left
            rw [listLe, if_neg h1, if_neg h2]
            exact h
          · right
            rw [listLe, if_neg h2, if_neg h1]
            exact h

theorem listLe_trans : ∀ {a b c : List Char},
    listLe a b = true → listLe b c = true → listLe a c = true := by
  intro a
  induction a with
  | nil => exact fun _ _ => listLe_nil _
  | cons x xs ih =>
    intro b c hab hbc
    rcases b with _ | ⟨y, ys⟩
    · rw [listLe] at hab
      exact nomatch hab
    · rcases c with _ | ⟨z, zs⟩
      · rw [listLe] at hbc
        exact nomatch hbc
      · rw [listLe] at hab hbc ⊢
        by_cases h1 : x.toNat < y.toNat
        · by_cases h2 : y.toNat < z.toNat
          · rw [if_pos (by omega)]
          · rw [if_neg h2] at hbc
            by_cases h3 : z.toNat < y.toNat
            · rw [if_pos h3] at hbc
              exact nomatch hbc
            · rw [if_pos (by omega)]
        · rw [if_neg h1] at hab
          by_cases h3 : y.toNat < x.toNat
          · rw [if_pos h3] at hab
            exact nomatch hab
          · rw [if_neg h3] at hab
            by_cases h2 : y.toNat < z.toNat
            · rw [if_pos (by omega)]
            · rw [if_neg h2] at hbc
              by_cases h4 : z.toNat < y.toNat
              · rw [if_pos h4] at hbc
                exact nomatch hbc
              · rw [if_neg h4] at hbc
                rw [if_neg (by omega), if_neg (by omega)]
                exact ih hab hbc

theorem strLe_total (a b : String) : strLe a b = true ∨ strLe b a = true :=
  listLe_total a.data b.data

theorem strLe_trans {a b c : String} (h1 : strLe a b = true) (h2 : strLe b c = true) :
    strLe a c = true :=
  listLe_trans h1 h2

theorem insertSorted_all {x : String} : ∀ {l : List String},
    (∀ y ∈ l, strLe y x = true) → insertSorted x l = l ++ [x] := by
  intro l
  induction l with
  | nil => intro _; rfl
  | cons y t ih =>
    intro h
    rw [insertSorted, if_pos (h y (by simp)), ih (fun z hz => h z (by simp [hz]))]
    rfl

theorem mem_insertSorted {x z : String} : ∀ {l : List String},
    z ∈ insertSorted x l ↔ z = x ∨ z ∈ l := by
  intro l
  induction l with
  | nil =>
    rw [insertSorted]
    simp
  | cons y t ih =>
    rw [insertSorted]
    by_cases h : strLe y x = true
    · rw [if_pos h]
      simp only [List.mem_cons, ih]
      tauto
    · rw [if_neg h]
      simp only [List.mem_cons]

theorem insertSorted_pairwise {x : String} : ∀ {l : List String},
    l.Pairwise (fun a b => strLe a b = true) →
    (insertSorted x l).Pairwise (fun a b => strLe a b = true) := by
  intro l
  induction l with
  | nil =>
    intro _
    rw [insertSorted]
    simp
  | cons y t ih =>
    intro hp
    obtain ⟨hy, ht⟩ := List.pairwise_cons.mp hp
    by_cases h : strLe y x = true
    · rw [insertSorted, if_pos h]
      refine List.pairwise_cons.mpr ⟨?_, ih ht⟩
      intro z hz
      rcases mem_insertSorted.mp hz with h1 | h1
      · rw [h1]
        exact h
      · exact hy z h1
    · rw [insertSorted, if_neg h]
      have hxy : strLe x y = true := (strLe_total x y).resolve_right (fun hc => h hc)
      refine List.pairwise_cons.mpr ⟨?_, hp⟩
      intro z hz
      rcases List.mem_cons.mp hz with h1 | h1
      · rw [h1]
        exact hxy
      · exact strLe_trans hxy (hy z h1)

theorem foldl_insertSorted_pairwise : ∀ (l : List String) (acc : List String),
    acc.Pairwise (fun a b => strLe a b = true) →
    (l.foldl (fun acc x => insertSorted x acc) acc).Pairwise
      (fun a b => strLe a b = true) := by
  intro l
  induction l with
  | nil => exact fun acc h => h
  | cons x t ih =>
    intro acc h
    exact ih (insertSorted x acc) (insertSorted_pairwise h)

theorem sortStrs_pairwise (l : List String) :
    (sortStrs l).Pairwise (fun a b => strLe a b = true) :=
  foldl_insertSorted_pairwise l [] (by simp)

theorem mem_foldl_insertSorted : ∀ (l : List String) (acc : List String) (z : String),
    z ∈ l.foldl (fun acc x => insertSorted x acc) acc ↔ z ∈ acc ∨ z ∈ l := by
  intro l
  induction l with
  | nil => simp
  | cons x t ih =>
    intro acc z
    rw [List.foldl_cons, ih (insertSorted x acc) z, mem_insertSorted]
    simp only [List.mem_cons]
    tauto

theorem mem_sortStrs (l : List String) (z : String) : z ∈ sortStrs l ↔ z ∈ l := by
  rw [sortStrs, mem_foldl_insertSorted]
  simp

theorem foldl_insertSorted_sorted : ∀ (l : List String) (acc : List String),
    (acc ++ l).Pairwise (fun a b => strLe a b = true) →
    l.foldl (fun acc x => insertSorted x acc) acc = acc ++ l := by
  intro l
  induction l with
  | nil => intro acc _; simp
  | cons x t ih =>
    intro acc h
    rw [List.foldl_cons, insertSorted_all (fun y hy =>
      (List.pairwise_append.mp h).2.2 y hy x (by simp))]
    have h2 : ((acc ++ [x]) ++ t).Pairwise (fun a b => strLe a b = true) := by
      rw [List.append_assoc, List.singleton_append]
      exact h
    rw [ih (acc ++ [x]) h2, List.append_assoc, List.singleton_append]

theorem sortStrs_fix {l : List String}
    (h : l.Pairwise (fun a b => strLe a b = true)) : sortStrs l = l := by
  rw [sortStrs, foldl_insertSorted_sorted l [] (by simpa using h)]
  simp
-- Layer F: getParam/setParam facts and the parameter rebuild

theorem getParam_mem {params : List (String × String)} {n : String} :
    n ∈ params.map Prod.fst → ∃ v, getParam params n = some v ∧ (n, v) ∈ params := by
  induction params with
  | nil => intro h; exact absurd h (List.not_mem_nil n)
  | cons q t ih =>
    intro h
    by_cases hq : (q.1 == n) = true
    · refine ⟨q.2, ?_, ?_⟩
      · rw [getParam, @List.find?_cons_of_pos _ (fun p => p.1 == n) q t hq]
        rfl
      · have heq : q = (n, q.2) := by
          obtain ⟨q1, q2⟩ := q
          have h2 := beq_iff_eq.mp hq
          simp only at h2
          rw [h2]
        rw [← heq]
        exact List.mem_cons_self q t
    · rw [List.map_cons, List.mem_cons] at h
      rcases h with h | h
      · exact absurd (beq_iff_eq.mpr h.symm) hq
      · obtain ⟨v, hv, hmem⟩ := ih h
        refine ⟨v, ?_, List.mem_cons_of_mem q hmem⟩
        rw [getParam, @List.find?_cons_of_neg _ (fun p => p.1 == n) q t hq]
        exact hv

theorem getParam_some_mem {params : List (String × String)} {n v : String}
    (h : getParam params n = some v) : (n, v) ∈ params := by
  unfold getParam at h
  obtain ⟨q, hq, hqv⟩ := Option.map_eq_some'.mp h
  have hbeq := List.find?_some hq
  have hmem := List.mem_of_find?_eq_some hq
  have h1 : q.1 = n := beq_iff_eq.mp hbeq
  have heq : q = (n, v) := by
    obtain ⟨q1, q2⟩ := q
    simp only at h1 hqv
    rw [h1, hqv]
  exact heq ▸ hmem

theorem getParam_append_fresh {A : List (String × String)} {p : String × String}
    (t : List (String × String)) (h : ∀ q ∈ A, q.1 ≠ p.1) :
    getParam (A ++ p :: t) p.1 = some p.2 := by
  induction A with
  | nil =>
    rw [List.nil_append, getParam,
      @List.find?_cons_of_pos _ (fun q => q.1 == p.1) p t (beq_iff_eq.mpr rfl)]
    rfl
  | cons q A' ih =>
    rw [List.cons_append, getParam,
      @List.find?_cons_of_neg _ (fun r => r.1 == p.1) q (A' ++ p :: t) (by
        simp only [beq_iff_eq]
        exact h q (by simp))]
    exact ih (fun r hr => h r (by simp [hr]))

theorem setParam_fresh {n v : String} : ∀ {L : List (String × String)},
    (∀ p ∈ L, p.1 ≠ n) → setParam L n v = L ++ [(n, v)] := by
  intro L
  induction L with
  | nil => intro _; rfl
  | cons q t ih =>
    intro h
    obtain ⟨a, b⟩ := q
    rw [setParam, if_neg (by
      simp only [beq_iff_eq]
      exact h (a, b) (by simp))]
    rw [ih (fun p hp => h p (by simp [hp]))]
    rfl

theorem setParam_keys {n v : String} : ∀ {L : List (String × String)},
    (L.map Prod.fst).Nodup → n ∈ L.map Prod.fst →
    (setParam L n v).map Prod.fst = L.map Prod.fst ∧
      (∀ p ∈ setParam L n v, p = (n, v) ∨ (p ∈ L ∧ p.1 ≠ n)) := by
  intro L
  induction L with
  | nil => intro _ h; exact absurd h (List.not_mem_nil n)
  | cons q t ih =>
    intro hnd hm
    obtain ⟨a, b⟩ := q
    rw [List.map_cons, List.nodup_cons] at hnd
    by_cases hab : (a == n) = true
    · have han : a = n := beq_iff_eq.mp hab
      rw [setParam, if_pos hab]
      have hfil : t.filter (fun p => p.1 != n) = t := by
        refine List.filter_eq_self.mpr ?_
        intro p hp
        show (p.1 != n) = true
        refine bne_iff_ne.mpr ?_
        intro he
        apply hnd.1
        show a ∈ List.map Prod.fst t
        rw [han, ← he]
        exact List.mem_map_of_mem Prod.fst hp
      rw [hfil]
      constructor
      · rw [List.map_cons, List.map_cons]
      · intro p hp
        rcases List.mem_cons.mp hp with h1 | h1
        · exact Or.inl (by rw [h1, han])
        · refine Or.inr ⟨List.mem_cons_of_mem _ h1, ?_⟩
          intro he
          apply hnd.1
          show a ∈ List.map Prod.fst t
          rw [han, ← he]
          exact List.mem_map_of_mem Prod.fst h1
    · have hm2 : n ∈ t.map Prod.fst := by
        rcases List.mem_cons.mp hm with h1 | h1
        · exact absurd (beq_iff_eq.mpr h1.symm) hab
        · exact h1
      obtain ⟨hkeys, hentries⟩ := ih hnd.2 hm2
      rw [setParam, if_neg hab]
      constructor
      · rw [List.map_cons, List.map_cons, hkeys]
      · intro p hp
        rcases List.mem_cons.mp hp with h1 | h1
        · refine Or.inr ⟨h1 ▸ List.mem_cons_self _ _, ?_⟩
          rw [h1]
          exact fun he => hab (beq_iff_eq.mpr he)
        · rcases hentries p h1 with h2 | h2
          · exact Or.inl h2
          · exact Or.inr ⟨List.mem_cons_of_mem _ h2.1, h2.2⟩
-- Layer F2: invariants of the parameter rebuild

theorem buildParams_inv (params : List (String × String)) :
    ∀ (names : List String) (acc : List (String × String)),
    (∀ n ∈ names, n ∈ params.map Prod.fst) →
    (∀ n ∈ names, isTrackingParam n = false) →
    names.Pairwise (fun a b => strLe a b = true) →
    (acc.map Prod.fst).Nodup →
    (acc.map Prod.fst).Pairwise (fun a b => strLe a b = true) →
    (∀ p ∈ acc, p ∈ params ∧ isTrackingParam p.1 = false) →
    (∀ y ∈ acc.map Prod.fst, ∀ x ∈ names, strLe y x = true) →
    ((buildParams params names acc).map Prod.fst).Nodup ∧
      ((buildParams params names acc).map Prod.fst).Pairwise
        (fun a b => strLe a b = true) ∧
      (∀ p ∈ buildParams params names acc,
        p ∈ params ∧ isTrackingParam p.1 = false) := by
  intro names
  induction names with
  | nil =>
    intro acc _ _ _ h4 h5 h6 _
    exact ⟨h4, h5, h6⟩
  | cons n rest ih =>
    intro acc h1 h2 h3 h4 h5 h6 h7
    obtain ⟨v, hv, hmemv⟩ := getParam_mem (h1 n (by simp))
    rw [buildParams_cons]
    simp only [hv]
    have h3p := List.pairwise_cons.mp h3
    by_cases hmem : n ∈ acc.map Prod.fst
    · obtain ⟨hkeys, hentries⟩ := setParam_keys h4 hmem
      refine ih (setParam acc n v) (fun m hm => h1 m (by simp [hm]))
        (fun m hm => h2 m (by simp [hm])) h3p.2 (hkeys ▸ h4) (hkeys ▸ h5) ?_ ?_
      · intro p hp
        rcases hentries p hp with he | he
        · rw [he]
          exact ⟨hmemv, h2 n (by simp)⟩
        · exact h6 p he.1
      · intro y hy x hx
        rw [hkeys] at hy
        exact h7 y hy x (by simp [hx])
    · have hfresh : ∀ p ∈ acc, p.1 ≠ n := by
        intro p hp he
        exact hmem (he ▸ List.mem_map_of_mem Prod.fst hp)
      rw [setParam_fresh hfresh]
      refine ih (acc ++ [(n, v)]) (fun m hm => h1 m (by simp [hm]))
        (fun m hm => h2 m (by simp [hm])) h3p.2 ?_ ?_ ?_ ?_
      · rw [List.map_append]
        refine List.Nodup.append h4 (by simp) ?_
        intro y hy hz
        rw [List.map_singleton, List.mem_singleton] at hz
        have hz2 : y = n := hz
        exact hmem (hz2 ▸ hy)
      · rw [List.map_append, List.map_singleton]
        refine List.pairwise_append.mpr ⟨h5, by simp, ?_⟩
        intro y hy z hz
        rw [List.mem_singleton] at hz
        rw [hz]
        exact h7 y hy n (by simp)
      · intro p hp
        rcases List.mem_append.mp hp with he | he
        · exact h6 p he
        · rw [List.mem_singleton] at he
          rw [he]
          exact ⟨hmemv, h2 n (by simp)⟩
      · intro y hy x hx
        rw [List.map_append, List.map_singleton] at hy
        rcases List.mem_append.mp hy with he | he
        · exact h7 y he x (by simp [hx])
        · rw [List.mem_singleton] at he
          subst he
          exact h3p.1 x hx

theorem buildParams_self : ∀ (L : List (String × String)) (A : List (String × String)),
    ((A ++ L).map Prod.fst).Nodup →
    buildParams (A ++ L) (L.map Prod.fst) A = A ++ L := by
  intro L
  induction L with
  | nil =>
    intro A _
    rw [List.map_nil, buildParams_nil, List.append_nil]
  | cons p t ih =>
    intro A hnd
    have hfreshA : ∀ q ∈ A, q.1 ≠ p.1 := by
      intro q hq he
      rw [List.map_append, List.map_cons] at hnd
      have h2 := (List.nodup_append.mp hnd).2.2
      exact h2 (List.mem_map_of_mem Prod.fst hq) (by rw [he]; simp)
    rw [List.map_cons, buildParams_cons, getParam_append_fresh t hfreshA]
    simp only
    rw [setParam_fresh hfreshA]
    have heq : A ++ [(p.1, p.2)] = A ++ [p] := by
      rw [List.append_cancel_left_eq]
    rw [heq]
    have hre : (A ++ [p]) ++ t = A ++ p :: t := by
      rw [List.append_assoc, List.singleton_append]
    have h3 := ih (A ++ [p]) (by rw [hre]; exact hnd)
    rw [hre] at h3
    exact h3
-- Layer G: the normalized parameter list and its query string

theorem match_q_subset (l : List Char) :
    ∀ c ∈ (match l with | '?' :: t => t | l' => l'), c ∈ l := by
  split
  · intro c hc
    exact List.mem_cons_of_mem _ hc
  · intro c hc
    exact hc

theorem parseSearchParams_chars {search : String}
    (h : ∀ c ∈ search.data, c.toNat < 256) :
    ∀ p ∈ parseSearchParams search,
      (∀ c ∈ p.1.data, c.toNat < 256) ∧ (∀ c ∈ p.2.data, c.toNat < 256) := by
  intro p hp
  unfold parseSearchParams at hp
  obtain ⟨piece, hpiece, hf⟩ := List.mem_filterMap.mp hp
  have hsub : ∀ c ∈ piece, c.toNat < 256 := by
    intro c hc
    exact h c (match_q_subset _ c (mem_splitOnChar piece hpiece c hc))
  by_cases he : piece.isEmpty = true
  · rw [if_pos he] at hf
    exact nomatch hf
  · rw [if_neg he] at hf
    dsimp only at hf
    rw [Option.some_inj] at hf
    subst hf
    constructor
    · intro c hc
      simp only [String.data] at hc
      refine formDecode_lt256 ?_ c hc
      intro d hd
      exact hsub d ((List.takeWhile_sublist _).mem hd)
    · intro c hc
      simp only [String.data] at hc
      refine formDecode_lt256 ?_ c hc
      intro d hd
      rcases hdw : piece.dropWhile (fun c => c != '=') with _ | ⟨e, v⟩
      · rw [hdw] at hd
        exact absurd hd (List.not_mem_nil d)
      · rw [hdw] at hd
        have : d ∈ piece.dropWhile (fun c => c != '=') := by
          rw [hdw]
          exact List.mem_cons_of_mem e hd
        exact hsub d ((List.dropWhile_sublist _).mem this)

theorem normParams_spec (search : String) :
    ((normParams search).map Prod.fst).Nodup ∧
      ((normParams search).map Prod.fst).Pairwise (fun a b => strLe a b = true) ∧
      (∀ p ∈ normParams search,
        p ∈ parseSearchParams search ∧ isTrackingParam p.1 = false) := by
  rw [normParams_eq_build]
  refine buildParams_inv (parseSearchParams search) _ [] ?_ ?_ ?_ (by simp) (by simp)
    (by simp) (by simp)
  · intro n hn
    have h1 := (mem_sortStrs _ n).mp hn
    exact List.mem_of_mem_filter h1
  · intro n hn
    have h1 := (mem_sortStrs _ n).mp hn
    have h2 := List.of_mem_filter h1
    simpa using h2
  · exact sortStrs_pairwise _

theorem serializeParams_nil : serializeParams [] = "" := rfl

theorem serializeParams_ne_nil (p : String × String) (t : List (String × String)) :
    (serializeParams (p :: t)).data ≠ [] := by
  unfold serializeParams
  rcases t with _ | ⟨q, t2⟩
  · show joinAmp [formEncode p.1 ++ '=' :: formEncode p.2] ≠ []
    rw [joinAmp]
    rcases hfe : formEncode p.1 with _ | ⟨c, cs⟩
    · simp
    · simp
  · show joinAmp ((formEncode p.1 ++ '=' :: formEncode p.2) :: _ :: _) ≠ []
    rw [joinAmp_two]
    rcases hfe : formEncode p.1 with _ | ⟨c, cs⟩
    · simp
    · simp

theorem normParams_requery (search : String)
    (hcs : ∀ c ∈ search.data, c.toNat < 256) (hne : normParams search ≠ []) :
    parseSearchParams (String.mk ('?' :: (normQuery search).data)) =
      normParams search := by
  refine parseSearchParams_serialize (normParams search) hne ?_
  intro p hp
  exact parseSearchParams_chars hcs p ((normParams_spec search).2.2 p hp).1

theorem normParams_self (search : String)
    (hcs : ∀ c ∈ search.data, c.toNat < 256) (hne : normParams search ≠ []) :
    normParams (String.mk ('?' :: (normQuery search).data)) = normParams search := by
  obtain ⟨hnd, hsorted, hmem⟩ := normParams_spec search
  rw [normParams_eq_build, normParams_requery search hcs hne]
  have hfil : ((normParams search).map Prod.fst).filter
      (fun name => !isTrackingParam name) = (normParams search).map Prod.fst := by
    refine List.filter_eq_self.mpr ?_
    intro n hn
    obtain ⟨p, hp, hpe⟩ := List.mem_map.mp hn
    have := (hmem p hp).2
    rw [← hpe]
    simp [this]
  rw [hfil, sortStrs_fix hsorted]
  exact buildParams_self (normParams search) [] (by simpa using hnd)

theorem normParams_empty : normParams "" = [] := rfl

theorem normQuery_empty : normQuery "" = "" := rfl
-- Layer H: lower-casing preserves the parser character classes

theorem char_eq_iff_toNat {a b : Char} : a = b ↔ a.toNat = b.toNat :=
  ⟨congrArg _, toNat_inj_char⟩

theorem asciiLower_alpha {c : Char} (h : asciiAlpha c = true) :
    asciiAlpha (asciiLower c) = true := by
  simp only [asciiAlpha, asciiUpperAlpha, asciiLowerAlpha, Bool.or_eq_true,
    Bool.and_eq_true, decide_eq_true_eq] at h ⊢
  rw [asciiLower_toNat]
  split_ifs with hu
  · omega
  · omega

theorem isSchemeChar_lower {c : Char} (h : isSchemeChar c = true) :
    isSchemeChar (asciiLower c) = true := by
  have h43 : ('+' : Char).toNat = 43 := rfl
  have h45 : ('-' : Char).toNat = 45 := rfl
  have h46 : ('.' : Char).toNat = 46 := rfl
  simp only [isSchemeChar, asciiAlpha, asciiUpperAlpha, asciiLowerAlpha, asciiDigit,
    Bool.or_eq_true, Bool.and_eq_true, decide_eq_true_eq, beq_iff_eq,
    char_eq_iff_toNat, h43, h45, h46] at h ⊢
  rw [asciiLower_toNat]
  split_ifs with hu
  · omega
  · omega

theorem isHostChar_lower {c : Char} (h : isHostChar c = true) :
    isHostChar (asciiLower c) = true := by
  have h46 : ('.' : Char).toNat = 46 := rfl
  have h45 : ('-' : Char).toNat = 45 := rfl
  have h95 : ('_' : Char).toNat = 95 := rfl
  simp only [isHostChar, asciiAlpha, asciiUpperAlpha, asciiLowerAlpha, asciiDigit,
    Bool.or_eq_true, Bool.and_eq_true, decide_eq_true_eq, beq_iff_eq,
    char_eq_iff_toNat, h46, h45, h95] at h ⊢
  rw [asciiLower_toNat]
  split_ifs with hu
  · omega
  · omega

theorem asciiLower_lower_fix (c : Char) : asciiLower (asciiLower c) = asciiLower c :=
  asciiLower_idem c

theorem mem_map_lower_fix {l : List Char} {c : Char} (h : c ∈ l.map asciiLower) :
    asciiLower c = c := by
  obtain ⟨d, _, hd⟩ := List.mem_map.mp h
  rw [← hd]
  exact asciiLower_idem d
-- Layer H2: component characterizations of the URL parser

theorem parsePort_ok {scheme : String} {portPart : List Char} {portStr : String}
    (h : parsePort scheme portPart = some portStr) :
    portStr = "" ∨
      (portStr.data ≠ [] ∧ (∀ c ∈ portStr.data, asciiDigit c = true) ∧
        ¬(2 ≤ portStr.data.length ∧ portStr.data.headD '0' = '0') ∧
        digitsToNat portStr.data < 65536 ∧
        ¬(scheme = "http" ∧ portStr.data = ['8', '0']) ∧
        ¬(scheme = "https" ∧ portStr.data = ['4', '4', '3'])) := by
  unfold parsePort at h
  split at h
  · rw [Option.some_inj] at h
    exact Or.inl h.symm
  · rename_i ds
    split_ifs at h with h1 h2 h3 h4 h5 <;>
      first
      | exact Option.noConfusion h
      | (rw [Option.some_inj] at h; exact Or.inl h.symm)
      | skip
    rw [Option.some_inj] at h
    subst h
    refine Or.inr ⟨?_, ?_, ?_, ?_, ?_, ?_⟩
    · show ds ≠ []
      intro he
      rw [he] at h1
      exact h1 rfl
    · show ∀ c ∈ ds, asciiDigit c = true
      intro c hc
      cases hall : ds.all asciiDigit with
      | false => exact absurd (by rw [hall]; rfl) h2
      | true => exact List.all_eq_true.mp hall c hc
    · show ¬(2 ≤ ds.length ∧ ds.headD '0' = '0')
      intro ⟨hl, hh⟩
      exact h3 (by rw [hh]; simp [hl])
    · show digitsToNat ds < 65536
      by_contra hge
      refine h4 ?_
      simp only [decide_eq_true_eq]
      omega
    · intro ⟨hs, hd⟩
      exact h5 (by simp [hs, show ds = ['8', '0'] from hd])
    · intro ⟨hs, hd⟩
      exact h5 (by simp [hs, show ds = ['4', '4', '3'] from hd])
  · exact Option.noConfusion h
-- Layer H3: path and query characterizations

theorem parsePath_ok {r2 path r3 : List Char}
    (h : parsePath r2 = some (path, r3)) :
    (∃ t, path = '/' :: t) ∧ (∀ c ∈ path, isPathChar c = true) ∧
      (∀ seg ∈ splitOnChar '/' path, segOk seg = true) := by
  unfold parsePath at h
  split at h
  · rename_i tl
    dsimp only at h
    split_ifs at h with h1 h2
    rw [Option.some_inj, Prod.mk.injEq] at h
    obtain ⟨hp, _⟩ := h
    rw [hp] at h1 h2
    refine ⟨?_, ?_, ?_⟩
    · rw [← hp, List.takeWhile_cons, if_pos (by decide)]
      exact ⟨_, rfl⟩
    · intro c hc
      cases hall2 : path.all isPathChar with
      | false => exact absurd (by rw [hall2]; rfl) h1
      | true => exact List.all_eq_true.mp hall2 c hc
    · intro seg hs
      cases hall2 : (splitOnChar '/' path).all segOk with
      | false => exact absurd (by rw [hall2]; rfl) h2
      | true => exact List.all_eq_true.mp hall2 seg hs
  · rw [Option.some_inj, Prod.mk.injEq] at h
    obtain ⟨hp, _⟩ := h
    refine ⟨?_, ?_, ?_⟩
    · rw [← hp]
      exact ⟨[], rfl⟩
    · rw [← hp]
      intro c hc
      rw [List.mem_singleton] at hc
      subst hc
      decide
    · rw [← hp]
      intro seg hs
      have hsp : splitOnChar '/' ['/'] = [[], []] := by decide
      rw [hsp] at hs
      rcases List.mem_cons.mp hs with h1 | h1
      · subst h1; decide
      · rw [List.mem_singleton] at h1
        subst h1; decide

theorem parseQuery_ok {r3 q : List Char} (h : parseQuery r3 = some q) :
    q = [] ∨ (∀ c ∈ q, isQueryChar c = true) := by
  unfold parseQuery at h
  split at h
  · rename_i t
    dsimp only at h
    split_ifs at h with h1
    rw [Option.some_inj] at h
    refine Or.inr ?_
    intro c hc
    rw [← h] at hc
    exact List.all_eq_true.mp h1 c hc
  · rw [Option.some_inj] at h
    exact Or.inl h.symm
-- Layer H4: the parser output is well-formed

theorem strMk_append (A B : List Char) : String.mk A ++ String.mk B = String.mk (A ++ B) := rfl

theorem dropLast_append_single {α : Type} (A : List α) (x : α) : (A ++ [x]).dropLast = A := by
  simp

theorem parseURLChars_wf {l : List Char} {r : URLRec}
    (h : parseURLChars l = some r) : ParsedWF r := by
  unfold parseURLChars at h
  dsimp only at h
  split at h
  · exact Option.noConfusion h
  rename_i c0 sch' hsch
  split_ifs at h with ha
  split at h
  rotate_left
  · exact Option.noConfusion h
  rename_i r1 hrest
  split_ifs at h with hhe hhc
  split at h
  · exact Option.noConfusion h
  rename_i portStr hport
  split at h
  · exact Option.noConfusion h
  rename_i path r3 hpath
  split at h
  · exact Option.noConfusion h
  rename_i q hq
  rw [Option.some_inj] at h
  subst h
  have ha2 : asciiAlpha c0 = true := by simpa using ha
  have hhe2 : (List.takeWhile (fun c => c != ':')
      (List.takeWhile (fun c => !isAuthDelim c) r1)).isEmpty = false := by
    simpa using hhe
  have hhc2 : (List.takeWhile (fun c => c != ':')
      (List.takeWhile (fun c => !isAuthDelim c) r1)).all isHostChar = true := by
    simpa using hhc
  have hus : urlScheme
      { protocol := String.mk (List.map asciiLower (List.takeWhile isSchemeChar l)) ++ ":",
        hostname := String.mk (List.map asciiLower (List.takeWhile (fun c => c != ':')
          (List.takeWhile (fun c => !isAuthDelim c) r1))),
        port := portStr, pathname := String.mk path,
        search := if q.isEmpty then "" else String.mk ('?' :: q) } =
      List.map asciiLower (List.takeWhile isSchemeChar l) := by
    show (String.mk (List.map asciiLower (List.takeWhile isSchemeChar l)) ++ ":").data.dropLast
      = List.map asciiLower (List.takeWhile isSchemeChar l)
    rw [show (String.mk (List.map asciiLower (List.takeWhile isSchemeChar l)) ++ ":") =
      String.mk (List.map asciiLower (List.takeWhile isSchemeChar l) ++ [':']) from
        strMk_append _ [':']]
    exact dropLast_append_single _ _
  obtain ⟨⟨pt, hpt⟩, hpchars, hpsegs⟩ := parsePath_ok hpath
  refine ⟨?_, ?_, ?_, ?_, ?_, ?_, ?_, ?_, ?_, ?_, ?_, ?_, ?_⟩
  · rw [hus, hsch]
    simp
  · intro c hc
    rw [hus] at hc
    obtain ⟨d, hd, hdc⟩ := List.mem_map.mp hc
    rw [← hdc]
    exact isSchemeChar_lower (List.mem_takeWhile_imp hd)
  · intro c hc
    rw [hus] at hc
    exact mem_map_lower_fix hc
  · rw [hus, hsch, List.map_cons, List.headD_cons]
    exact asciiLower_alpha ha2
  · rw [hus]
    exact strMk_append _ [':']
  · show List.map asciiLower (List.takeWhile (fun c => c != ':')
        (List.takeWhile (fun c => !isAuthDelim c) r1)) ≠ []
    intro hmapnil
    rw [List.map_eq_nil] at hmapnil
    rw [hmapnil] at hhe2
    exact absurd hhe2 (by decide)
  · intro c hc
    obtain ⟨d, hd, hdc⟩ := List.mem_map.mp hc
    rw [← hdc]
    exact isHostChar_lower (List.all_eq_true.mp hhc2 d hd)
  · intro c hc
    exact mem_map_lower_fix hc
  · rw [hus]
    exact parsePort_ok hport
  · exact ⟨pt, hpt⟩
  · exact hpchars
  · exact hpsegs
  · rcases q with _ | ⟨q0, qt⟩
    · left
      rfl
    · right
      refine ⟨q0 :: qt, by simp, ?_, ?_⟩
      · show (if (q0 :: qt).isEmpty = true then "" else String.mk ('?' :: q0 :: qt)).data
          = '?' :: q0 :: qt
        rw [if_neg (by simp)]
      · rcases parseQuery_ok hq with hnil | hall
        · exact absurd hnil (by simp)
        · exact hall
-- Layer I: serialized query characters, splitOnChar on a trailing
-- separator, stripPath facts

theorem mem_joinAmp {c : Char} : ∀ {ls : List (List Char)},
    c ∈ joinAmp ls → (∃ l ∈ ls, c ∈ l) ∨ c = '&' := by
  intro ls
  induction ls with
  | nil => intro h; exact absurd h (List.not_mem_nil c)
  | cons x t ih =>
    intro h
    rcases t with _ | ⟨y, t2⟩
    · exact Or.inl ⟨x, by simp, h⟩
    · rw [joinAmp_two] at h
      rcases List.mem_append.mp h with h1 | h1
      · exact Or.inl ⟨x, by simp, h1⟩
      · rcases List.mem_cons.mp h1 with h2 | h2
        · exact Or.inr h2
        · rcases ih h2 with ⟨l, hl, hcl⟩ | h3
          · exact Or.inl ⟨l, by simp [hl], hcl⟩
          · exact Or.inr h3

theorem isQueryChar_of_range {c : Char} (h1 : 32 ≤ c.toNat) (h2 : c.toNat ≤ 126)
    (h3 : c.toNat ≠ 35) : isQueryChar c = true := by
  simp only [isQueryChar, Bool.and_eq_true, decide_eq_true_eq, bne_iff_ne]
  refine ⟨⟨h1, h2⟩, ?_⟩
  intro he
  exact h3 (by rw [he])

theorem serializeParams_chars (L : List (String × String)) :
    ∀ c ∈ (serializeParams L).data,
      isQueryChar c = true ∧ (c == '#') = false ∧ c.toNat < 256 := by
  intro c hc
  have hcj : c ∈ joinAmp (L.map fun p => formEncode p.1 ++ '=' :: formEncode p.2) := hc
  rcases mem_joinAmp hcj with ⟨piece, hpl, hcp⟩ | hamp
  · obtain ⟨p, _, hpe⟩ := List.mem_map.mp hpl
    rw [← hpe] at hcp
    rcases List.mem_append.mp hcp with h1 | h1
    · obtain ⟨d, _, hd⟩ := mem_flatMapChars h1
      obtain ⟨hr1, hr2, hr3, _, _⟩ := encChar_spec d c hd
      exact ⟨isQueryChar_of_range hr1 hr2 hr3,
        beq_false_of_toNat_ne (show c.toNat ≠ '#'.toNat from hr3), by omega⟩
    · rcases List.mem_cons.mp h1 with h2 | h2
      · subst h2
        exact ⟨by decide, by decide, by decide⟩
      · obtain ⟨d, _, hd⟩ := mem_flatMapChars h2
        obtain ⟨hr1, hr2, hr3, _, _⟩ := encChar_spec d c hd
        exact ⟨isQueryChar_of_range hr1 hr2 hr3,
          beq_false_of_toNat_ne (show c.toNat ≠ '#'.toNat from hr3), by omega⟩
  · subst hamp
    exact ⟨by decide, by decide, by decide⟩

theorem splitOnChar_ne_nil (c : Char) : ∀ (l : List Char), splitOnChar c l ≠ [] := by
  intro l
  induction l with
  | nil => exact fun h => List.noConfusion h
  | cons a t ih =>
    rw [splitOnChar]
    by_cases hac : (a == c) = true
    · rw [if_pos hac]
      exact fun h => List.noConfusion h
    · rw [if_neg hac]
      rcases hsp : splitOnChar c t with _ | ⟨s, ss⟩
      · exact fun h => List.noConfusion h
      · exact fun h => List.noConfusion h

theorem splitOnChar_append_last (c : Char) : ∀ (A : List Char),
    splitOnChar c (A ++ [c]) = splitOnChar c A ++ [[]] := by
  intro A
  induction A with
  | nil =>
    show splitOnChar c [c] = [[], []]
    rw [splitOnChar, if_pos (beq_iff_eq.mpr rfl)]
    rfl
  | cons a t ih =>
    by_cases hac : (a == c) = true
    · rw [List.cons_append, splitOnChar, if_pos hac, ih, splitOnChar, if_pos hac]
      rfl
    · rw [List.cons_append, splitOnChar, if_neg hac, ih, splitOnChar, if_neg hac]
      rcases hsp : splitOnChar c t with _ | ⟨s, ss⟩
      · exact absurd hsp (splitOnChar_ne_nil c t)
      · rfl

theorem stripPath_eq_of_not (p : String)
    (h : ¬(1 < p.length ∧ strEndsWithChar p '/' = true)) : stripPath p = p := by
  unfold stripPath
  rw [if_neg]
  intro hc
  rw [Bool.and_eq_true, decide_eq_true_eq] at hc
  exact h ⟨hc.1, hc.2⟩

theorem stripPath_eq_of (p : String) (h1 : 1 < p.length)
    (h2 : strEndsWithChar p '/' = true) :
    stripPath p = String.mk p.data.dropLast := by
  unfold stripPath
  rw [if_pos]
  rw [Bool.and_eq_true, decide_eq_true_eq]
  exact ⟨h1, h2⟩

theorem strEndsWithChar_iff {p : String} {c : Char} :
    strEndsWithChar p c = true ↔ ∃ A, p.data = A ++ [c] := by
  unfold strEndsWithChar
  rw [beq_iff_eq, List.getLast?_eq_head?_reverse]
  constructor
  · intro h
    rcases hd : p.data.reverse with _ | ⟨a, t⟩
    · rw [hd] at h
      exact nomatch h
    · rw [hd] at h
      rw [List.head?_cons, Option.some_inj] at h
      subst h
      refine ⟨t.reverse, ?_⟩
      rw [← List.reverse_reverse p.data, hd, List.reverse_cons]
  · intro ⟨A, hA⟩
    rw [hA, List.reverse_append, List.reverse_singleton, List.singleton_append,
      List.head?_cons]
-- Layer I2: stripPath preserves the path invariants; stripPath idempotence

theorem stripPath_head {p : String} (h : ∃ t, p.data = '/' :: t) :
    ∃ t, (stripPath p).data = '/' :: t := by
  by_cases hc : 1 < p.length ∧ strEndsWithChar p '/' = true
  · rw [stripPath_eq_of p hc.1 hc.2]
    obtain ⟨t, ht⟩ := h
    have htne : t ≠ [] := by
      intro hnil
      have hlen : p.length = 1 := by
        show p.data.length = 1
        rw [ht, hnil]
        rfl
      omega
    refine ⟨t.dropLast, ?_⟩
    show p.data.dropLast = '/' :: t.dropLast
    rw [ht]
    exact List.dropLast_cons_of_ne_nil htne
  · rw [stripPath_eq_of_not p hc]
    exact h

theorem stripPath_chars {p : String} (h : ∀ c ∈ p.data, isPathChar c = true) :
    ∀ c ∈ (stripPath p).data, isPathChar c = true := by
  by_cases hc : 1 < p.length ∧ strEndsWithChar p '/' = true
  · rw [stripPath_eq_of p hc.1 hc.2]
    intro c hcm
    exact h c (List.dropLast_subset p.data hcm)
  · rw [stripPath_eq_of_not p hc]
    exact h

theorem stripPath_segs {p : String}
    (h : ∀ seg ∈ splitOnChar '/' p.data, segOk seg = true) :
    ∀ seg ∈ splitOnChar '/' (stripPath p).data, segOk seg = true := by
  by_cases hc : 1 < p.length ∧ strEndsWithChar p '/' = true
  · rw [stripPath_eq_of p hc.1 hc.2]
    intro seg hs
    obtain ⟨A, hA⟩ := strEndsWithChar_iff.mp hc.2
    have hdl : p.data.dropLast = A := by
      rw [hA]
      exact dropLast_append_single A '/'
    have hs2 : seg ∈ splitOnChar '/' A := by
      rw [← hdl]
      exact hs
    refine h seg ?_
    rw [hA, splitOnChar_append_last]
    exact List.mem_append_left _ hs2
  · rw [stripPath_eq_of_not p hc]
    exact h

theorem stripPath_idem {p : String}
    (hds : matchesAt ['/', '/'] p.data.reverse = false) :
    stripPath (stripPath p) = stripPath p := by
  by_cases hc : 1 < p.length ∧ strEndsWithChar p '/' = true
  · rw [stripPath_eq_of p hc.1 hc.2]
    refine stripPath_eq_of_not _ (fun hc2 => ?_)
    obtain ⟨hl, he⟩ := hc2
    obtain ⟨A, hA⟩ := strEndsWithChar_iff.mp hc.2
    obtain ⟨B, hB⟩ := strEndsWithChar_iff.mp he
    have hdl : p.data.dropLast = A := by
      rw [hA]
      exact dropLast_append_single A '/'
    have hB2 : A = B ++ ['/'] := by
      rw [← hdl]
      exact hB
    have hPD : p.data = B ++ ['/', '/'] := by
      rw [hA, hB2]
      simp
    rw [hPD, List.reverse_append] at hds
    simp [matchesAt] at hds
  · rw [stripPath_eq_of_not p hc, stripPath_eq_of_not p hc]
-- Layer I3: character facts for the reparse, parser shape lemma

theorem isHostChar_toNat {c : Char} (h : isHostChar c = true) :
    (65 ≤ c.toNat ∧ c.toNat ≤ 90) ∨ (97 ≤ c.toNat ∧ c.toNat ≤ 122) ∨
    (48 ≤ c.toNat ∧ c.toNat ≤ 57) ∨ c.toNat = 46 ∨ c.toNat = 45 ∨ c.toNat = 95 := by
  have h46 : ('.' : Char).toNat = 46 := rfl
  have h45 : ('-' : Char).toNat = 45 := rfl
  have h95 : ('_' : Char).toNat = 95 := rfl
  simp only [isHostChar, asciiAlpha, asciiUpperAlpha, asciiLowerAlpha, asciiDigit,
    Bool.or_eq_true, Bool.and_eq_true, decide_eq_true_eq, beq_iff_eq,
    char_eq_iff_toNat, h46, h45, h95] at h
  omega

theorem isHostChar_not_delim {c : Char} (h : isHostChar c = true) :
    ((fun c => !isAuthDelim c) c) = true := by
  have hr := isHostChar_toNat h
  show (!isAuthDelim c) = true
  unfold isAuthDelim
  rw [beq_false_of_toNat_ne (show c.toNat ≠ '/'.toNat by
      rw [show '/'.toNat = 47 from rfl]; omega),
    beq_false_of_toNat_ne (show c.toNat ≠ '?'.toNat by
      rw [show '?'.toNat = 63 from rfl]; omega),
    beq_false_of_toNat_ne (show c.toNat ≠ '#'.toNat by
      rw [show '#'.toNat = 35 from rfl]; omega)]
  rfl

theorem isHostChar_ne_colon {c : Char} (h : isHostChar c = true) :
    ((fun c => c != ':') c) = true := by
  have hr := isHostChar_toNat h
  show (c != ':') = true
  rw [bne_iff_ne]
  intro he
  rw [char_eq_iff_toNat, show (':' : Char).toNat = 58 from rfl] at he
  omega

theorem asciiDigit_not_delim {c : Char} (h : asciiDigit c = true) :
    ((fun c => !isAuthDelim c) c) = true := by
  simp only [asciiDigit, Bool.and_eq_true, decide_eq_true_eq] at h
  show (!isAuthDelim c) = true
  unfold isAuthDelim
  rw [beq_false_of_toNat_ne (show c.toNat ≠ '/'.toNat by
      rw [show '/'.toNat = 47 from rfl]; omega),
    beq_false_of_toNat_ne (show c.toNat ≠ '?'.toNat by
      rw [show '?'.toNat = 63 from rfl]; omega),
    beq_false_of_toNat_ne (show c.toNat ≠ '#'.toNat by
      rw [show '#'.toNat = 35 from rfl]; omega)]
  rfl

theorem isPathChar_toNat {c : Char} (h : isPathChar c = true) :
    33 ≤ c.toNat ∧ c.toNat ≤ 126 ∧ c.toNat ≠ 0x3F ∧ c.toNat ≠ 0x23 ∧
      c.toNat ≠ 0x5C ∧ c.toNat ≠ 0x22 ∧ c.toNat ≠ 0x3C ∧ c.toNat ≠ 0x3E ∧
      c.toNat ≠ 0x60 ∧ c.toNat ≠ 0x5E ∧ c.toNat ≠ 0x7B ∧ c.toNat ≠ 0x7C ∧
      c.toNat ≠ 0x7D := by
  simp only [isPathChar, Bool.and_eq_true, decide_eq_true_eq, Bool.not_eq_true'] at h
  obtain ⟨⟨h1, h2⟩, h3⟩ := h
  refine ⟨h1, h2, ?_, ?_, ?_, ?_, ?_, ?_, ?_, ?_, ?_, ?_, ?_⟩ <;>
    (intro he; rw [he] at h3; exact absurd h3 (by decide))

theorem isPathChar_not_qh {c : Char} (h : isPathChar c = true) :
    ((fun c => !(c == '?' || c == '#')) c) = true := by
  have hr := isPathChar_toNat h
  show (!(c == '?' || c == '#')) = true
  rw [beq_false_of_toNat_ne (show c.toNat ≠ '?'.toNat by
      rw [show '?'.toNat = 63 from rfl]; omega),
    beq_false_of_toNat_ne (show c.toNat ≠ '#'.toNat by
      rw [show '#'.toNat = 35 from rfl]; omega)]
  rfl

theorem parseURLChars_shape (S R1 : List Char)
    (hSne : S ≠ []) (hS : ∀ c ∈ S, isSchemeChar c = true)
    (hS0 : asciiAlpha (S.headD 'a') = true) :
    parseURLChars (S ++ ':' :: '/' :: '/' :: R1) =
      (let auth := R1.takeWhile (fun c => !isAuthDelim c)
       let r2 := R1.dropWhile (fun c => !isAuthDelim c)
       let host := auth.takeWhile (fun c => c != ':')
       let portPart := auth.dropWhile (fun c => c != ':')
       if host.isEmpty then none
       else if !host.all isHostChar then none
       else
         match parsePort (String.mk (S.map asciiLower)) portPart with
         | none => none
         | some portStr =>
           match parsePath r2 with
           | none => none
           | some (path, r3) =>
             match parseQuery r3 with
             | none => none
             | some q =>
               some {
                 protocol := String.mk (S.map asciiLower) ++ ":"
                 hostname := String.mk (host.map asciiLower)
                 port := portStr
                 pathname := String.mk path
                 search := if q.isEmpty then "" else String.mk ('?' :: q) }) := by
  have ht : (S ++ ':' :: '/' :: '/' :: R1).takeWhile isSchemeChar = S := by
    rw [takeWhile_append_all hS, List.takeWhile_cons]
    rw [if_neg (by rw [show isSchemeChar ':' = false from by decide]; exact fun hc => nomatch hc)]
    simp
  have hd : (S ++ ':' :: '/' :: '/' :: R1).dropWhile isSchemeChar = ':' :: '/' :: '/' :: R1 := by
    rw [dropWhile_append_all hS, List.dropWhile_cons]
    rw [if_neg (by rw [show isSchemeChar ':' = false from by decide]; exact fun hc => nomatch hc)]
  unfold parseURLChars
  rw [ht, hd]
  rcases S with _ | ⟨s0, S'⟩
  · exact absurd rfl hSne
  dsimp only
  rw [if_neg (by
    rw [List.headD_cons] at hS0
    rw [show (!asciiAlpha s0) = false from by rw [hS0]; rfl]
    exact fun hc => nomatch hc)]
  rfl
-- Layer J1: evaluation lemmas for the reparse

theorem str_ext {a b : String} (h : a.data = b.data) : a = b := by
  cases a with
  | mk la =>
    cases b with
    | mk lb =>
      show String.mk la = String.mk lb
      have h2 : la = lb := h
      rw [h2]

theorem isEmpty_false_of_ne {ds : List Char} (h : ds ≠ []) : ds.isEmpty = false := by
  cases ds
  · exact absurd rfl h
  · rfl

theorem parsePort_nil (scheme : String) : parsePort scheme [] = some "" := rfl

theorem parsePort_eval {S : String} {ds : List Char} (hne : ds ≠ [])
    (hdig : ∀ c ∈ ds, asciiDigit c = true)
    (hlead : ¬(2 ≤ ds.length ∧ ds.headD '0' = '0'))
    (hlt : digitsToNat ds < 65536)
    (hd1 : ¬(S = "http" ∧ ds = ['8', '0']))
    (hd2 : ¬(S = "https" ∧ ds = ['4', '4', '3'])) :
    parsePort S (':' :: ds) = some (String.mk ds) := by
  have hstep : parsePort S (':' :: ds) =
      (if ds.isEmpty = true then some ""
       else if (!ds.all asciiDigit) = true then none
       else if (decide (2 ≤ ds.length) && ds.headD '0' == '0') = true then none
       else if decide (65536 ≤ digitsToNat ds) = true then none
       else if (S == "http" && ds == ['8', '0'] ||
           S == "https" && ds == ['4', '4', '3']) = true then some ""
       else some (String.mk ds)) := rfl
  rw [hstep]
  rw [if_neg (by
    rw [isEmpty_false_of_ne hne]
    exact fun hc => nomatch hc)]
  rw [if_neg (by
    rw [List.all_eq_true.mpr hdig]
    exact fun hc => nomatch hc)]
  rw [if_neg (by
    rw [Bool.and_eq_true]
    intro ⟨hc1, hc2⟩
    rw [decide_eq_true_eq] at hc1
    exact hlead ⟨hc1, beq_iff_eq.mp hc2⟩)]
  rw [if_neg (by
    rw [decide_eq_true_eq]
    omega)]
  rw [if_neg (by
    rw [Bool.or_eq_true]
    intro hc
    rcases hc with hc | hc <;> rw [Bool.and_eq_true] at hc
    · exact hd1 ⟨beq_iff_eq.mp hc.1, beq_iff_eq.mp hc.2⟩
    · exact hd2 ⟨beq_iff_eq.mp hc.1, beq_iff_eq.mp hc.2⟩)]

theorem parsePath_pathq {PATHd Q : List Char} (hhead : ∃ t, PATHd = '/' :: t)
    (hchars : ∀ c ∈ PATHd, isPathChar c = true)
    (hsegs : ∀ seg ∈ splitOnChar '/' PATHd, segOk seg = true)
    (hQ : Q = [] ∨ ∃ t, Q = '?' :: t) :
    parsePath (PATHd ++ Q) = some (PATHd, Q) := by
  obtain ⟨t, ht⟩ := hhead
  subst ht
  have htk : List.takeWhile (fun c => !(c == '?' || c == '#')) (('/' :: t) ++ Q)
      = '/' :: t := by
    rw [takeWhile_append_all (fun c hc => isPathChar_not_qh (hchars c hc))]
    rcases hQ with hQ | ⟨tq, hQ⟩
    · rw [hQ]
      simp
    · rw [hQ, List.takeWhile_cons, if_neg (by
        show ¬(!(('?' : Char) == '?' || ('?' : Char) == '#')) = true
        decide)]
      simp
  have hdr : List.dropWhile (fun c => !(c == '?' || c == '#')) (('/' :: t) ++ Q)
      = Q := by
    rw [dropWhile_append_all (fun c hc => isPathChar_not_qh (hchars c hc))]
    rcases hQ with hQ | ⟨tq, hQ⟩
    · rw [hQ]
      rfl
    · rw [hQ, List.dropWhile_cons, if_neg (by
        show ¬(!(('?' : Char) == '?' || ('?' : Char) == '#')) = true
        decide)]
  have hstep : parsePath (('/' :: t) ++ Q) =
      (let p := List.takeWhile (fun c => !(c == '?' || c == '#')) (('/' :: t) ++ Q)
       let r3 := List.dropWhile (fun c => !(c == '?' || c == '#')) (('/' :: t) ++ Q)
       if (!p.all isPathChar) = true then none
       else if (!(splitOnChar '/' p).all segOk) = true then none
       else some (p, r3)) := rfl
  rw [hstep]
  dsimp only
  rw [htk, hdr]
  rw [if_neg (by
    rw [List.all_eq_true.mpr hchars]
    exact fun hc => nomatch hc)]
  rw [if_neg (by
    rw [List.all_eq_true.mpr hsegs]
    exact fun hc => nomatch hc)]

theorem parsePath_fallback_q {Q : List Char} (hQ : ∃ t, Q = '?' :: t) :
    parsePath Q = some (['/'], Q) := by
  obtain ⟨t, ht⟩ := hQ
  rw [ht]
  rfl

theorem parsePath_nil : parsePath [] = some (['/'], []) := rfl

theorem parseQuery_nil : parseQuery [] = some [] := rfl

theorem parseQuery_eval {qsd : List Char}
    (hall : ∀ c ∈ qsd, isQueryChar c = true ∧ (c == '#') = false) :
    parseQuery ('?' :: qsd) = some qsd := by
  have htk : qsd.takeWhile (fun c => c != '#') = qsd := by
    refine takeWhile_all_eq ?_
    intro c hc
    show (c != '#') = true
    rw [bne, (hall c hc).2]
    rfl
  have hstep : parseQuery ('?' :: qsd) =
      (let q := List.takeWhile (fun c => c != '#') qsd
       if q.all isQueryChar then some q else none) := rfl
  rw [hstep]
  dsimp only
  rw [htk, if_pos (List.all_eq_true.mpr (fun c hc => (hall c hc).1))]
-- Layer J2: decomposition of the normalized URL string

theorem normalizeRec_eq (r : URLRec) :
    normalizeRec r =
      (let base0 := r.protocol ++ "//" ++ lowerStr r.hostname
       let base :=
         if !((r.protocol == "http:" && r.port == "80") ||
             (r.protocol == "https:" && r.port == "443") || r.port == "") then
           base0 ++ ":" ++ r.port
         else base0
       let path := stripPath r.pathname
       let qs := normQuery r.search
       let n := if path == "/" && qs != "" then base else base ++ path
       if qs != "" then n ++ "?" ++ qs else n) := rfl

theorem data_mk (l : List Char) : (String.mk l).data = l := rfl

theorem parseURL_mk (l : List Char) : parseURL (String.mk l) = parseURLChars l := rfl

theorem parse_build (S H PP PQ : List Char)
    (hSne : S ≠ []) (hS : ∀ c ∈ S, isSchemeChar c = true)
    (hS0 : asciiAlpha (S.headD 'a') = true)
    (hHne : H ≠ []) (hH : ∀ c ∈ H, isHostChar c = true)
    (hPP : PP = [] ∨ ∃ ds, PP = ':' :: ds ∧ (∀ c ∈ ds, asciiDigit c = true))
    (hPQ : PQ = [] ∨ (∃ t, PQ = '/' :: t) ∨ (∃ t, PQ = '?' :: t)) :
    parseURLChars (S ++ ':' :: '/' :: '/' :: (H ++ PP ++ PQ)) =
      (match parsePort (String.mk (S.map asciiLower)) PP with
       | none => none
       | some portStr =>
         match parsePath PQ with
         | none => none
         | some (path, r3) =>
           match parseQuery r3 with
           | none => none
           | some q =>
             some { protocol := String.mk (S.map asciiLower) ++ ":",
                    hostname := String.mk (H.map asciiLower),
                    port := portStr, pathname := String.mk path,
                    search := if q.isEmpty then "" else String.mk ('?' :: q) }) := by
  rw [parseURLChars_shape S _ hSne hS hS0]
  have hPQtk : PQ.takeWhile (fun c => !isAuthDelim c) = [] := by
    rcases hPQ with h | ⟨t, h⟩ | ⟨t, h⟩ <;> rw [h]
    · rfl
    · rw [List.takeWhile_cons, if_neg (by
        show ¬(!isAuthDelim '/') = true
        decide)]
    · rw [List.takeWhile_cons, if_neg (by
        show ¬(!isAuthDelim '?') = true
        decide)]
  have hPQdr : PQ.dropWhile (fun c => !isAuthDelim c) = PQ := by
    rcases hPQ with h | ⟨t, h⟩ | ⟨t, h⟩ <;> rw [h]
    · rfl
    · rw [List.dropWhile_cons, if_neg (by
        show ¬(!isAuthDelim '/') = true
        decide)]
    · rw [List.dropWhile_cons, if_neg (by
        show ¬(!isAuthDelim '?') = true
        decide)]
  have hPPall : ∀ c ∈ PP, ((fun c => !isAuthDelim c) c) = true := by
    rcases hPP with h | ⟨ds, h, hds⟩ <;> rw [h]
    · intro c hc
      exact absurd hc (List.not_mem_nil c)
    · intro c hc
      rcases List.mem_cons.mp hc with h1 | h1
      · subst h1
        decide
      · exact asciiDigit_not_delim (hds c h1)
  have hauth : (H ++ PP ++ PQ).takeWhile (fun c => !isAuthDelim c) = H ++ PP := by
    rw [List.append_assoc, takeWhile_append_all (fun c hc => isHostChar_not_delim (hH c hc)),
      takeWhile_append_all hPPall, hPQtk, List.append_nil]
  have hr2 : (H ++ PP ++ PQ).dropWhile (fun c => !isAuthDelim c) = PQ := by
    rw [List.append_assoc, dropWhile_append_all (fun c hc => isHostChar_not_delim (hH c hc)),
      dropWhile_append_all hPPall, hPQdr]
  have hhost : (H ++ PP).takeWhile (fun c => c != ':') = H := by
    rw [takeWhile_append_all (fun c hc => isHostChar_ne_colon (hH c hc))]
    rcases hPP with h | ⟨ds, h, _⟩ <;> rw [h]
    · simp
    · rw [List.takeWhile_cons, if_neg (by
        show ¬((':' : Char) != ':') = true
        decide)]
      simp
  have hportPart : (H ++ PP).dropWhile (fun c => c != ':') = PP := by
    rw [dropWhile_append_all (fun c hc => isHostChar_ne_colon (hH c hc))]
    rcases hPP with h | ⟨ds, h, _⟩ <;> rw [h]
    · rfl
    · rw [List.dropWhile_cons, if_neg (by
        show ¬((':' : Char) != ':') = true
        decide)]
  dsimp only
  rw [hauth, hr2, hhost, hportPart]
  rw [if_neg (by
    rw [isEmpty_false_of_ne hHne]
    exact fun hc => nomatch hc)]
  rw [if_neg (by
    rw [List.all_eq_true.mpr hH]
    exact fun hc => nomatch hc)]
-- Layer J3: the normalized string parses back to the expected record

theorem normalizeRec_data (r : URLRec)
    (hproto : r.protocol = String.mk (urlScheme r ++ [':']))
    (hHlow : ∀ c ∈ r.hostname.data, asciiLower c = c) :
    normalizeRec r = String.mk (urlScheme r ++ ':' :: '/' :: '/' ::
      (r.hostname.data ++ portPartL r ++ (pathPartL r ++ queryPartL r))) := by
  have hsl : ("//" : String).data = ['/', '/'] := rfl
  have hco : (":" : String).data = [':'] := rfl
  have hqm : ("?" : String).data = ['?'] := rfl
  rw [normalizeRec_eq]
  dsimp only
  rw [lowerStr_fix hHlow]
  by_cases hdef : ((r.protocol == "http:" && r.port == "80") ||
      (r.protocol == "https:" && r.port == "443") || r.port == "") = true
  · have hp1 : ¬((!((r.protocol == "http:" && r.port == "80") ||
        (r.protocol == "https:" && r.port == "443") || r.port == "")) = true) := by
      rw [hdef]
      exact fun hc => nomatch hc
    rw [if_neg hp1, portPartL, if_pos hdef]
    by_cases hq : normQuery r.search = ""
    · have hq1 : ¬((normQuery r.search != "") = true) := fun hc => (bne_iff_ne.mp hc) hq
      have hr1 : ¬((stripPath r.pathname == "/" && normQuery r.search != "") = true) := by
        rw [Bool.and_eq_true]
        exact fun hc => (bne_iff_ne.mp hc.2) hq
      rw [if_neg hq1, if_neg hr1, pathPartL, if_neg (fun hc => hc.2 hq),
        queryPartL, if_pos hq]
      refine str_ext ?_
      simp [String.data_append, data_mk, hproto, hsl, List.append_assoc]
    · have hq1 : (normQuery r.search != "") = true := bne_iff_ne.mpr hq
      rw [if_pos hq1]
      by_cases hroot : stripPath r.pathname = "/"
      · have hr1 : (stripPath r.pathname == "/" && normQuery r.search != "") = true := by
          rw [Bool.and_eq_true, beq_iff_eq]
          exact ⟨hroot, hq1⟩
        rw [if_pos hr1, pathPartL, if_pos ⟨hroot, hq⟩, queryPartL, if_neg hq]
        refine str_ext ?_
        simp [String.data_append, data_mk, hproto, hsl, hqm, List.append_assoc]
      · have hr1 : ¬((stripPath r.pathname == "/" && normQuery r.search != "") = true) := by
          rw [Bool.and_eq_true, beq_iff_eq]
          exact fun hc => hroot hc.1
        rw [if_neg hr1, pathPartL, if_neg (fun hc => hroot hc.1), queryPartL, if_neg hq]
        refine str_ext ?_
        simp [String.data_append, data_mk, hproto, hsl, hqm, List.append_assoc]
  · have hp1 : (!((r.protocol == "http:" && r.port == "80") ||
        (r.protocol == "https:" && r.port == "443") || r.port == "")) = true := by
      rw [Bool.eq_false_iff.mpr hdef]
      rfl
    rw [if_pos hp1, portPartL, if_neg hdef]
    by_cases hq : normQuery r.search = ""
    · have hq1 : ¬((normQuery r.search != "") = true) := fun hc => (bne_iff_ne.mp hc) hq
      have hr1 : ¬((stripPath r.pathname == "/" && normQuery r.search != "") = true) := by
        rw [Bool.and_eq_true]
        exact fun hc => (bne_iff_ne.mp hc.2) hq
      rw [if_neg hq1, if_neg hr1, pathPartL, if_neg (fun hc => hc.2 hq),
        queryPartL, if_pos hq]
      refine str_ext ?_
      simp [String.data_append, data_mk, hproto, hsl, hco, List.append_assoc]
    · have hq1 : (normQuery r.search != "") = true := bne_iff_ne.mpr hq
      rw [if_pos hq1]
      by_cases hroot : stripPath r.pathname = "/"
      · have hr1 : (stripPath r.pathname == "/" && normQuery r.search != "") = true := by
          rw [Bool.and_eq_true, beq_iff_eq]
          exact ⟨hroot, hq1⟩
        rw [if_pos hr1, pathPartL, if_pos ⟨hroot, hq⟩, queryPartL, if_neg hq]
        refine str_ext ?_
        simp [String.data_append, data_mk, hproto, hsl, hco, hqm, List.append_assoc]
      · have hr1 : ¬((stripPath r.pathname == "/" && normQuery r.search != "") = true) := by
          rw [Bool.and_eq_true, beq_iff_eq]
          exact fun hc => hroot hc.1
        rw [if_neg hr1, pathPartL, if_neg (fun hc => hroot hc.1), queryPartL, if_neg hq]
        refine str_ext ?_
        simp [String.data_append, data_mk, hproto, hsl, hco, hqm, List.append_assoc]
-- Layer J4: reparsing the normalized URL

theorem portPartL_spec (r : URLRec) (hwf : ParsedWF r) :
    (portPartL r = [] ∨ ∃ ds, portPartL r = ':' :: ds ∧ ∀ c ∈ ds, asciiDigit c = true) ∧
      parsePort (String.mk (urlScheme r)) (portPartL r) = some r.port := by
  rcases hwf.port_ok with hpe | ⟨hpne, hpdig, hplead, hplt, hpd1, hpd2⟩
  · have hcond : ((r.protocol == "http:" && r.port == "80") ||
        (r.protocol == "https:" && r.port == "443") || r.port == "") = true := by
      rw [Bool.or_eq_true]
      exact Or.inr (beq_iff_eq.mpr hpe)
    rw [portPartL, if_pos hcond]
    exact ⟨Or.inl rfl, by rw [parsePort_nil, hpe]⟩
  · have hne : (r.port == "") = false := by
      rw [beq_eq_false_iff_ne]
      intro he
      exact hpne (by rw [he])
    have h80 : (r.protocol == "http:" && r.port == "80") = false := by
      by_cases hp : (r.protocol == "http:") = true
      · rw [hp, Bool.true_and, beq_eq_false_iff_ne]
        intro he
        refine hpd1 ⟨?_, by rw [he]⟩
        have hpe2 := beq_iff_eq.mp hp
        rw [hwf.proto_eq] at hpe2
        have hdata : urlScheme r ++ [':'] = ("http:" : String).data :=
          congrArg String.data hpe2
        have h3 : ("http:" : String).data = ("http" : String).data ++ [':'] := rfl
        rw [h3] at hdata
        exact str_ext (List.append_cancel_right hdata)
      · rw [Bool.eq_false_iff.mpr hp, Bool.false_and]
    have h443 : (r.protocol == "https:" && r.port == "443") = false := by
      by_cases hp : (r.protocol == "https:") = true
      · rw [hp, Bool.true_and, beq_eq_false_iff_ne]
        intro he
        refine hpd2 ⟨?_, by rw [he]⟩
        have hpe2 := beq_iff_eq.mp hp
        rw [hwf.proto_eq] at hpe2
        have hdata : urlScheme r ++ [':'] = ("https:" : String).data :=
          congrArg String.data hpe2
        have h3 : ("https:" : String).data = ("https" : String).data ++ [':'] := rfl
        rw [h3] at hdata
        exact str_ext (List.append_cancel_right hdata)
      · rw [Bool.eq_false_iff.mpr hp, Bool.false_and]
    have hcond : ¬(((r.protocol == "http:" && r.port == "80") ||
        (r.protocol == "https:" && r.port == "443") || r.port == "") = true) := by
      rw [h80, h443, hne]
      exact fun hc => nomatch hc
    rw [portPartL, if_neg hcond]
    refine ⟨Or.inr ⟨r.port.data, rfl, hpdig⟩, ?_⟩
    rw [parsePort_eval hpne hpdig hplead hplt hpd1 hpd2]

theorem pathPartL_spec (r : URLRec) (hwf : ParsedWF r) :
    (pathPartL r ++ queryPartL r = [] ∨
      (∃ t, pathPartL r ++ queryPartL r = '/' :: t) ∨
      (∃ t, pathPartL r ++ queryPartL r = '?' :: t)) ∧
      parsePath (pathPartL r ++ queryPartL r) =
        some ((stripPath r.pathname).data, queryPartL r) := by
  have hhead := stripPath_head hwf.path_head
  have hchars := stripPath_chars hwf.path_chars
  have hsegs := stripPath_segs hwf.path_segs
  have hQ : queryPartL r = [] ∨ ∃ t, queryPartL r = '?' :: t := by
    rw [queryPartL]
    by_cases hq : normQuery r.search = ""
    · rw [if_pos hq]
      exact Or.inl rfl
    · rw [if_neg hq]
      exact Or.inr ⟨_, rfl⟩
  by_cases hroot : stripPath r.pathname = "/" ∧ normQuery r.search ≠ ""
  · have hQ2 : queryPartL r = '?' :: (normQuery r.search).data := by
      rw [queryPartL, if_neg hroot.2]
    rw [pathPartL, if_pos hroot, List.nil_append]
    constructor
    · exact Or.inr (Or.inr ⟨_, hQ2⟩)
    · rw [hQ2, parsePath_fallback_q ⟨_, rfl⟩, hroot.1]
  · rw [pathPartL, if_neg hroot]
    constructor
    · refine Or.inr (Or.inl ?_)
      obtain ⟨t, ht⟩ := hhead
      refine ⟨t ++ queryPartL r, ?_⟩
      rw [ht]
      rfl
    · exact parsePath_pathq hhead hchars hsegs hQ

theorem queryPartL_eval (r : URLRec) :
    parseQuery (queryPartL r) = some (normQuery r.search).data := by
  by_cases hq : normQuery r.search = ""
  · rw [queryPartL, if_pos hq, parseQuery_nil, hq]
  · rw [queryPartL, if_neg hq]
    refine parseQuery_eval ?_
    intro c hc
    have h1 := serializeParams_chars (normParams r.search) c hc
    exact ⟨h1.1, h1.2.1⟩

theorem parse_normalizeRec {r : URLRec} (hwf : ParsedWF r) :
    parseURL (normalizeRec r) = some
      { protocol := r.protocol, hostname := r.hostname, port := r.port,
        pathname := stripPath r.pathname,
        search := if normQuery r.search = "" then ""
          else String.mk ('?' :: (normQuery r.search).data) } := by
  have hSfix := map_asciiLower_fix hwf.scheme_lower
  have hHfix := map_asciiLower_fix hwf.host_lower
  obtain ⟨hPPshape, hPortEval⟩ := portPartL_spec r hwf
  obtain ⟨hPQshape, hPathEval⟩ := pathPartL_spec r hwf
  rw [normalizeRec_data r hwf.proto_eq hwf.host_lower, parseURL_mk,
    parse_build _ _ _ _ hwf.scheme_ne hwf.scheme_chars hwf.scheme_alpha
      hwf.host_ne hwf.host_chars hPPshape hPQshape]
  rw [hSfix, hHfix, hPortEval]
  dsimp only
  rw [hPathEval]
  dsimp only
  rw [queryPartL_eval r]
  dsimp only
  have hpro : String.mk (urlScheme r) ++ ":" = r.protocol := by
    rw [hwf.proto_eq]
    exact strMk_append _ [':']
  rw [hpro]
  by_cases hq : normQuery r.search = ""
  · rw [if_pos hq, hq]
    rfl
  · rw [if_neg hq]
    have hdne : (normQuery r.search).data ≠ [] := fun hnil => hq (str_ext hnil)
    rw [if_neg (by
      rw [isEmpty_false_of_ne hdne]
      exact fun hc => nomatch hc)]
-- Layer J5: idempotence of normalization

theorem normalizeRec_congr {a b : URLRec}
    (h1 : a.protocol = b.protocol) (h2 : lowerStr a.hostname = lowerStr b.hostname)
    (h3 : a.port = b.port) (h4 : stripPath a.pathname = stripPath b.pathname)
    (h5 : normQuery a.search = normQuery b.search) :
    normalizeRec a = normalizeRec b := by
  rw [normalizeRec_eq, normalizeRec_eq, h1, h2, h3, h4, h5]

theorem normQuery_requery (r : URLRec) (hwf : ParsedWF r) :
    normQuery (if normQuery r.search = "" then ""
      else String.mk ('?' :: (normQuery r.search).data)) = normQuery r.search := by
  by_cases hq : normQuery r.search = ""
  · rw [if_pos hq, normQuery_empty, hq]
  · rw [if_neg hq]
    have hcs : ∀ c ∈ r.search.data, c.toNat < 256 := by
      rcases hwf.search_ok with hse | ⟨q, hqne, hsd, hqc⟩
      · rw [hse]
        intro c hc
        exact absurd hc (List.not_mem_nil c)
      · rw [hsd]
        intro c hc
        rcases List.mem_cons.mp hc with h1 | h1
        · subst h1
          decide
        · have h2 := hqc c h1
          simp only [isQueryChar, Bool.and_eq_true, decide_eq_true_eq] at h2
          omega
    have hne : normParams r.search ≠ [] := by
      intro hnil
      refine hq ?_
      unfold normQuery
      rw [hnil]
      rfl
    exact congrArg serializeParams (normParams_self r.search hcs hne)

theorem normalizeRec_idem_aux {r : URLRec} (hwf : ParsedWF r)
    (hds : strEnds r.pathname "//" = false) :
    normalizeRec
      { protocol := r.protocol, hostname := r.hostname, port := r.port,
        pathname := stripPath r.pathname,
        search := if normQuery r.search = "" then ""
          else String.mk ('?' :: (normQuery r.search).data) } = normalizeRec r := by
  have hds2 : matchesAt ['/', '/'] r.pathname.data.reverse = false := hds
  exact normalizeRec_congr rfl rfl rfl (stripPath_idem hds2) (normQuery_requery r hwf)

/-- C5 (amended): `normalizeUrl` is idempotent on every URL whose parsed
pathname does not end in a double slash — if `u` parses to `r`,
`r.pathname` does not end in `"//"`, and `normalizeUrl u = some v`, then
`normalizeUrl v = some v`.  (The counterexample above shows the double
slash exclusion is necessary: one pass strips only one trailing slash.) -/
theorem c5_normalize_idempotent (u v : String) (r : URLRec)
    (hp : parseURL u = some r) (hds : strEnds r.pathname "//" = false)
    (hn : normalizeUrl u = some v) :
    normalizeUrl v = some v := by
  have hwf := parseURLChars_wf (hp : parseURLChars u.data = some r)
  have hv : v = normalizeRec r := by
    unfold normalizeUrl at hn
    rw [hp] at hn
    rw [Option.map_some'] at hn
    exact (Option.some_inj.mp hn).symm
  subst hv
  unfold normalizeUrl
  rw [parse_normalizeRec hwf, Option.map_some', Option.some_inj]
  exact normalizeRec_idem_aux hwf hds

/-- Witness for C5 (amended): a URL with one trailing slash normalizes to
a fixed point of `normalizeUrl`. -/
theorem c5_normalize_idempotent_witness :
    normalizeUrl "https://example.com/a/" = some "https://example.com/a" ∧
    normalizeUrl "https://example.com/a" = some "https://example.com/a" :=
  ⟨rfl, c5_normalize_idempotent "https://example.com/a/" "https://example.com/a"
    { protocol := "https:", hostname := "example.com", port := "",
      pathname := "/a/", search := "" }
    rfl (by decide) rfl⟩
